import Mathlib

/-!
# Resona — verification of the document-generation and editing core

Shallow embedding of the core logic of the Resona repository:

* `supabase/functions/generate-document/index.ts` — industry templates,
  suggested-section merging, model-reply reconciliation;
* `supabase/functions/analyze-document/index.ts` — upload validation;
* the document editor page (`DocumentView.tsx`) — section store operations,
  debounced persistence;
* `src/components/AskAIModal.tsx` — SSE stream consumption and
  markdown-to-HTML conversion.

JavaScript strings are modelled as Lean `String`/`List Char`; JS objects used
as string maps are modelled as association lists in insertion order; JS
truthiness of a possibly-undefined string (`undefined`/`""` are falsy) is
modelled explicitly.
-/

namespace Resona

/-- Apply `f` to each element together with its index, starting at `k`. -/
def mapWithIdxFrom (f : Nat → α → β) : Nat → List α → List β
  | _, [] => []
  | k, a :: as => f k a :: mapWithIdxFrom f (k + 1) as

/-- `Array.prototype.map((x, i) => ...)`: map with the element's index. -/
def mapWithIdx (f : Nat → α → β) (l : List α) : List β :=
  mapWithIdxFrom f 0 l

theorem length_mapWithIdxFrom (f : Nat → α → β) (k : Nat) (l : List α) :
    (mapWithIdxFrom f k l).length = l.length := by
  induction l generalizing k with
  | nil => rfl
  | cons a as ih => simp [mapWithIdxFrom, ih]

theorem length_mapWithIdx (f : Nat → α → β) (l : List α) :
    (mapWithIdx f l).length = l.length :=
  length_mapWithIdxFrom f 0 l

theorem getElem_mapWithIdxFrom (f : Nat → α → β) (k : Nat) (l : List α) (i : Nat)
    (h : i < (mapWithIdxFrom f k l).length) :
    (mapWithIdxFrom f k l)[i] =
      f (k + i) (l.get ⟨i, by simpa [length_mapWithIdxFrom] using h⟩) := by
  induction l generalizing k i with
  | nil => simp [mapWithIdxFrom] at h
  | cons a as ih =>
    cases i with
    | zero => simp [mapWithIdxFrom]
    | succ j =>
      have h' : j < (mapWithIdxFrom f (k + 1) as).length := by
        simpa [mapWithIdxFrom] using Nat.lt_of_succ_lt_succ (by simpa [mapWithIdxFrom] using h)
      simp only [mapWithIdxFrom, List.getElem_cons_succ]
      rw [ih (k + 1) j h']
      congr 1
      omega

theorem getElem_mapWithIdx (f : Nat → α → β) (l : List α) (i : Nat)
    (h : i < (mapWithIdx f l).length) :
    (mapWithIdx f l)[i] =
      f i (l.get ⟨i, by simpa [length_mapWithIdx] using h⟩) := by
  have := getElem_mapWithIdxFrom f 0 l i (by simpa [mapWithIdx] using h)
  simpa [mapWithIdx] using this

/-- JS `String.prototype.toLowerCase`, modelled character-wise. -/
def jsToLower (s : String) : String :=
  String.mk (s.toList.map Char.toLower)

/-- JS `String.prototype.includes`: substring containment test. -/
def jsIncludes (s t : String) : Bool :=
  (List.range (s.toList.length + 1)).any fun i => t.toList.isPrefixOf (s.toList.drop i)

/-- A JS object whose values are strings, in key-insertion order. -/
abbrev JsonMap := List (String × String)

/-- JS property read `m[k]`: `none` models `undefined`. -/
def jsGet (m : JsonMap) (k : String) : Option String :=
  (m.find? fun kv => kv.1 == k).map (·.2)

/-- JS truthiness of a possibly-undefined string (`undefined` and `""` are falsy). -/
def jsTruthy : Option String → Bool
  | none => false
  | some s => !(s == "")

/-- JS assignment `m[k] = v` on an object: overwrite in place, else append. -/
def jsSet (m : JsonMap) (k v : String) : JsonMap :=
  if m.any (fun kv => kv.1 == k) then
    m.map fun kv => if kv.1 == k then (k, v) else kv
  else m ++ [(k, v)]

/-! ## generate-document: templates and reconciliation -/

/-- The `INDUSTRY_SECTIONS` table (generate-document/index.ts lines 9–74),
as an association list from industry label to its ordered title list. -/
def INDUSTRY_SECTIONS : List (String × List String) :=
  [("Healthcare",
    ["Problem Statement", "Research Objectives", "User Requirements",
     "Regulatory Context (HIPAA/FDA)", "Clinical Workflow Analysis", "User Personas",
     "FMEA Analysis", "Patient Safety Requirements", "Cybersecurity Requirements",
     "Research Findings", "Design Implications"]),
   ("Financial Services",
    ["Problem Statement", "Research Objectives", "User Requirements",
     "Regulatory Compliance (SEC/KYC/AML)", "Security & Privacy Requirements",
     "Risk Analysis", "User Personas", "Fraud Prevention Considerations",
     "Market Analysis", "Research Findings", "Design Implications"]),
   ("B2B SaaS",
    ["Problem Statement", "Research Objectives", "User Requirements",
     "Stakeholder Analysis", "Integration Requirements", "User Personas",
     "Implementation & Adoption Considerations", "ROI & Success Metrics",
     "Market Analysis", "Research Findings", "Design Implications"]),
   ("E-commerce",
    ["Problem Statement", "Research Objectives", "User Requirements",
     "Conversion Funnel Analysis", "Cart Abandonment Insights", "User Personas",
     "Competitive Benchmarking", "Customer Journey Mapping", "Market Analysis",
     "Research Findings", "Design Implications"]),
   ("General/Other",
    ["Problem Statement", "Research Objectives", "User Requirements",
     "Competitive Analysis", "User Personas", "Technical Constraints",
     "Success Metrics", "Market Analysis", "Research Findings",
     "Design Implications"])]

/-- The `SECTION_DESCRIPTIONS` guidance table (generate-document/index.ts
lines 77–105). Values are abbreviated to their leading words: the claims
under verification depend on which keys are present and on values being
non-empty, never on the full prose. -/
def SECTION_DESCRIPTIONS : JsonMap :=
  [("Problem Statement", "Define the core problem with specific impact metrics."),
   ("Research Objectives", "List 4-6 specific research questions with measurable success criteria."),
   ("User Requirements", "Document functional and non-functional requirements with priority levels."),
   ("Regulatory Context (HIPAA/FDA)", "Outline specific compliance requirements with regulation references."),
   ("Clinical Workflow Analysis", "Map current vs. proposed workflows with time-on-task measurements."),
   ("User Personas", "Create 2-3 detailed personas with name, age, role, tech proficiency."),
   ("FMEA Analysis", "Document failure modes with Risk Priority Numbers."),
   ("Patient Safety Requirements", "Outline safety requirements referencing IEC 62366 usability engineering standards."),
   ("Cybersecurity Requirements", "Detail security requirements per NIST framework."),
   ("Research Findings", "Present findings with supporting data points."),
   ("Design Implications", "Translate each research finding into a specific design recommendation."),
   ("Regulatory Compliance (SEC/KYC/AML)", "Document specific regulatory requirements with section references."),
   ("Security & Privacy Requirements", "Specify encryption standards, authentication requirements."),
   ("Risk Analysis", "Assess risks using a probability x impact matrix."),
   ("Fraud Prevention Considerations", "Document specific fraud vectors with estimated exposure."),
   ("Market Analysis", "Include TAM/SAM/SOM figures, market growth rates, key trends."),
   ("Stakeholder Analysis", "Map stakeholders on an influence/interest matrix."),
   ("Integration Requirements", "Document specific APIs, data formats, latency requirements."),
   ("Implementation & Adoption Considerations", "Plan phased rollout with specific milestones."),
   ("ROI & Success Metrics", "Define specific KPIs with baseline values, target values."),
   ("Conversion Funnel Analysis", "Map each funnel stage with current conversion rates and drop-off points."),
   ("Cart Abandonment Insights", "Analyze abandonment by stage with specific rates."),
   ("Competitive Benchmarking", "Compare 3-5 named competitors on specific UX dimensions."),
   ("Customer Journey Mapping", "Map end-to-end journey with emotional highs/lows, specific touchpoints."),
   ("Competitive Analysis", "Analyze 3-5 named competitors with specific strengths, weaknesses."),
   ("Technical Constraints", "Document specific platform requirements, browser/device support matrix."),
   ("Success Metrics", "Define 5-8 specific KPIs with current baselines, target values.")]

/-- One entry of `importedDocumentAnalysis.suggestedAdditionalSections`. -/
structure SuggestedSection where
  title : String
  reason : String
  deriving Repr, DecidableEq

/-- One element of the generator's output array `result`
(generate-document/index.ts lines 288–308). -/
structure GeneratedSection where
  title : String
  content : String
  section_order : Nat
  deriving Repr, DecidableEq

/-- `SECTION_DESCRIPTIONS[title] || ''`. -/
def descFor (descs : JsonMap) (title : String) : String :=
  (jsGet descs title).getD ""

/-- The merged ordered section-title list: the base list plus every suggested
title whose lowercase form is not in the (fixed) lowercase set of the base
list (generate-document/index.ts lines 152–161). -/
def mergeSuggestedSections (sections : List String) (suggested : List SuggestedSection) :
    List String :=
  let existingLower := sections.map jsToLower
  sections ++
    ((suggested.filter fun s => !(existingLower.contains (jsToLower s.title))).map (·.title))

/-- JS `problemStatement.slice(0, 100)`. -/
def jsSlice100 (s : String) : String :=
  String.mk (s.toList.take 100)

/-- The per-section default filled in when JSON-parsing the model reply fails
(generate-document/index.ts lines 280–284). -/
def parseFailureContent (descs : JsonMap) (problemStatement : String) (title : String) :
    String :=
  "<h3>" ++ title ++ "</h3><p>" ++ descFor descs title ++
    "</p><p>Add your content here. Consider how this relates to: " ++
    jsSlice100 problemStatement ++ "...</p>"

/-- The `sectionContent` map after the parse stage: the parsed model map on
success, or one synthesized placeholder entry per canonical title on failure
(generate-document/index.ts lines 264–285). -/
def buildSectionContent (sections : List String) (descs : JsonMap)
    (problemStatement : String) (parsed : Option JsonMap) : JsonMap :=
  match parsed with
  | some m => m
  | none => sections.map fun s => (s, parseFailureContent descs problemStatement s)

/-- The loose-match test used in the reconciliation loop: case-insensitive
equality or substring containment in either direction
(generate-document/index.ts line 296). -/
def looseTitleMatch (lowerTitle : String) (key : String) : Bool :=
  jsToLower key == lowerTitle || jsIncludes (jsToLower key) lowerTitle ||
    jsIncludes lowerTitle (jsToLower key)

/-- The final per-title fallback content
(generate-document/index.ts line 305). -/
def reconcileFallback (descs : JsonMap) (title : String) : String :=
  "<h3>" ++ title ++ "</h3><p>" ++ descFor descs title ++ "</p><p>Add your content here...</p>"

/-- Resolve one canonical title against the parsed map: exact (truthy) key
read first; otherwise a single pass over the entries in insertion order
taking the first loose match; `foundContent || fallback` at the end
(generate-document/index.ts lines 288–307). -/
def resolveSectionContent (sectionContent : JsonMap) (descs : JsonMap) (title : String) :
    String :=
  let exact := jsGet sectionContent title
  let found :=
    if jsTruthy exact then exact
    else
      match sectionContent.find? (fun kv => looseTitleMatch (jsToLower title) kv.1) with
      | some kv => some kv.2
      | none => exact
  if jsTruthy found then found.getD "" else reconcileFallback descs title

/-- The emitted `result` array: one `{title, content, section_order}` per
canonical title, in canonical order (generate-document/index.ts
lines 288–308). -/
def generateResult (sections : List String) (descs : JsonMap)
    (problemStatement : String) (parsed : Option JsonMap) : List GeneratedSection :=
  let sectionContent := buildSectionContent sections descs problemStatement parsed
  mapWithIdx
    (fun i title =>
      { title := title
        content := resolveSectionContent sectionContent descs title
        section_order := i })
    sections

/-- `INDUSTRY_SECTIONS[industry] || INDUSTRY_SECTIONS["General/Other"]` as a
pure read of the static table (generate-document/index.ts line 145). -/
def industrySectionsFor (industry : String) : List String :=
  match INDUSTRY_SECTIONS.find? (fun kv => kv.1 == industry) with
  | some kv => kv.2
  | none =>
      ((INDUSTRY_SECTIONS.find? fun kv => kv.1 == "General/Other").map (·.2)).getD []

/-! ### Shape lemmas for the reconciliation output -/

theorem reconcileFallback_ne_empty (descs : JsonMap) (title : String) :
    reconcileFallback descs title ≠ "" := by
  intro h
  have hlen := congrArg String.length h
  simp only [reconcileFallback, String.length_append,
    show ("<h3>" : String).length = 4 from rfl,
    show ("" : String).length = 0 from rfl] at hlen
  omega

theorem jsTruthy_getD_or_ne (o : Option String) (fb : String) (hfb : fb ≠ "") :
    (if jsTruthy o then o.getD "" else fb) ≠ "" := by
  cases o with
  | none => simpa [jsTruthy] using hfb
  | some v =>
    by_cases hv : v = ""
    · subst hv; simpa [jsTruthy] using hfb
    · simp [jsTruthy, hv]

theorem resolveSectionContent_ne_empty (m descs : JsonMap) (title : String) :
    resolveSectionContent m descs title ≠ "" := by
  unfold resolveSectionContent
  exact jsTruthy_getD_or_ne _ _ (reconcileFallback_ne_empty descs title)

theorem generateResult_map_title (sections : List String) (descs : JsonMap)
    (problemStatement : String) (parsed : Option JsonMap) :
    (generateResult sections descs problemStatement parsed).map (·.title) = sections := by
  unfold generateResult mapWithIdx
  generalize buildSectionContent sections descs problemStatement parsed = m
  generalize 0 = k
  induction sections generalizing k with
  | nil => rfl
  | cons a as ih => simp [mapWithIdxFrom, ih]

theorem generateResult_map_order (sections : List String) (descs : JsonMap)
    (problemStatement : String) (parsed : Option JsonMap) :
    (generateResult sections descs problemStatement parsed).map (·.section_order)
      = List.range sections.length := by
  unfold generateResult mapWithIdx
  generalize buildSectionContent sections descs problemStatement parsed = m
  rw [List.range_eq_range']
  generalize 0 = k
  induction sections generalizing k with
  | nil => rfl
  | cons a as ih => simp [mapWithIdxFrom, List.range', ih]

theorem generateResult_content_ne_empty (sections : List String) (descs : JsonMap)
    (problemStatement : String) (parsed : Option JsonMap) :
    ∀ g ∈ generateResult sections descs problemStatement parsed, g.content ≠ "" := by
  unfold generateResult mapWithIdx
  generalize buildSectionContent sections descs problemStatement parsed = m
  generalize 0 = k
  induction sections generalizing k with
  | nil => intro g hg; simp [mapWithIdxFrom] at hg
  | cons a as ih =>
    intro g hg
    simp only [mapWithIdxFrom, List.mem_cons] at hg
    rcases hg with hg | hg
    · subst hg; exact resolveSectionContent_ne_empty m descs a
    · exact ih (k + 1) g hg

/-- C1: for every generation call that reaches reconciliation, the emitted
section array has exactly one entry per title of the canonical ordered list
(base industry list plus appended suggestions, in order), with
`section_order` equal to the title's position (a dense `0..n-1` sequence) and
non-empty content. The parse outcome is quantified over all possibilities:
`parsed = some m` covers a model reply that was well-formed JSON or JSON
recovered from a fenced code block (the map the code obtains from
`JSON.parse`), and `parsed = none` covers unparseable prose (the code then
synthesizes the placeholder map), so the shape guarantee holds regardless of
model-output quality. -/
theorem generateResult_shape (industry : String) (suggested : List SuggestedSection)
    (descs : JsonMap) (problemStatement : String) (parsed : Option JsonMap) :
    let canonical := mergeSuggestedSections (industrySectionsFor industry) suggested
    let result := generateResult canonical descs problemStatement parsed
    result.map (·.title) = canonical ∧
    result.map (·.section_order) = List.range canonical.length ∧
    result.all (fun g => !(g.content == "")) = true := by
  intro canonical result
  refine ⟨generateResult_map_title .., generateResult_map_order .., ?_⟩
  rw [List.all_eq_true]
  intro g hg
  have := generateResult_content_ne_empty canonical descs problemStatement parsed g hg
  simpa using this

/-- C2 counterexample: with canonical title "Research Findings" and parsed map
`{"Research Findings Overview": "A", "research findings": "B"}`, the map
contains a key ("research findings") equal to the canonical title
case-insensitively, yet reconciliation picks "A" — the content of the earlier
key that only matches as a substring — because the code performs one combined
pass in insertion order, not a case-insensitive-exact pass before a substring
pass. -/
theorem resolve_no_ci_exact_preference :
    resolveSectionContent
        [("Research Findings Overview", "A"), ("research findings", "B")]
        [] "Research Findings" = "A" ∧
      jsToLower "research findings" = jsToLower "Research Findings" ∧
      jsToLower "Research Findings Overview" ≠ jsToLower "Research Findings" := by
  exact ⟨by decide, by decide, by decide⟩

/-- Reference resolution following the amended claim's wording: (a) exact key
with non-empty value; (b) otherwise, one single pass over the map in
insertion order taking the first key that matches case-insensitively exactly
OR as a substring in either direction — insertion order alone breaks ties,
with no preference for exact case-insensitive matches over substring
matches; (c) if that key's value is empty, or no key matches, the generated
placeholder. -/
def resolveLooseSpec (m descs : JsonMap) (title : String) : String :=
  match m.find? (fun kv => looseTitleMatch (jsToLower title) kv.1) with
  | some kv => if kv.2 == "" then reconcileFallback descs title else kv.2
  | none => reconcileFallback descs title

/-- See `resolveLooseSpec`: the exact-match step of the amended claim. -/
def resolveSectionContentSpec (m descs : JsonMap) (title : String) : String :=
  match jsGet m title with
  | some v => if v == "" then resolveLooseSpec m descs title else v
  | none => resolveLooseSpec m descs title

/-- C2 (amended): reconciliation resolves each canonical title by (a) exact
key match with non-empty value, then (b) a single combined pass in map
insertion order taking the first key that matches case-insensitively exactly
or as a substring in either direction — first match in insertion order wins,
with no priority of case-insensitive-exact matches over substring matches —
then (d) the generated placeholder (also used when the matched value is
empty). Stated as a refinement: the code's resolution equals the
specification-worded resolution for every map and title. -/
theorem resolveSectionContent_eq_spec (m descs : JsonMap) (title : String) :
    resolveSectionContent m descs title = resolveSectionContentSpec m descs title := by
  unfold resolveSectionContent resolveSectionContentSpec resolveLooseSpec
  cases hexact : jsGet m title with
  | none =>
    cases hfind : m.find? (fun kv => looseTitleMatch (jsToLower title) kv.1) with
    | none => simp [jsTruthy]
    | some kv =>
      by_cases hkv : kv.2 = ""
      · simp [jsTruthy, hkv]
      · simp [jsTruthy, hkv]
  | some v =>
    by_cases hv : v = ""
    · subst hv
      cases hfind : m.find? (fun kv => looseTitleMatch (jsToLower title) kv.1) with
      | none => simp [jsTruthy]
      | some kv =>
        by_cases hkv : kv.2 = ""
        · simp [jsTruthy, hkv]
        · simp [jsTruthy, hkv]
    · simp [jsTruthy, hv]

/-! ### Module-level table state across generation calls (C3) -/

/-- The module-level mutable state of the generate-document function: the
industry→sections table and the title→guidance table, shared by every call
served by the same running process. -/
structure ModuleTables where
  industrySections : List (String × List String)
  sectionDescriptions : JsonMap
  deriving Repr, DecidableEq

/-- The module state right after the function module is loaded. -/
def moduleTablesAtLoad : ModuleTables :=
  ⟨INDUSTRY_SECTIONS, SECTION_DESCRIPTIONS⟩

/-- The key whose entry `let sections = INDUSTRY_SECTIONS[industry] ||
INDUSTRY_SECTIONS["General/Other"]` aliases: the industry's own entry when
present, otherwise the "General/Other" entry. -/
def tableKeyFor (tables : List (String × List String)) (industry : String) : String :=
  if (tables.find? fun kv => kv.1 == industry).isSome then industry else "General/Other"

/-- The ordered title list a generation call resolves from the current module
state (generate-document/index.ts line 145). -/
def tableSectionsFor (tables : List (String × List String)) (industry : String) :
    List String :=
  ((tables.find? fun kv => kv.1 == tableKeyFor tables industry).map (·.2)).getD []

/-- One generation call's suggested-section merge
(generate-document/index.ts lines 149–161): `sections.push(...)` mutates the
aliased entry of the shared industry table in place, and
`SECTION_DESCRIPTIONS[suggested.title] = ...` writes into the shared guidance
table. Returns the module state after the call together with the section
list the call uses. -/
def applyGenerateMerge (st : ModuleTables) (industry : String)
    (suggested : List SuggestedSection) : ModuleTables × List String :=
  let key := tableKeyFor st.industrySections industry
  let base := tableSectionsFor st.industrySections industry
  let existingLower := base.map jsToLower
  let fresh := suggested.filter fun s => !(existingLower.contains (jsToLower s.title))
  let merged := base ++ fresh.map (·.title)
  let tables := st.industrySections.map fun kv => if kv.1 == key then (kv.1, merged) else kv
  let descs := fresh.foldl
    (fun d s =>
      jsSet d s.title
        (if s.reason == "" then "Document relevant information for " ++ s.title ++ "."
         else s.reason))
    st.sectionDescriptions
  (⟨tables, descs⟩, merged)

/-- The module tables after a "Healthcare" generation call that merged one
suggested section (the in-place mutation of the shared tables). -/
def mergedHealthcareTables : ModuleTables :=
  (applyGenerateMerge moduleTablesAtLoad "Healthcare"
      [⟨"Novel Compliance Deep-Dive", "Needed to cover compliance gaps."⟩]).1

/-- C3 evidence (the code violates the claim): a call for "Healthcare" that
merges one suggested section pushes the suggestion onto the shared
`INDUSTRY_SECTIONS["Healthcare"]` array and writes into the shared
`SECTION_DESCRIPTIONS` table, so a later call with the same industry and
no analysis of an imported document resolves the extended 12-title list and
the leaked guidance entry, not the original configuration. -/
theorem generate_merge_mutates_shared_tables :
    tableSectionsFor mergedHealthcareTables.industrySections "Healthcare"
        = tableSectionsFor moduleTablesAtLoad.industrySections "Healthcare"
          ++ ["Novel Compliance Deep-Dive"] ∧
      tableSectionsFor mergedHealthcareTables.industrySections "Healthcare"
        ≠ tableSectionsFor moduleTablesAtLoad.industrySections "Healthcare" ∧
      jsGet moduleTablesAtLoad.sectionDescriptions "Novel Compliance Deep-Dive" = none ∧
      jsGet mergedHealthcareTables.sectionDescriptions "Novel Compliance Deep-Dive"
        = some "Needed to cover compliance gaps." := by
  refine ⟨by decide, by decide, by decide, by decide⟩

/-! ### Upstream failure handling and the submit flow (C5) -/

/-- The upstream model-gateway response, at the granularity the generator
inspects it: a completion string, or a non-2xx HTTP status. -/
inductive UpstreamResult where
  | ok (content : String)
  | httpError (status : Nat)
  deriving Repr, DecidableEq

/-- An error payload returned by the edge function. -/
structure ErrorResponse where
  status : Nat
  message : String
  deriving Repr, DecidableEq

/-- The generator call's caller-visible outcome. -/
inductive GenerateResponse where
  | success (sections : List GeneratedSection)
  | failure (e : ErrorResponse)
  deriving Repr, DecidableEq

/-- The generator call outcome as a function of the upstream gateway response
(generate-document/index.ts lines 237–312): 429 and 402 map to their
dedicated error branches, any other non-2xx to the 503 branch; a completion
is parsed (`parse` models the fenced-block / brace-span extraction plus
`JSON.parse`; `none` is a parse failure) and reconciled into sections. -/
def generateDocumentOutcome (sections : List String) (descs : JsonMap)
    (problemStatement : String) (parse : String → Option JsonMap) :
    UpstreamResult → GenerateResponse
  | .httpError s =>
      if s == 429 then
        .failure ⟨429, "Rate limit exceeded. Please try again in a moment."⟩
      else if s == 402 then
        .failure ⟨402, "AI credits exhausted. Please add credits to continue."⟩
      else
        .failure ⟨503, "Service temporarily unavailable. Please try again later."⟩
  | .ok content => .success (generateResult sections descs problemStatement (parse content))

/-- The database rows inserted by the project-creation submit flow
(part_002 `handleSubmit`, lines 322–380): the generator is invoked first and
a failure throws to the catch block before any insert, so rows are inserted
(one project row, then the returned section rows) only on success. Returns
(number of project rows, number of section rows) inserted. -/
def handleSubmitInserts (gen : GenerateResponse) : Nat × Nat :=
  match gen with
  | .failure _ => (0, 0)
  | .success secs => (1, secs.length)

/-- C5: when the upstream gateway responds HTTP 429, the generation call
fails with status 429 and the rate-limit message — distinct from the quota
and unavailability messages — and the submit flow inserts no project row and
no section rows. -/
theorem rate_limited_generation_inserts_nothing (sections : List String)
    (descs : JsonMap) (problemStatement : String) (parse : String → Option JsonMap) :
    generateDocumentOutcome sections descs problemStatement parse (.httpError 429)
        = .failure ⟨429, "Rate limit exceeded. Please try again in a moment."⟩ ∧
      handleSubmitInserts
          (generateDocumentOutcome sections descs problemStatement parse (.httpError 429))
        = (0, 0) ∧
      ("Rate limit exceeded. Please try again in a moment." : String)
        ≠ "AI credits exhausted. Please add credits to continue." ∧
      ("Rate limit exceeded. Please try again in a moment." : String)
        ≠ "Service temporarily unavailable. Please try again later." := by
  exact ⟨rfl, rfl, by decide, by decide⟩

/-! ## analyze-document: upload validation (C7, C9) -/

/-- JS `String.prototype.endsWith`. -/
def strEndsWith (s t : String) : Bool :=
  t.toList.isSuffixOf s.toList

/-- The rejection branches of the analyzer's validation pipeline, in source
order (analyze-document/index.ts lines 55–171). -/
inductive AnalyzeReject where
  | unsupportedExtension
  | unsupportedMime
  | fileTooLarge
  | invalidPdf
  | invalidDocx
  | invalidDocxStructure
  deriving Repr, DecidableEq

/-- The HTTP status each rejection branch returns. -/
def rejectStatus : AnalyzeReject → Nat
  | _ => 400

/-- The user-facing message each rejection branch returns. -/
def rejectMessage : AnalyzeReject → String
  | .unsupportedExtension => "Unsupported file type. Please upload PDF, DOC, or DOCX files."
  | .unsupportedMime => "Unsupported file type."
  | .fileTooLarge => "File too large. Maximum size is 10MB."
  | .invalidPdf => "Invalid PDF file."
  | .invalidDocx => "Invalid DOCX file."
  | .invalidDocxStructure =>
      "Invalid DOCX file. The file does not contain valid Office document structure."

/-- The magic-byte / structure rejections are the spec's `InvalidFileFormat`
error family. -/
def isInvalidFileFormat : AnalyzeReject → Bool
  | .invalidPdf => true
  | .invalidDocx => true
  | .invalidDocxStructure => true
  | _ => false

def allowedExtensions : List String := [".pdf", ".doc", ".docx"]

def allowedMimeTypes : List String :=
  ["application/pdf", "application/msword",
   "application/vnd.openxmlformats-officedocument.wordprocessingml.document",
   "application/octet-stream"]

def MAX_FILE_SIZE : Nat := 10 * 1024 * 1024

/-- The ASCII byte sequence of a marker string. -/
def asciiBytes (s : String) : List Nat :=
  s.toList.map Char.toNat

/-- Byte-level subsequence containment. -/
def bytesContain (l sub : List Nat) : Bool :=
  (List.range (l.length + 1)).any fun i => sub.isPrefixOf (l.drop i)

/-- The Office-marker test on the decoded buffer
(analyze-document/index.ts lines 161–165); ASCII marker occurrence in the
UTF-8 decoded text is modelled as byte-level occurrence. -/
def hasOfficeMarkers (bytes : List Nat) : Bool :=
  bytesContain bytes (asciiBytes "[Content_Types].xml") ||
    bytesContain bytes (asciiBytes "word/document.xml") ||
    bytesContain bytes (asciiBytes "word/_rels")

/-- The `%PDF-` magic-byte rejection condition
(analyze-document/index.ts line 102). -/
def pdfMagicBad (bytes : List Nat) : Bool :=
  decide (bytes.length < 5) || bytes.getD 0 0 != 0x25 || bytes.getD 1 0 != 0x50 ||
    bytes.getD 2 0 != 0x44 || bytes.getD 3 0 != 0x46 || bytes.getD 4 0 != 0x2D

/-- The `PK\x03\x04` ZIP magic-byte rejection condition
(analyze-document/index.ts line 153). -/
def zipMagicBad (bytes : List Nat) : Bool :=
  decide (bytes.length < 4) || bytes.getD 0 0 != 0x50 || bytes.getD 1 0 != 0x4B ||
    bytes.getD 2 0 != 0x03 || bytes.getD 3 0 != 0x04

/-- The analyzer's validation pipeline in source order: extension allow-list,
MIME allow-list (empty MIME skips the check), 10 MB ceiling, then the
format-specific magic/structure checks — `.pdf` files take the PDF branch,
everything else (`.doc`, `.docx`) takes the DOCX branch
(analyze-document/index.ts lines 55–171). `none` means validation passed. -/
def analyzeValidate (name mime : String) (bytes : List Nat) : Option AnalyzeReject :=
  if !(allowedExtensions.any fun ext => strEndsWith (jsToLower name) ext) then
    some .unsupportedExtension
  else if mime != "" && !(allowedMimeTypes.contains mime) then
    some .unsupportedMime
  else if decide (bytes.length > MAX_FILE_SIZE) then
    some .fileTooLarge
  else if strEndsWith (jsToLower name) ".pdf" then
    if pdfMagicBad bytes then some .invalidPdf else none
  else
    if zipMagicBad bytes then some .invalidDocx
    else if !(hasOfficeMarkers bytes) then some .invalidDocxStructure
    else none

/-- The whole analyzer run up to text extraction, with the extraction
heuristics abstracted as `extract`: validation failures return before any
extraction work, so the outcome on a rejected file is the same for every
extraction function. -/
def analyzeDocument (extract : String → List Nat → String) (name mime : String)
    (bytes : List Nat) : Except AnalyzeReject String :=
  match analyzeValidate name mime bytes with
  | some r => .error r
  | none => .ok (extract name bytes)

theorem strEndsWith_ne_of_suffixes (s a b : String)
    (ha : strEndsWith s a = true) (hlen : a.toList.length = b.toList.length)
    (hne : a.toList ≠ b.toList) : strEndsWith s b = false := by
  by_contra hb
  rw [Bool.not_eq_false] at hb
  unfold strEndsWith at ha hb
  have ha' : a.toList <:+ s.toList := (List.isSuffixOf_iff_suffix).mp ha
  have hb' : b.toList <:+ s.toList := (List.isSuffixOf_iff_suffix).mp hb
  have hab : a.toList <:+ b.toList :=
    List.suffix_of_suffix_length_le ha' hb' (le_of_eq hlen)
  exact hne (hab.eq_of_length hlen)

/-- When the extension, MIME, and size gates pass, validation reduces to the
format-specific magic/structure checks. -/
theorem analyzeValidate_gates (name mime : String) (bytes : List Nat)
    (hext : (allowedExtensions.any fun ext => strEndsWith (jsToLower name) ext) = true)
    (hmime : (mime != "" && !(allowedMimeTypes.contains mime)) = false)
    (hsize : bytes.length ≤ MAX_FILE_SIZE) :
    analyzeValidate name mime bytes =
      if strEndsWith (jsToLower name) ".pdf" then
        if pdfMagicBad bytes then some .invalidPdf else none
      else if zipMagicBad bytes then some .invalidDocx
      else if !(hasOfficeMarkers bytes) then some .invalidDocxStructure
      else none := by
  have hsize' : decide (bytes.length > MAX_FILE_SIZE) = false := by
    simpa using Nat.not_lt.mpr hsize
  unfold analyzeValidate
  rw [hext, hmime, hsize']
  simp only [Bool.not_true, Bool.false_eq_true, if_false]

/-- C7: an uploaded file whose (lowercased) name passes the extension
allow-list and the MIME and size gates, but whose bytes fail the declared
format's signature check — `%PDF-` for the PDF branch, or the ZIP magic plus
internal Office marker for the DOCX branch — is rejected with one of the
`InvalidFileFormat` errors; the rejection is independent of the extraction
function, so no text-extraction work can influence (or be reached in) the
outcome. -/
theorem magic_mismatch_rejected_before_extraction
    (extract : String → List Nat → String) (name mime : String) (bytes : List Nat)
    (hext : (allowedExtensions.any fun ext => strEndsWith (jsToLower name) ext) = true)
    (hmime : (mime != "" && !(allowedMimeTypes.contains mime)) = false)
    (hsize : bytes.length ≤ MAX_FILE_SIZE)
    (hmagic : if strEndsWith (jsToLower name) ".pdf" then pdfMagicBad bytes = true
              else (zipMagicBad bytes || !(hasOfficeMarkers bytes)) = true) :
    ∃ r, isInvalidFileFormat r = true ∧
      analyzeDocument extract name mime bytes = .error r ∧
      rejectStatus r = 400 := by
  unfold analyzeDocument
  rw [analyzeValidate_gates name mime bytes hext hmime hsize]
  by_cases hpdf : strEndsWith (jsToLower name) ".pdf" = true
  · rw [if_pos hpdf] at hmagic
    rw [if_pos hpdf, if_pos hmagic]
    exact ⟨.invalidPdf, rfl, rfl, rfl⟩
  · rw [if_neg hpdf] at hmagic
    rw [if_neg hpdf]
    by_cases hzip : zipMagicBad bytes = true
    · rw [if_pos hzip]
      exact ⟨.invalidDocx, rfl, rfl, rfl⟩
    · rw [Bool.not_eq_true] at hzip
      have hmark : (!(hasOfficeMarkers bytes)) = true := by
        rcases Bool.or_eq_true_iff.mp hmagic with h | h
        · exact absurd h (by simp [hzip])
        · exact h
      rw [if_neg (by simp [hzip]), if_pos hmark]
      exact ⟨.invalidDocxStructure, rfl, rfl, rfl⟩

/-- C7 witness: a file named "report.pdf" (valid extension, no declared MIME,
tiny) whose bytes `[0, 1, 2]` do not start with `%PDF-` is rejected with an
`InvalidFileFormat` error for every extraction function. -/
theorem magic_mismatch_rejected_before_extraction_witness :
    ∃ r, isInvalidFileFormat r = true ∧
      analyzeDocument (fun _ _ => "scraped text") "report.pdf" "" [0, 1, 2] = .error r ∧
      rejectStatus r = 400 :=
  magic_mismatch_rejected_before_extraction (fun _ _ => "scraped text") "report.pdf" ""
    [0, 1, 2] (by decide) (by decide) (by decide) (by decide)

/-- C9: a file named `*.doc` whose bytes do not begin with the ZIP signature
`PK\x03\x04` — the case for every legacy OLE-container `.doc` file — can
never be analyzed: validation never succeeds for it, and when it passes the
MIME and size gates the rejection is precisely the DOCX branch's
"Invalid DOCX file." 400 error, because `.doc` names are routed to the DOCX
branch despite being on the extension allow-list. -/
theorem legacy_doc_never_analyzed
    (extract : String → List Nat → String) (name mime : String) (bytes : List Nat)
    (hdoc : strEndsWith (jsToLower name) ".doc" = true)
    (hmagic : zipMagicBad bytes = true) :
    (∀ s, analyzeDocument extract name mime bytes ≠ .ok s) ∧
      ((mime != "" && !(allowedMimeTypes.contains mime)) = false →
        bytes.length ≤ MAX_FILE_SIZE →
        analyzeDocument extract name mime bytes = .error .invalidDocx) ∧
      rejectMessage .invalidDocx = "Invalid DOCX file." ∧
      rejectStatus .invalidDocx = 400 := by
  have hext : (allowedExtensions.any fun ext => strEndsWith (jsToLower name) ext) = true := by
    simp only [allowedExtensions, List.any_cons, List.any_nil, Bool.or_eq_true]
    exact Or.inr (Or.inl hdoc)
  have hpdf : strEndsWith (jsToLower name) ".pdf" = false :=
    strEndsWith_ne_of_suffixes (jsToLower name) ".doc" ".pdf" hdoc (by decide) (by decide)
  refine ⟨?_, ?_, rfl, rfl⟩
  · intro s hok
    have hval : ∃ r, analyzeValidate name mime bytes = some r := by
      unfold analyzeValidate
      rw [hext]
      simp only [Bool.not_true, Bool.false_eq_true, if_false]
      by_cases hm : (mime != "" && !(allowedMimeTypes.contains mime)) = true
      · rw [if_pos hm]; exact ⟨_, rfl⟩
      · rw [if_neg hm]
        by_cases hb : decide (bytes.length > MAX_FILE_SIZE) = true
        · rw [if_pos hb]; exact ⟨_, rfl⟩
        · rw [if_neg hb, hpdf]
          simp only [Bool.false_eq_true, if_false]
          rw [if_pos hmagic]
          exact ⟨_, rfl⟩
    rcases hval with ⟨r, hr⟩
    unfold analyzeDocument at hok
    rw [hr] at hok
    exact Except.noConfusion hok
  · intro hmime hsize
    unfold analyzeDocument
    rw [analyzeValidate_gates name mime bytes hext hmime hsize, hpdf]
    simp only [Bool.false_eq_true, if_false]
    rw [if_pos hmagic]

/-- C9 witness: "legacy.doc" with the OLE compound-file signature bytes
`[0xD0, 0xCF, 0x11, 0xE0]` is never analyzed and, passing the MIME and size
gates, is rejected exactly with the "Invalid DOCX file." branch. -/
theorem legacy_doc_never_analyzed_witness :
    (∀ s, analyzeDocument (fun _ _ => "scraped text") "legacy.doc" "application/msword"
        [0xD0, 0xCF, 0x11, 0xE0] ≠ .ok s) ∧
      ((("application/msword" : String) != "" &&
            !(allowedMimeTypes.contains "application/msword")) = false →
        ([0xD0, 0xCF, 0x11, 0xE0] : List Nat).length ≤ MAX_FILE_SIZE →
        analyzeDocument (fun _ _ => "scraped text") "legacy.doc" "application/msword"
            [0xD0, 0xCF, 0x11, 0xE0] = .error .invalidDocx) ∧
      rejectMessage .invalidDocx = "Invalid DOCX file." ∧
      rejectStatus .invalidDocx = 400 :=
  legacy_doc_never_analyzed (fun _ _ => "scraped text") "legacy.doc" "application/msword"
    [0xD0, 0xCF, 0x11, 0xE0] (by decide) (by decide)

/-! ## DocumentView: the client-side section store (C4, C6) -/

/-- JS `String.prototype.trim` on a character list. -/
def trimChars (l : List Char) : List Char :=
  ((l.dropWhile Char.isWhitespace).reverse.dropWhile Char.isWhitespace).reverse

/-- JS `String.prototype.trim`. -/
def jsTrim (s : String) : String :=
  String.mk (trimChars s.toList)

/-- One row of the editor's in-memory `sections` array (part_004). -/
structure DocSection where
  id : Nat
  title : String
  content : String
  section_order : Int
  deriving Repr, DecidableEq

/-- The editor's relevant component state: the ordered `sections` array and
the `activeSection`. -/
structure EditorState where
  sections : List DocSection
  activeSection : Option DocSection
  deriving Repr, DecidableEq

/-- `canDelete={section.title !== 'Problem Statement'}` (part_004 line 645):
the delete button is rendered only for sections passing this test. -/
def canDelete (s : DocSection) : Bool :=
  s.title != "Problem Statement"

/-- dnd-kit's `arrayMove`: remove the element at `iFrom` and re-insert it at
`iTo`. -/
def arrayMove (l : List α) (iFrom iTo : Nat) : List α :=
  match l[iFrom]? with
  | none => l
  | some a => (l.eraseIdx iFrom).insertIdx iTo a

/-- The user-driven section-store operations of `DocumentView`
(part_004: `handleSectionClick`, `handleContentChange`, `handleAddSection`,
`handleDeleteSection` behind its `canDelete` button guard, `handleDragEnd`,
`handleInsertAIContent`). -/
inductive EditorOp where
  | clickSection (s : DocSection)
  | changeContent (content : String)
  | addSection (id : Nat) (name : String)
  | deleteSection (target : DocSection)
  | dragEnd (activeId overId : Nat)
  | insertAI (content : String) (sectionId : Nat)

/-- One operation's effect on the editor state, translated handler by
handler from part_004 (lines 225–374). The delete case carries the UI guard:
the delete button exists only when `canDelete`, so deleting a
"Problem Statement"-titled section is a no-op (disabled). -/
def applyOp (st : EditorState) : EditorOp → EditorState
  | .clickSection s =>
      { st with
        activeSection := some (((st.sections.find? fun x => x.id == s.id)).getD s) }
  | .changeContent content =>
      match st.activeSection with
      | none => st
      | some a =>
          { sections :=
              st.sections.map fun s => if s.id == a.id then { s with content := content } else s
            activeSection := some { a with content := content } }
  | .addSection id name =>
      if jsTrim name == "" then st
      else
        let maxOrder := (st.sections.map (·.section_order)).foldr max (-1)
        let newSec : DocSection :=
          ⟨id, jsTrim name, "Add your content here for " ++ jsTrim name ++ "...",
            maxOrder + 1⟩
        { sections := st.sections ++ [newSec], activeSection := some newSec }
  | .deleteSection target =>
      if canDelete target then
        let newSections := st.sections.filter fun s => !(s.id == target.id)
        { sections := newSections
          activeSection :=
            match st.activeSection with
            | some a => if a.id == target.id then newSections.head? else some a
            | none => none }
      else st
  | .dragEnd activeId overId =>
      if activeId == overId then st
      else
        match st.sections.findIdx? (fun s => s.id == activeId),
            st.sections.findIdx? (fun s => s.id == overId) with
        | some oldIndex, some newIndex =>
            { st with
              sections :=
                mapWithIdx (fun i s => { s with section_order := (i : Int) })
                  (arrayMove st.sections oldIndex newIndex) }
        | _, _ => st
  | .insertAI content sectionId =>
      match st.sections.find? (fun s => s.id == sectionId) with
      | none => st
      | some target =>
          let newContent := target.content ++ "\n\n" ++ content
          { sections :=
              st.sections.map fun s =>
                if s.id == sectionId then { s with content := newContent } else s
            activeSection :=
              match st.activeSection with
              | some a =>
                  if a.id == sectionId then some { a with content := newContent } else some a
              | none => none }

/-- Environment-guaranteed constraints on an operation: a freshly inserted
section row carries a database-generated primary key not already in the
list, and a delete request comes from the rendered section list. -/
def ValidOp (st : EditorState) : EditorOp → Prop
  | .addSection id _ => ∀ s ∈ st.sections, s.id ≠ id
  | .deleteSection target => target ∈ st.sections
  | _ => True

/-- Reflexive-transitive execution of a list of valid operations. -/
inductive Steps : EditorState → List EditorOp → EditorState → Prop
  | nil (st : EditorState) : Steps st [] st
  | cons {st st' : EditorState} {op : EditorOp} {ops : List EditorOp} :
      ValidOp st op → Steps (applyOp st op) ops st' → Steps st (op :: ops) st'

/-- Database primary keys are unique in the loaded list. -/
def IdsNodup (st : EditorState) : Prop :=
  (st.sections.map (·.id)).Nodup

/-- A section titled "Problem Statement" is present. -/
def HasProblemStatement (st : EditorState) : Prop :=
  ∃ s ∈ st.sections, s.title = "Problem Statement"

theorem insertIdx_perm_cons (a : α) :
    ∀ (n : Nat) (l : List α), n ≤ l.length → (l.insertIdx n a).Perm (a :: l)
  | 0, l, _ => by simp
  | n + 1, [], h => by simp at h
  | n + 1, b :: t, h => by
    rw [List.insertIdx_succ_cons]
    exact ((insertIdx_perm_cons a n t (by simpa using h)).cons b).trans
      (List.Perm.swap a b t)

theorem eraseIdx_cons_perm :
    ∀ (l : List α) (i : Nat), (h : i < l.length) → ((l[i] :: l.eraseIdx i).Perm l)
  | [], i, h => absurd h (by simp)
  | a :: t, 0, _ => by simp
  | a :: t, i + 1, h => by
    simp only [List.getElem_cons_succ, List.eraseIdx_cons_succ]
    exact (List.Perm.swap a (t.get ⟨i, by simpa using h⟩) (t.eraseIdx i)).trans
      ((eraseIdx_cons_perm t i (by simpa using h)).cons a)

theorem arrayMove_perm (l : List α) (i j : Nat) (hi : i < l.length)
    (hj : j ≤ l.length - 1) : (arrayMove l i j).Perm l := by
  unfold arrayMove
  rw [List.getElem?_eq_getElem hi]
  refine (insertIdx_perm_cons _ j _ ?_).trans (eraseIdx_cons_perm l i hi)
  rw [List.length_eraseIdx_of_lt hi]
  exact hj

theorem map_mapWithIdxFrom_eq (g : β → γ) (g' : α → γ) (f : Nat → α → β)
    (H : ∀ i a, g (f i a) = g' a) :
    ∀ (k : Nat) (l : List α), (mapWithIdxFrom f k l).map g = l.map g'
  | _, [] => rfl
  | k, a :: as => by
    simp only [mapWithIdxFrom, List.map_cons, H, map_mapWithIdxFrom_eq g g' f H (k + 1) as]

theorem map_map_eq_of (l : List α) (f : α → α) (g : α → γ) (H : ∀ a, g (f a) = g a) :
    (l.map f).map g = l.map g := by
  rw [List.map_map]
  exact List.map_congr_left fun a _ => H a

/-- `HasProblemStatement` through the title projection. -/
theorem hasPS_iff (st : EditorState) :
    HasProblemStatement st ↔ "Problem Statement" ∈ st.sections.map (·.title) := by
  simp [HasProblemStatement, List.mem_map, eq_comm]

theorem invariant_applyOp (st : EditorState) (op : EditorOp) (hv : ValidOp st op)
    (hn : IdsNodup st) (hp : HasProblemStatement st) :
    IdsNodup (applyOp st op) ∧ HasProblemStatement (applyOp st op) := by
  cases op with
  | clickSection s => exact ⟨hn, hp⟩
  | changeContent content =>
    cases hA : st.activeSection with
    | none => simp only [applyOp, hA]; exact ⟨hn, hp⟩
    | some a =>
      simp only [applyOp, hA]
      constructor
      · unfold IdsNodup at hn ⊢
        rw [map_map_eq_of _ _ _ (fun s => by split <;> rfl)]
        exact hn
      · rcases hp with ⟨s, hs, ht⟩
        refine ⟨_, List.mem_map_of_mem _ hs, ?_⟩
        by_cases hsa : (s.id == a.id) = true <;> simp [hsa, ht]
  | addSection id name =>
    by_cases htrim : (jsTrim name == "") = true
    · simp only [applyOp, htrim, if_true]; exact ⟨hn, hp⟩
    · simp only [applyOp, htrim, Bool.false_eq_true, if_false]
      constructor
      · unfold IdsNodup at hn ⊢
        rw [List.map_append]
        rw [List.nodup_append]
        refine ⟨hn, by simp, ?_⟩
        intro x hx
        simp only [List.map_cons, List.map_nil, List.mem_singleton]
        rcases List.mem_map.mp hx with ⟨s, hs, rfl⟩
        exact hv s hs
      · rcases hp with ⟨s, hs, ht⟩
        exact ⟨s, List.mem_append_left _ hs, ht⟩
  | deleteSection target =>
    by_cases hcd : canDelete target = true
    · simp only [applyOp, hcd, if_true]
      constructor
      · unfold IdsNodup at hn ⊢
        exact ((List.filter_sublist st.sections).map (·.id)).nodup hn
      · rcases hp with ⟨s, hs, ht⟩
        have hsid : s.id ≠ target.id := by
          intro hid
          have : s = target :=
            List.inj_on_of_nodup_map hn hs hv hid
          rw [this] at ht
          simp [canDelete, ht] at hcd
        exact ⟨s, List.mem_filter.mpr ⟨hs, by simp [hsid]⟩, ht⟩
    · simp only [applyOp, hcd, Bool.false_eq_true, if_false]; exact ⟨hn, hp⟩
  | dragEnd activeId overId =>
    by_cases heq : (activeId == overId) = true
    · simp only [applyOp, heq, if_true]; exact ⟨hn, hp⟩
    · simp only [applyOp, heq, Bool.false_eq_true, if_false]
      cases hf1 : st.sections.findIdx? (fun s => s.id == activeId) with
      | none => exact ⟨hn, hp⟩
      | some oldIndex =>
        cases hf2 : st.sections.findIdx? (fun s => s.id == overId) with
        | none => exact ⟨hn, hp⟩
        | some newIndex =>
          have hi : oldIndex < st.sections.length := by
            rcases List.findIdx?_eq_some_iff_getElem.mp hf1 with ⟨h, _⟩
            exact h
          have hjlt : newIndex < st.sections.length := by
            rcases List.findIdx?_eq_some_iff_getElem.mp hf2 with ⟨h, _⟩
            exact h
          have hperm := arrayMove_perm st.sections oldIndex newIndex hi
            (by omega)
          constructor
          · unfold IdsNodup at hn ⊢
            dsimp only
            rw [mapWithIdx, map_mapWithIdxFrom_eq (fun s : DocSection => s.id)
              (fun s : DocSection => s.id)
              (fun i s => { s with section_order := (i : Int) }) (fun i a => rfl)]
            exact ((hperm.map (fun s : DocSection => s.id)).nodup_iff).mpr hn
          · rw [hasPS_iff] at hp ⊢
            dsimp only
            rw [mapWithIdx, map_mapWithIdxFrom_eq (fun s : DocSection => s.title)
              (fun s : DocSection => s.title)
              (fun i s => { s with section_order := (i : Int) }) (fun i a => rfl)]
            exact ((hperm.map (fun s : DocSection => s.title)).mem_iff).mpr hp
  | insertAI content sectionId =>
    cases hfind : st.sections.find? (fun s => s.id == sectionId) with
    | none => simp only [applyOp, hfind]; exact ⟨hn, hp⟩
    | some target =>
      simp only [applyOp, hfind]
      constructor
      · unfold IdsNodup at hn ⊢
        rw [map_map_eq_of _ _ _ (fun s => by split <;> rfl)]
        exact hn
      · rcases hp with ⟨s, hs, ht⟩
        refine ⟨_, List.mem_map_of_mem _ hs, ?_⟩
        by_cases hsa : (s.id == sectionId) = true <;> simp [hsa, ht]

theorem invariant_steps {st st' : EditorState} {ops : List EditorOp}
    (h : Steps st ops st') (hn : IdsNodup st) (hp : HasProblemStatement st) :
    IdsNodup st' ∧ HasProblemStatement st' := by
  induction h with
  | nil => exact ⟨hn, hp⟩
  | cons hv _ ih =>
    rcases invariant_applyOp _ _ hv hn hp with ⟨hn', hp'⟩
    exact ih hn' hp'

/-- C6: deleting the "Problem Statement" section is disabled (a no-op)
regardless of its position, so a section with that title survives every
valid operation sequence; deleting any other section removes exactly the one
section with its id, and the active section becomes the first remaining one
when the deleted section was active (or stays put / stays none otherwise). -/
theorem problem_statement_delete_guard :
    (∀ st ops st', Steps st ops st' → IdsNodup st → HasProblemStatement st →
        HasProblemStatement st') ∧
      (∀ st target, target.title = "Problem Statement" →
        applyOp st (.deleteSection target) = st) ∧
      (∀ st target, IdsNodup st → target ∈ st.sections →
        target.title ≠ "Problem Statement" →
        (applyOp st (.deleteSection target)).sections.length + 1
            = st.sections.length ∧
          (∀ s, s ∈ (applyOp st (.deleteSection target)).sections ↔
            s ∈ st.sections ∧ s.id ≠ target.id) ∧
          (∀ a, st.activeSection = some a → a.id = target.id →
            (applyOp st (.deleteSection target)).activeSection
              = (applyOp st (.deleteSection target)).sections.head?) ∧
          (∀ a, st.activeSection = some a → a.id ≠ target.id →
            (applyOp st (.deleteSection target)).activeSection = some a) ∧
          (st.activeSection = none →
            (applyOp st (.deleteSection target)).activeSection = none)) := by
  refine ⟨fun st ops st' h hn hp => (invariant_steps h hn hp).2, ?_, ?_⟩
  · intro st target ht
    have hcd : canDelete target = false := by simp [canDelete, ht]
    simp [applyOp, hcd]
  · intro st target hn htgt hne
    have hcd : canDelete target = true := by simp [canDelete, hne]
    have happ :
        applyOp st (.deleteSection target) =
          { sections := st.sections.filter fun s => !(s.id == target.id)
            activeSection :=
              match st.activeSection with
              | some a =>
                  if a.id == target.id then
                    (st.sections.filter fun s => !(s.id == target.id)).head?
                  else some a
              | none => none } := by
      simp only [applyOp, hcd, if_true]
    rcases List.append_of_mem htgt with ⟨l₁, l₂, hsec⟩
    have hnodup := hn
    unfold IdsNodup at hnodup
    rw [hsec, List.map_append, List.map_cons, List.nodup_append] at hnodup
    rcases hnodup with ⟨hn₁, hn₂, hdisj⟩
    have hid₁ : ∀ a ∈ l₁, a.id ≠ target.id := by
      intro a ha hEq
      exact hdisj (List.mem_map_of_mem _ ha) (by rw [hEq]; exact List.mem_cons_self _ _)
    have hid₂ : ∀ a ∈ l₂, a.id ≠ target.id := by
      intro a ha hEq
      have := (List.nodup_cons.mp hn₂).1
      exact this (by rw [← hEq]; exact List.mem_map_of_mem _ ha)
    have hfil :
        (st.sections.filter fun s => !(s.id == target.id)) = l₁ ++ l₂ := by
      rw [hsec, List.filter_append, List.filter_cons]
      have : (!(target.id == target.id)) = false := by simp
      rw [this]
      simp only [Bool.false_eq_true, if_false]
      rw [List.filter_eq_self.mpr fun a ha => by simp [hid₁ a ha],
        List.filter_eq_self.mpr fun a ha => by simp [hid₂ a ha]]
    refine ⟨?_, ?_, ?_, ?_, ?_⟩
    · rw [happ]
      dsimp only
      rw [hfil, hsec]
      simp only [List.length_append, List.length_cons]
      omega
    · intro s
      rw [happ]
      dsimp only
      rw [List.mem_filter]
      simp
    · intro a hact hEq
      rw [happ]
      dsimp only
      rw [hact]
      simp [hEq]
    · intro a hact hEq
      rw [happ]
      dsimp only
      rw [hact]
      simp [hEq]
    · intro hact
      rw [happ]
      dsimp only
      rw [hact]

/-- Sample sections for the C6 witness. -/
def psSection : DocSection := ⟨1, "Problem Statement", "<p>p</p>", 0⟩

def marketSection : DocSection := ⟨2, "Market Analysis", "<p>m</p>", 1⟩

def sampleEditorState : EditorState := ⟨[psSection, marketSection], some marketSection⟩

/-- C6 witness: on a two-section document (Problem Statement + Market
Analysis, the latter active), deleting Market Analysis keeps the Problem
Statement section, deleting Problem Statement is a no-op, and the Market
Analysis deletion removes exactly one row. -/
theorem problem_statement_delete_guard_witness :
    HasProblemStatement (applyOp sampleEditorState (.deleteSection marketSection)) ∧
      applyOp sampleEditorState (.deleteSection psSection) = sampleEditorState ∧
      (applyOp sampleEditorState (.deleteSection marketSection)).sections.length + 1
        = sampleEditorState.sections.length :=
  have h := problem_statement_delete_guard
  ⟨(h.1 sampleEditorState [.deleteSection marketSection] _
      (Steps.cons (by unfold ValidOp; decide) (Steps.nil _))
      (by unfold IdsNodup; decide) ⟨psSection, by decide, rfl⟩),
    h.2.1 sampleEditorState psSection rfl,
    (h.2.2 sampleEditorState marketSection (by unfold IdsNodup; decide) (by decide)
      (by decide)).1⟩

/-! ### Debounced persistence (C4) -/

/-- Modelled from the spec: the debounce utility `src/lib/debounce` imported
by the editor (part_004 line 58) is not among the provided sources — only
its call sites are. Per spec §4.5 and the §9 design notes it is a
trailing-edge debounce: each call stores the call's arguments and
(re)schedules a timer `window` ms out, cancelling any pending timer; the
timer firing issues one persistence write with the stored arguments. For a
time-stamped call trace with nondecreasing times, call `i` therefore
produces a write `(tᵢ + window, sectionId, content)` exactly when no later
call occurs strictly before `tᵢ + window`. -/
def debounceWrites (window : Nat) : List (Nat × Nat × String) → List (Nat × Nat × String)
  | [] => []
  | e :: rest =>
    match rest with
    | [] => [(e.1 + window, e.2.1, e.2.2)]
    | e2 :: _ =>
      if e.1 + window ≤ e2.1 then
        (e.1 + window, e.2.1, e.2.2) :: debounceWrites window rest
      else debounceWrites window rest

/-- The arguments `handleContentChange` passes to `debouncedSave`
(part_004 lines 225–242): the section id is captured from `activeSection`
at edit time, alongside the new content; no edit is scheduled without an
active section. -/
def scheduledSave (st : EditorState) (content : String) : Option (Nat × String) :=
  match st.activeSection with
  | none => none
  | some a => some (a.id, content)

/-- A trace of timed edits, each routed through `handleContentChange`'s
argument capture against the state current at that edit. -/
def editTrace (st : EditorState) (tcs : List (Nat × String)) :
    List (Nat × Nat × String) :=
  tcs.filterMap fun tc => (scheduledSave st tc.2).map fun ic => (tc.1, ic.1, ic.2)

/-- C4: edits to the same (active) section at t=0 ms, 500 ms and 1000 ms
under the 2000 ms debounce window coalesce into exactly one persistence
write; it fires at 3000 ms = 1000 ms + window (hence at or after 3000 ms),
carries the content of the t=1000 ms edit, and targets the section id
captured from the active section at edit time — the write list is a pure
function of the captured `(sectionId, content)` pairs, independent of
whichever section is active when the timer fires. -/
theorem debounced_save_coalesces (st : EditorState) (a : DocSection)
    (c0 c1 c2 : String) (hactive : st.activeSection = some a) :
    debounceWrites 2000 (editTrace st [(0, c0), (500, c1), (1000, c2)])
        = [(3000, a.id, c2)] ∧
      3000 = 1000 + 2000 ∧
      scheduledSave st c2 = some (a.id, c2) := by
  refine ⟨?_, rfl, by simp [scheduledSave, hactive]⟩
  simp only [editTrace, scheduledSave, hactive, List.filterMap, Option.map]
  simp [debounceWrites]

/-- C4 witness: the coalescing scenario on a concrete one-section state. -/
theorem debounced_save_coalesces_witness :
    debounceWrites 2000
        (editTrace ⟨[marketSection], some marketSection⟩ [(0, "a"), (500, "ab"), (1000, "abc")])
        = [(3000, marketSection.id, "abc")] ∧
      3000 = 1000 + 2000 ∧
      scheduledSave ⟨[marketSection], some marketSection⟩ "abc"
        = some (marketSection.id, "abc") :=
  debounced_save_coalesces ⟨[marketSection], some marketSection⟩ marketSection
    "a" "ab" "abc" rfl

/-! ## AskAIModal: the SSE stream consumer (C8) -/

/-- The outcome of `JSON.parse` on a data-line payload, combined with the
`parsed.choices?.[0]?.delta?.content` read: `fail` models a thrown parse
error; `ok c` a successful parse whose extracted content field is `c`
(`none` when absent). -/
inductive ParseOutcome where
  | fail
  | ok (content : Option String)
  deriving Repr, DecidableEq

/-- An abstract payload parser (the stream consumer calls the JSON library;
its behaviour on each payload is all that matters here). -/
abbrev PayloadParse := List Char → ParseOutcome

/-- Split a buffer at its first newline: `buffer.indexOf('\n')` plus the two
slices (AskAIModal.tsx lines 141–143); `none` when no newline is present. -/
def splitFirstLine : List Char → Option (List Char × List Char)
  | [] => none
  | c :: rest =>
      if c = '\n' then some ([], rest)
      else
        match splitFirstLine rest with
        | some (l, r) => some (c :: l, r)
        | none => none

/-- `if (line.endsWith('\r')) line = line.slice(0, -1)` (line 145). -/
def stripCR (l : List Char) : List Char :=
  if l.getLast? == some '\r' then l.dropLast else l

theorem splitFirstLine_some {buf l r : List Char}
    (h : splitFirstLine buf = some (l, r)) : buf = l ++ '\n' :: r ∧ '\n' ∉ l := by
  induction buf generalizing l r with
  | nil => simp [splitFirstLine] at h
  | cons c rest ih =>
    by_cases hc : c = '\n'
    · subst hc
      simp [splitFirstLine] at h
      rcases h with ⟨rfl, rfl⟩
      exact ⟨rfl, by simp⟩
    · rw [splitFirstLine, if_neg hc] at h
      cases hsub : splitFirstLine rest with
      | none => rw [hsub] at h; exact absurd h (by simp)
      | some lr =>
        rw [hsub] at h
        rcases lr with ⟨l', r'⟩
        simp only [Option.some.injEq, Prod.mk.injEq] at h
        rcases h with ⟨rfl, rfl⟩
        rcases ih hsub with ⟨heq, hmem⟩
        refine ⟨?_, ?_⟩
        · rw [heq]; rfl
        · simp only [List.mem_cons, not_or]
          exact ⟨fun hEq => hc hEq.symm, hmem⟩

theorem splitFirstLine_none {buf : List Char} (h : '\n' ∉ buf) :
    splitFirstLine buf = none := by
  induction buf with
  | nil => rfl
  | cons c rest ih =>
    have hc : c ≠ '\n' := fun hEq => h (hEq ▸ List.mem_cons_self c rest)
    rw [splitFirstLine, if_neg hc, ih (fun hm => h (List.mem_cons_of_mem c hm))]

theorem splitFirstLine_append {l : List Char} (r : List Char) (h : '\n' ∉ l) :
    splitFirstLine (l ++ '\n' :: r) = some (l, r) := by
  induction l with
  | nil => simp [splitFirstLine]
  | cons c rest ih =>
    have hc : c ≠ '\n' := fun hEq => h (hEq ▸ List.mem_cons_self c rest)
    rw [List.cons_append, splitFirstLine, if_neg hc,
      ih (fun hm => h (List.mem_cons_of_mem c hm))]

theorem stripCR_of_not_mem {l : List Char} (h : '\r' ∉ l) : stripCR l = l := by
  unfold stripCR
  cases hlast : l.getLast? with
  | none => simp
  | some c =>
    have hc : c ∈ l := by
      rcases List.mem_getLast?_eq_getLast (show c ∈ l.getLast? by simp [hlast]) with
        ⟨hne, hEq⟩
      rw [hEq]
      exact List.getLast_mem hne
    have : ¬(c = '\r') := fun hEq => h (hEq ▸ hc)
    simp [this]

theorem trimChars_ne_nil_of_head {l : List Char} {c : Char} (hh : l.head? = some c)
    (hw : ¬c.isWhitespace) : trimChars l ≠ [] := by
  cases l with
  | nil => simp at hh
  | cons a rest =>
    have hac : a = c := by simpa using hh
    unfold trimChars
    rw [List.dropWhile_cons, if_neg (by simpa [hac] using hw)]
    intro hEq
    have hlen := congrArg List.length hEq
    rw [List.length_reverse] at hlen
    have hnil : ((a :: rest).reverse).dropWhile (fun ch => ch.isWhitespace) = [] :=
      List.length_eq_zero.mp (by simpa using hlen)
    have hall := List.dropWhile_eq_nil_iff.mp hnil
    have hmem : a ∈ (a :: rest).reverse := by simp
    exact hw (hac ▸ hall a hmem)

/-- The inner `while ((newlineIndex = buffer.indexOf('\n')) !== -1)` loop of
`handleSubmit` (AskAIModal.tsx lines 140–163), draining one buffer: returns
the emitted content tokens in order and the leftover buffer. Comment lines
(`:`), blank lines and non-`data: ` lines are skipped; a literal `[DONE]`
payload breaks out of the loop; a payload that fails to parse is re-merged
in front of the remaining buffer (`buffer = line + '\n' + buffer`) and the
loop breaks to await the next chunk. -/
def drain (parse : PayloadParse) (buf : List Char) : List String × List Char :=
  match hsplit : splitFirstLine buf with
  | none => ([], buf)
  | some (line, rest) =>
    have hlt : rest.length < buf.length := by
      rcases splitFirstLine_some hsplit with ⟨hEq, _⟩
      rw [hEq, List.length_append, List.length_cons]
      omega
    let line' := stripCR line
    if line'.head? == some ':' || trimChars line' == [] then drain parse rest
    else if !("data: ".toList.isPrefixOf line') then drain parse rest
    else
      let js := trimChars (line'.drop 6)
      if js == "[DONE]".toList then ([], rest)
      else
        match parse js with
        | .fail => ([], line' ++ '\n' :: rest)
        | .ok none => drain parse rest
        | .ok (some c) =>
            if c == "" then drain parse rest
            else
              let od := drain parse rest
              (c :: od.1, od.2)
termination_by buf.length

/-- The outer read loop (lines 134–164): each received chunk is appended to
the buffer and the buffer drained; emissions accumulate into the response;
when the reader reports `done` the loop exits, dropping any leftover
buffer. -/
def runChunks (parse : PayloadParse) (chunks : List (List Char)) : List String :=
  (chunks.foldl
    (fun acc chunk =>
      let od := drain parse (acc.2 ++ chunk)
      (acc.1 ++ od.1, od.2))
    ([], [])).1

/-- One server-sent event line carrying a payload. -/
def dataLine (p : List Char) : List Char :=
  "data: ".toList ++ p ++ ['\n']

/-- The terminating sentinel line. -/
def doneLine : List Char :=
  "data: [DONE]\n".toList

/-- A well-formed stream event: a newline/CR-free payload, not the sentinel,
that parses to a non-empty content token. -/
def GoodEvent (parse : PayloadParse) (p : List Char) (t : String) : Prop :=
  '\n' ∉ p ∧ '\r' ∉ p ∧ trimChars p ≠ "[DONE]".toList ∧
    parse (trimChars p) = .ok (some t) ∧ t ≠ ""

theorem drain_no_newline (parse : PayloadParse) {buf : List Char} (h : '\n' ∉ buf) :
    drain parse buf = ([], buf) := by
  rw [drain]
  split
  next => rfl
  next line rest heq =>
    rw [splitFirstLine_none h] at heq
    cases heq

theorem drain_dataLine (parse : PayloadParse) {p : List Char} {t : String}
    (hg : GoodEvent parse p t) (rest : List Char) :
    drain parse (dataLine p ++ rest) =
      ((t :: (drain parse rest).1, (drain parse rest).2) : List String × List Char) := by
  rcases hg with ⟨hnl, hcr, hdone, hparse, hne⟩
  have hbody : '\n' ∉ "data: ".toList ++ p := by
    intro hm
    rcases List.mem_append.mp hm with hm | hm
    · simp at hm
    · exact hnl hm
  have hsplit : splitFirstLine (dataLine p ++ rest)
      = some ("data: ".toList ++ p, rest) := by
    have : dataLine p ++ rest = ("data: ".toList ++ p) ++ '\n' :: rest := by
      simp [dataLine]
    rw [this]
    exact splitFirstLine_append rest hbody
  rw [drain]
  split
  next heq =>
    rw [hsplit] at heq
    cases heq
  next line rest1 heq =>
    rw [hsplit] at heq
    simp only [Option.some.injEq, Prod.mk.injEq] at heq
    obtain ⟨h1, h2⟩ := heq
    subst h1
    subst h2
    have hcrline : stripCR ("data: ".toList ++ p) = "data: ".toList ++ p := by
      apply stripCR_of_not_mem
      intro hm
      rcases List.mem_append.mp hm with hm | hm
      · simp at hm
      · exact hcr hm
    simp only [hcrline]
    have hhead : ("data: ".toList ++ p).head? = some 'd' := rfl
    have hc1 : (("data: ".toList ++ p).head? == some ':') = false := by
      rw [hhead]; decide
    have hc2 : (trimChars ("data: ".toList ++ p) == []) = false := by
      rw [beq_eq_false_iff_ne]
      exact trimChars_ne_nil_of_head hhead (by decide)
    rw [hc1, hc2]
    simp only [Bool.or_self, Bool.false_eq_true, if_false]
    have hpre : ("data: ".toList.isPrefixOf ("data: ".toList ++ p)) = true := by
      rw [List.isPrefixOf_iff_prefix]
      exact List.prefix_append _ _
    rw [hpre]
    simp only [Bool.not_true, Bool.false_eq_true, if_false]
    have hdrop : ("data: ".toList ++ p).drop 6 = p := by
      have h6 : ("data: ".toList).length = 6 := by decide
      rw [← h6, List.drop_left]
    rw [hdrop]
    have hd : (trimChars p == "[DONE]".toList) = false := by
      rw [beq_eq_false_iff_ne]; exact hdone
    rw [hd]
    simp only [Bool.false_eq_true, if_false]
    rw [hparse]
    dsimp only
    have hce : (t == "") = false := by rw [beq_eq_false_iff_ne]; exact hne
    rw [hce]
    simp

theorem drain_doneLine (parse : PayloadParse) (rest : List Char) :
    drain parse (doneLine ++ rest) = ([], rest) := by
  have hbody : '\n' ∉ "data: [DONE]".toList := by decide
  have hsplit : splitFirstLine (doneLine ++ rest)
      = some ("data: [DONE]".toList, rest) := by
    have : doneLine ++ rest = "data: [DONE]".toList ++ '\n' :: rest := by
      simp [doneLine]
    rw [this]
    exact splitFirstLine_append rest hbody
  rw [drain]
  split
  next heq =>
    rw [hsplit] at heq
    cases heq
  next line rest1 heq =>
    rw [hsplit] at heq
    simp only [Option.some.injEq, Prod.mk.injEq] at heq
    obtain ⟨h1, h2⟩ := heq
    subst h1
    subst h2
    have hcrline : stripCR "data: [DONE]".toList = "data: [DONE]".toList := by
      apply stripCR_of_not_mem; decide
    simp only [hcrline]
    have hc1 : (("data: [DONE]".toList).head? == some ':') = false := by decide
    have hc2 : (trimChars "data: [DONE]".toList == []) = false := by decide
    rw [hc1, hc2]
    simp only [Bool.or_self, Bool.false_eq_true, if_false]
    have hpre : ("data: ".toList.isPrefixOf "data: [DONE]".toList) = true := by decide
    rw [hpre]
    simp only [Bool.not_true, Bool.false_eq_true, if_false]
    have hjs : trimChars (("data: [DONE]".toList).drop 6) = "[DONE]".toList := by decide
    rw [hjs]
    simp

theorem append_decomp_of_le {x y u v : List α} (h : x ++ y = u ++ v)
    (hle : u.length ≤ x.length) : ∃ w, x = u ++ w ∧ w ++ y = v := by
  have h1 : x.take u.length = u := by
    have h2 := congrArg (List.take u.length) h
    rw [List.take_append_eq_append_take, List.take_left,
      Nat.sub_eq_zero_of_le hle, List.take_zero, List.append_nil] at h2
    exact h2
  have hx : x = u ++ x.drop u.length := by
    conv_lhs => rw [← List.take_append_drop u.length x]
    rw [h1]
  refine ⟨x.drop u.length, hx, ?_⟩
  have h3 : u ++ (x.drop u.length ++ y) = u ++ v := by
    rw [← List.append_assoc, ← hx]
    exact h
  exact List.append_cancel_left h3

theorem length_le_of_newline_mem {pre suffix body S : List Char}
    (hps : pre ++ suffix = (body ++ ['\n']) ++ S) (hnb : '\n' ∉ body)
    (hnl : '\n' ∈ pre) : (body ++ ['\n']).length ≤ pre.length := by
  by_contra hlt
  push_neg at hlt
  rw [List.length_append, List.length_cons, List.length_nil] at hlt
  have hle : pre.length ≤ body.length := by omega
  have h1 : (pre ++ suffix).take pre.length = pre := List.take_left pre suffix
  rw [hps, List.append_assoc, List.take_append_eq_append_take,
    Nat.sub_eq_zero_of_le hle, List.take_zero, List.append_nil] at h1
  rw [← h1] at hnl
  exact hnb (List.take_subset _ _ hnl)

/-- Draining any prefix `pre` of a well-formed event stream emits exactly the
tokens of the fully covered events and leaves the incomplete tail (with no
newline) in the buffer; covering the final sentinel line means the stream is
exhausted. -/
theorem drain_prefix (parse : PayloadParse) :
    ∀ (evs : List (List Char × String)) (pre suffix : List Char),
      (∀ e ∈ evs, GoodEvent parse e.1 e.2) →
      pre ++ suffix = (evs.map fun e => dataLine e.1).flatten ++ doneLine →
      (∃ evs₁ evs₂ leftover,
          evs = evs₁ ++ evs₂ ∧ '\n' ∉ leftover ∧
          drain parse pre = (evs₁.map (·.2), leftover) ∧
          leftover ++ suffix = (evs₂.map fun e => dataLine e.1).flatten ++ doneLine)
        ∨ (drain parse pre = (evs.map (·.2), []) ∧ suffix = []) := by
  intro evs
  induction evs with
  | nil =>
    intro pre suffix hg hps
    simp only [List.map_nil, List.flatten_nil, List.nil_append] at hps
    by_cases hnl : '\n' ∈ pre
    · right
      have hdl : doneLine = "data: [DONE]".toList ++ ['\n'] := by decide
      have hlen : doneLine.length ≤ pre.length := by
        rw [hdl]
        exact length_le_of_newline_mem (by rw [← hdl, hps, List.append_nil])
          (by decide) hnl
      rcases append_decomp_of_le (by rw [hps, List.append_nil] :
          pre ++ suffix = doneLine ++ ([] : List Char)) hlen with ⟨w, hw1, hw2⟩
      have hwnil : w = [] := by
        cases w with
        | nil => rfl
        | cons a as => exact absurd hw2 (by simp)
      subst hwnil
      rw [List.append_nil] at hw1
      have hsfx : suffix = [] := by simpa using hw2
      refine ⟨?_, hsfx⟩
      rw [hw1, show doneLine = doneLine ++ [] by rw [List.append_nil],
        drain_doneLine parse []]
      rfl
    · exact Or.inl ⟨[], [], pre, rfl, hnl, drain_no_newline parse hnl, by simpa using hps⟩
  | cons e evs' ih =>
    intro pre suffix hg hps
    have hge : GoodEvent parse e.1 e.2 := hg e (List.mem_cons_self e evs')
    have hg' : ∀ x ∈ evs', GoodEvent parse x.1 x.2 :=
      fun x hx => hg x (List.mem_cons_of_mem e hx)
    rw [List.map_cons, List.flatten_cons, List.append_assoc] at hps
    by_cases hnl : '\n' ∈ pre
    · have hdlEq : dataLine e.1 = ("data: ".toList ++ e.1) ++ ['\n'] := by
        simp [dataLine]
      have hnb : '\n' ∉ "data: ".toList ++ e.1 := by
        intro hm
        rcases List.mem_append.mp hm with hm | hm
        · simp at hm
        · exact hge.1 hm
      have hlen : (dataLine e.1).length ≤ pre.length := by
        rw [hdlEq]
        exact length_le_of_newline_mem (by rw [← hdlEq]; exact hps) hnb hnl
      rcases append_decomp_of_le hps hlen with ⟨pre', hpre, hS⟩
      rw [hpre, drain_dataLine parse hge pre']
      rcases ih pre' suffix hg' hS with hleft | hright
      · rcases hleft with ⟨evs₁, evs₂, leftover, hsplit, hnl', hdrain, hrest⟩
        left
        refine ⟨e :: evs₁, evs₂, leftover, by rw [hsplit]; rfl, hnl', ?_, hrest⟩
        rw [hdrain]
        rfl
      · rcases hright with ⟨hdrain, hsfx⟩
        right
        refine ⟨?_, hsfx⟩
        rw [hdrain]
        rfl
    · left
      refine ⟨[], e :: evs', pre, rfl, hnl, drain_no_newline parse hnl, ?_⟩
      rw [List.map_cons, List.flatten_cons, List.append_assoc]
      exact hps

/-- Once the sentinel has been consumed (empty buffer, nothing left on the
wire), further empty reads change nothing. -/
theorem foldl_after_done (parse : PayloadParse) :
    ∀ (chunks : List (List Char)) (acc : List String),
      chunks.flatten = [] →
      (chunks.foldl
          (fun acc chunk =>
            let od := drain parse (acc.2 ++ chunk)
            (acc.1 ++ od.1, od.2))
          (acc, [])).1 = acc := by
  intro chunks
  induction chunks with
  | nil => intro acc _; rfl
  | cons c rest ih =>
    intro acc hj
    rw [List.flatten_cons] at hj
    rcases List.append_eq_nil.mp hj with ⟨hc, hrest⟩
    subst hc
    simp only [List.foldl_cons, List.nil_append]
    rw [drain_no_newline parse (by simp)]
    simpa using ih acc hrest

theorem foldl_consume (parse : PayloadParse) :
    ∀ (chunks : List (List Char)) (acc : List String)
      (evs : List (List Char × String)) (leftover : List Char),
      (∀ e ∈ evs, GoodEvent parse e.1 e.2) →
      '\n' ∉ leftover →
      leftover ++ chunks.flatten = (evs.map fun e => dataLine e.1).flatten ++ doneLine →
      (chunks.foldl
          (fun acc chunk =>
            let od := drain parse (acc.2 ++ chunk)
            (acc.1 ++ od.1, od.2))
          (acc, leftover)).1 = acc ++ evs.map (·.2) := by
  intro chunks
  induction chunks with
  | nil =>
    intro acc evs leftover hg hnl hstream
    exfalso
    rw [List.flatten_nil, List.append_nil] at hstream
    have : '\n' ∈ leftover := by
      rw [hstream]
      exact List.mem_append_right _ (by decide)
    exact hnl this
  | cons c rest ih =>
    intro acc evs leftover hg hnl hstream
    simp only [List.foldl_cons]
    have hps : (leftover ++ c) ++ rest.flatten
        = (evs.map fun e => dataLine e.1).flatten ++ doneLine := by
      rw [List.append_assoc, ← List.flatten_cons (l := c)]
      exact hstream
    rcases drain_prefix parse evs (leftover ++ c) rest.flatten hg hps with hleft | hright
    · rcases hleft with ⟨evs₁, evs₂, leftover', hsplit, hnl', hdrain, hrest⟩
      rw [hdrain]
      have := ih (acc ++ evs₁.map (·.2)) evs₂ leftover'
        (fun x hx => hg x (by rw [hsplit]; exact List.mem_append_right _ hx)) hnl' hrest
      rw [this, hsplit, List.map_append, List.append_assoc]
    · rcases hright with ⟨hdrain, hrest⟩
      rw [hdrain]
      simpa using foldl_after_done parse rest (acc ++ evs.map (·.2)) hrest

/-- C8: the stream consumer splits the byte stream into lines, emits exactly
the content of each well-formed `data: {json}` payload line in arrival
order, terminates on the literal `[DONE]` sentinel, and holds an incomplete
trailing fragment back in the buffer until the next read — so for EVERY way
of cutting a well-formed event stream into network reads (including a cut in
the middle of a JSON payload), each token is delivered exactly once: the
relayed output equals the stream's token sequence. The payload parser is
abstract (`parse`); a well-formed event is a newline/CR-free payload that
parses to a non-empty content token. -/
theorem stream_relay_delivers_each_token_once (parse : PayloadParse)
    (evs : List (List Char × String)) (chunks : List (List Char))
    (hgood : ∀ e ∈ evs, GoodEvent parse e.1 e.2)
    (hchunks : chunks.flatten = (evs.map fun e => dataLine e.1).flatten ++ doneLine) :
    runChunks parse chunks = evs.map (·.2) := by
  unfold runChunks
  have := foldl_consume parse chunks [] evs []
    hgood (by simp) (by simpa using hchunks)
  simpa using this

/-- C8 witness: one event whose JSON payload line is split across two
network reads (`"data: 1\nda"` then `"ta: [DONE]\n"`) is delivered exactly
once, with a concrete parser accepting payload `1` as content "Hi". -/
theorem stream_relay_delivers_each_token_once_witness :
    runChunks
        (fun p => if p == ['1'] then ParseOutcome.ok (some "Hi") else ParseOutcome.fail)
        ["data: 1\nda".toList, "ta: [DONE]\n".toList]
      = ["Hi"] :=
  stream_relay_delivers_each_token_once
    (fun p => if p == ['1'] then ParseOutcome.ok (some "Hi") else ParseOutcome.fail)
    [(['1'], "Hi")] ["data: 1\nda".toList, "ta: [DONE]\n".toList]
    (fun e he => by
      rcases List.mem_singleton.mp he with rfl
      exact ⟨by decide, by decide, by decide, by decide, by decide⟩)
    (by decide)

/-! ## AskAIModal: markdownToHtml and Insert-into-document (C10)

`markdownToHtml` (AskAIModal.tsx lines 39–68) is a pipeline of JS regex
replacements. Each is embedded over `List Char`: the `gm`-anchored per-line
regexes (`^### (.+)$`, `^## (.+)$`, `^# (.+)$`, `^[*-] (.+)$`) become
per-line maps (a `.` never matches a newline, and each replacement is
newline-free, so a global anchored replace equals a line-wise map); the
unanchored global regexes (`\*\*(.+?)\*\*`, `\*(.+?)\*`,
`((?:<li>.*<\/li>\n?)+)`) become left-to-right scans with the engine's
leftmost-match, non-greedy/greedy and advance-on-failure behaviour. -/

/-- JS `split('\n')`. -/
def splitLines : List Char → List (List Char)
  | [] => [[]]
  | c :: rest =>
      if c = '\n' then [] :: splitLines rest
      else
        match splitLines rest with
        | l :: ls => (c :: l) :: ls
        | [] => [[c]]

/-- JS `join('\n')`. -/
def joinLines : List (List Char) → List Char
  | [] => []
  | [l] => l
  | l :: ls => l ++ '\n' :: joinLines ls

/-- A `gm`-anchored whole-string regex replace, as a per-line map. -/
def mapLinesC (f : List Char → List Char) (l : List Char) : List Char :=
  joinLines ((splitLines l).map f)

/-- One heading replace `^<marker>(.+)$` → `<h3>$1</h3>`. -/
def mdHeading (marker : List Char) (line : List Char) : List Char :=
  if marker.isPrefixOf line && decide (marker.length < line.length) then
    "<h3>".toList ++ line.drop marker.length ++ "</h3>".toList
  else line

/-- The list-item replace `^[*-] (.+)$` → `<li>$1</li>`. -/
def mdListItem (line : List Char) : List Char :=
  if ("* ".toList.isPrefixOf line || "- ".toList.isPrefixOf line)
      && decide (2 < line.length) then
    "<li>".toList ++ line.drop 2 ++ "</li>".toList
  else line

/-- Earliest `**` in the list, not crossing a newline: returns the chars
before it and the chars after it. -/
def splitAtStars : List Char → Option (List Char × List Char)
  | [] => none
  | c :: rest =>
      if c = '\n' then none
      else if c = '*' then
        match rest with
        | c2 :: rest2 =>
            if c2 = '*' then some ([], rest2)
            else (splitAtStars rest).map fun p => (c :: p.1, p.2)
        | [] => none
      else (splitAtStars rest).map fun p => (c :: p.1, p.2)

/-- The non-greedy `(.+?)\*\*` continuation: a non-empty newline-free run up
to the earliest closing `**`. -/
def findCloseDouble : List Char → Option (List Char × List Char)
  | [] => none
  | c :: rest =>
      if c = '\n' then none
      else (splitAtStars rest).map fun p => (c :: p.1, p.2)

/-- Earliest `*` in the list, not crossing a newline. -/
def splitAtStar : List Char → Option (List Char × List Char)
  | [] => none
  | c :: rest =>
      if c = '\n' then none
      else if c = '*' then some ([], rest)
      else (splitAtStar rest).map fun p => (c :: p.1, p.2)

/-- The non-greedy `(.+?)\*` continuation. -/
def findCloseSingle : List Char → Option (List Char × List Char)
  | [] => none
  | c :: rest =>
      if c = '\n' then none
      else (splitAtStar rest).map fun p => (c :: p.1, p.2)

theorem splitAtStars_length_lt : ∀ {l p r : List Char},
    splitAtStars l = some (p, r) → r.length < l.length := by
  intro l
  induction l with
  | nil => intro p r h; simp [splitAtStars] at h
  | cons c rest ih =>
    intro p r h
    simp only [splitAtStars] at h
    by_cases hnl : c = '\n'
    · rw [if_pos hnl] at h; cases h
    rw [if_neg hnl] at h
    by_cases hstar : c = '*'
    · rw [if_pos hstar] at h
      cases rest with
      | nil => simp at h
      | cons c2 rest2 =>
        dsimp only at h
        by_cases h2 : c2 = '*'
        · rw [if_pos h2] at h
          simp only [Option.some.injEq, Prod.mk.injEq] at h
          rcases h with ⟨rfl, rfl⟩
          simp only [List.length_cons]
          omega
        · rw [if_neg h2] at h
          cases hsub : splitAtStars (c2 :: rest2) with
          | none => rw [hsub] at h; cases h
          | some pr =>
            rw [hsub] at h
            simp only [Option.map, Option.some.injEq, Prod.mk.injEq] at h
            rcases h with ⟨hp, hr⟩
            have hlen := ih hsub
            rw [← hr]
            simp only [List.length_cons] at hlen ⊢
            omega
    · rw [if_neg hstar] at h
      cases hsub : splitAtStars rest with
      | none => rw [hsub] at h; cases h
      | some pr =>
        rw [hsub] at h
        simp only [Option.map, Option.some.injEq, Prod.mk.injEq] at h
        rcases h with ⟨hp, hr⟩
        have hlen := ih hsub
        rw [← hr]
        simp only [List.length_cons]
        omega

theorem splitAtStar_length_lt : ∀ {l p r : List Char},
    splitAtStar l = some (p, r) → r.length < l.length := by
  intro l
  induction l with
  | nil => intro p r h; simp [splitAtStar] at h
  | cons c rest ih =>
    intro p r h
    rw [splitAtStar] at h
    by_cases hnl : c = '\n'
    · rw [if_pos hnl] at h; cases h
    rw [if_neg hnl] at h
    by_cases hstar : c = '*'
    · rw [if_pos hstar] at h
      simp only [Option.some.injEq, Prod.mk.injEq] at h
      rcases h with ⟨rfl, rfl⟩
      simp
    · rw [if_neg hstar] at h
      cases hsub : splitAtStar rest with
      | none => rw [hsub] at h; cases h
      | some pr =>
        rw [hsub] at h
        simp only [Option.map, Option.some.injEq, Prod.mk.injEq] at h
        rcases h with ⟨hp, hr⟩
        have hlen := ih hsub
        rw [← hr]
        simp only [List.length_cons]
        omega

theorem findCloseDouble_length_lt {l p r : List Char}
    (h : findCloseDouble l = some (p, r)) : r.length < l.length := by
  cases l with
  | nil => simp [findCloseDouble] at h
  | cons c rest =>
    rw [findCloseDouble] at h
    by_cases hnl : c = '\n'
    · rw [if_pos hnl] at h; cases h
    · rw [if_neg hnl] at h
      cases hsub : splitAtStars rest with
      | none => rw [hsub] at h; cases h
      | some pr =>
        rw [hsub] at h
        simp only [Option.map, Option.some.injEq, Prod.mk.injEq] at h
        rcases h with ⟨hp, hr⟩
        have hlen := splitAtStars_length_lt hsub
        rw [← hr]
        simp only [List.length_cons]
        omega

theorem findCloseSingle_length_lt {l p r : List Char}
    (h : findCloseSingle l = some (p, r)) : r.length < l.length := by
  cases l with
  | nil => simp [findCloseSingle] at h
  | cons c rest =>
    rw [findCloseSingle] at h
    by_cases hnl : c = '\n'
    · rw [if_pos hnl] at h; cases h
    · rw [if_neg hnl] at h
      cases hsub : splitAtStar rest with
      | none => rw [hsub] at h; cases h
      | some pr =>
        rw [hsub] at h
        simp only [Option.map, Option.some.injEq, Prod.mk.injEq] at h
        rcases h with ⟨hp, hr⟩
        have hlen := splitAtStar_length_lt hsub
        rw [← hr]
        simp only [List.length_cons]
        omega

/-- The global bold replace `\*\*(.+?)\*\*` → `<strong>$1</strong>`:
left-to-right scan; at a failed match attempt the engine advances one
character. The fuel argument only bounds the recursion (each step strictly
shrinks the list, so `l.length` fuel is always enough) and keeps the
function kernel-computable. -/
def boldScanGo : Nat → List Char → List Char
  | _, [] => []
  | 0, l => l
  | fuel + 1, c :: rest =>
      if c = '*' then
        match rest with
        | c2 :: rest2 =>
            if c2 = '*' then
              match findCloseDouble rest2 with
              | some pr =>
                  "<strong>".toList ++ pr.1 ++ "</strong>".toList ++ boldScanGo fuel pr.2
              | none => c :: boldScanGo fuel (c2 :: rest2)
            else c :: boldScanGo fuel (c2 :: rest2)
        | [] => [c]
      else c :: boldScanGo fuel rest

/-- See `boldScanGo`. -/
def boldScan (l : List Char) : List Char :=
  boldScanGo l.length l

/-- The global italic replace `\*(.+?)\*` → `<em>$1</em>` (fuelled like
`boldScanGo`). -/
def italicScanGo : Nat → List Char → List Char
  | _, [] => []
  | 0, l => l
  | fuel + 1, c :: rest =>
      if c = '*' then
        match findCloseSingle rest with
        | some pr => "<em>".toList ++ pr.1 ++ "</em>".toList ++ italicScanGo fuel pr.2
        | none => c :: italicScanGo fuel rest
      else c :: italicScanGo fuel rest

/-- See `italicScanGo`. -/
def italicScan (l : List Char) : List Char :=
  italicScanGo l.length l

/-- The greedy `<li>.*<\/li>` part of one run iteration on the current line:
the matched segment ends at the LAST `</li>` ending within the line that
starts at or after position 4 (after the leading `<li>`); returns the
segment's length. -/
def liSegLength (ln : List Char) : Option Nat :=
  (((List.range (ln.length + 1)).filter fun j =>
      decide (4 ≤ j) && "</li>".toList.isPrefixOf (ln.drop j)).max?).map (· + 5)

/-- One iteration of `(?:<li>.*<\/li>\n?)+` at the head of `l`: the matched
segment (including a consumed trailing newline, if present) and the rest. -/
def liIter (l : List Char) : Option (List Char × List Char) :=
  if "<li>".toList.isPrefixOf l then
    match liSegLength (l.takeWhile (· ≠ '\n')) with
    | some k =>
        let rest1 := l.drop k
        if rest1.head? == some '\n' then some (l.take k ++ ['\n'], rest1.drop 1)
        else some (l.take k, rest1)
    | none => none
  else none

theorem liSegLength_le {ln : List Char} {k : Nat} (h : liSegLength ln = some k) :
    5 ≤ k ∧ k ≤ ln.length := by
  unfold liSegLength at h
  cases hmax : (((List.range (ln.length + 1)).filter fun j =>
      decide (4 ≤ j) && "</li>".toList.isPrefixOf (ln.drop j)).max?) with
  | none => rw [hmax] at h; cases h
  | some j =>
    rw [hmax] at h
    simp only [Option.map, Option.some.injEq] at h
    have hjmem := List.max?_mem (fun a b => max_choice a b) hmax
    have hjp := List.of_mem_filter hjmem
    simp only [Bool.and_eq_true, decide_eq_true_eq] at hjp
    have hpre : "</li>".toList.isPrefixOf (ln.drop j) = true := hjp.2
    have hlen : "</li>".toList.length ≤ (ln.drop j).length :=
      List.IsPrefix.length_le (List.isPrefixOf_iff_prefix.mp hpre)
    rw [List.length_drop] at hlen
    have h5 : ("</li>".toList).length = 5 := by decide
    rw [h5] at hlen
    omega

theorem liIter_length_lt {l seg rest : List Char} (h : liIter l = some (seg, rest)) :
    rest.length < l.length := by
  unfold liIter at h
  by_cases hpre : ("<li>".toList.isPrefixOf l) = true
  · rw [if_pos hpre] at h
    cases hseg : liSegLength (l.takeWhile (· ≠ '\n')) with
    | none => rw [hseg] at h; cases h
    | some k =>
      rw [hseg] at h
      dsimp only at h
      rcases liSegLength_le hseg with ⟨h5, hk⟩
      have hkl : k ≤ l.length := le_trans hk (by
        simpa using List.IsPrefix.length_le (l.takeWhile_prefix (p := (· ≠ '\n'))))
      have hl4 : 4 ≤ l.length := by
        have := List.IsPrefix.length_le (List.isPrefixOf_iff_prefix.mp hpre)
        simpa using this
      by_cases hhead : ((l.drop k).head? == some '\n') = true
      · rw [if_pos hhead] at h
        simp only [Option.some.injEq, Prod.mk.injEq] at h
        rcases h with ⟨_, hr⟩
        rw [← hr]
        have hne : l.drop k ≠ [] := by
          intro hEq
          rw [hEq] at hhead
          simp at hhead
        have : (l.drop k).length ≠ 0 := fun hz => hne (List.length_eq_zero.mp hz)
        rw [List.length_drop] at this ⊢
        simp only [List.length_drop]
        omega
      · rw [if_neg hhead] at h
        simp only [Option.some.injEq, Prod.mk.injEq] at h
        rcases h with ⟨_, hr⟩
        rw [← hr, List.length_drop]
        omega
  · rw [if_neg hpre] at h
    cases h

/-- One-or-more run iterations `(?:<li>.*<\/li>\n?)+` (fuelled). -/
def liRunGo : Nat → List Char → Option (List Char × List Char)
  | 0, _ => none
  | fuel + 1, l =>
      match liIter l with
      | none => none
      | some sr =>
          match liRunGo fuel sr.2 with
          | some sr2 => some (sr.1 ++ sr2.1, sr2.2)
          | none => some (sr.1, sr.2)

/-- See `liRunGo`. -/
def liRun (l : List Char) : Option (List Char × List Char) :=
  liRunGo l.length l

theorem liRunGo_length_lt : ∀ {fuel : Nat} {l seg rest : List Char},
    liRunGo fuel l = some (seg, rest) → rest.length < l.length := by
  intro fuel
  induction fuel with
  | zero => intro l seg rest h; cases h
  | succ fuel ih =>
    intro l seg rest h
    rw [liRunGo] at h
    cases hit : liIter l with
    | none => rw [hit] at h; cases h
    | some sr =>
      rw [hit] at h
      dsimp only at h
      have h1 : sr.2.length < l.length := liIter_length_lt hit
      cases hrun : liRunGo fuel sr.2 with
      | none =>
        rw [hrun] at h
        simp only [Option.some.injEq, Prod.mk.injEq] at h
        rcases h with ⟨_, hr⟩
        rw [← hr]
        exact h1
      | some sr2 =>
        rw [hrun] at h
        have h2 : sr2.2.length < sr.2.length := ih hrun
        simp only [Option.some.injEq, Prod.mk.injEq] at h
        rcases h with ⟨_, hr⟩
        rw [← hr]
        omega

theorem liRun_length_lt {l seg rest : List Char} (h : liRun l = some (seg, rest)) :
    rest.length < l.length :=
  liRunGo_length_lt h

/-- The global run-wrapping replace `((?:<li>.*<\/li>\n?)+)` →
`<ul>$1</ul>`: left-to-right scan, replacing each leftmost run (fuelled). -/
def ulWrapScanGo : Nat → List Char → List Char
  | _, [] => []
  | 0, l => l
  | fuel + 1, c :: rest =>
      match liRun (c :: rest) with
      | some sr => "<ul>".toList ++ sr.1 ++ "</ul>".toList ++ ulWrapScanGo fuel sr.2
      | none => c :: ulWrapScanGo fuel rest

/-- See `ulWrapScanGo`. -/
def ulWrapScan (l : List Char) : List Char :=
  ulWrapScanGo l.length l

/-- The final wrap step for one split line (AskAIModal.tsx lines 56–65). -/
def wrapLine (line : List Char) : List Char :=
  let t := trimChars line
  if t = [] then []
  else if "<h3>".toList.isPrefixOf t || "<ul>".toList.isPrefixOf t ||
      "<li>".toList.isPrefixOf t || "</".toList.isPrefixOf t then t
  else "<p>".toList ++ t ++ "</p>".toList

/-- `split('\n').map(wrap).filter(Boolean).join('\n')`. -/
def paragraphStep (l : List Char) : List Char :=
  joinLines (((splitLines l).map wrapLine).filter (· ≠ []))

/-- `markdownToHtml` (AskAIModal.tsx lines 39–68): headings, bold, italic,
list items, run wrapping, paragraph wrapping — in source order. -/
def markdownToHtml (md : String) : String :=
  String.mk
    (paragraphStep
      (ulWrapScan
        (mapLinesC mdListItem
          (italicScan
            (boldScan
              (mapLinesC (mdHeading "# ".toList)
                (mapLinesC (mdHeading "## ".toList)
                  (mapLinesC (mdHeading "### ".toList) md.toList))))))))

/-- `handleInsert` (AskAIModal.tsx lines 178–182) routed into the editor's
`handleInsertAIContent`: the fragment inserted into the chosen section is
`markdownToHtml(response)`, appended after the section's content and a blank
line. -/
def handleInsert (st : EditorState) (response : String) (targetSectionId : Nat) :
    EditorState :=
  applyOp st (.insertAI (markdownToHtml response) targetSectionId)

/-! ### A structured markdown grammar for the C10 statement

The corrected claim is stated over documents built from heading, bullet,
plain-text and blank lines whose inline content is plain chunks and
`**bold**` spans. `renderMd` gives the markdown source of such a document;
the claim-side function `htmlLines` states the HTML the pipeline is
expected to produce, including the quirk that the line following a bullet
run is glued to the closing `</ul>` (the `<ul>` regex consumes the run's
trailing newline), so that line is emitted verbatim and never
`<p>`-wrapped. -/

/-- Inline content: a plain chunk, a `**bold**` span, or the lone star of a
`* ` bullet marker. -/
inductive Blob where
  | txt (s : List Char)
  | bold (s : List Char)
  | star
  deriving Repr, DecidableEq

/-- A blob's markdown source. -/
def blobMd : Blob → List Char
  | .txt s => s
  | .bold s => '*' :: '*' :: (s ++ ['*', '*'])
  | .star => ['*']

/-- A blob's HTML after the bold replace. -/
def blobHtml : Blob → List Char
  | .txt s => s
  | .bold s => "<strong>".toList ++ s ++ "</strong>".toList
  | .star => ['*']

/-- Markdown source of a blob list. -/
def blobsMd (bs : List Blob) : List Char := (bs.map blobMd).flatten

/-- HTML of a blob list after the bold replace. -/
def blobsHtml (bs : List Blob) : List Char := (bs.map blobHtml).flatten

/-- One markdown line of the structured grammar. -/
inductive MdLine where
  | heading (hashes : Nat) (il : List Blob)
  | bullet (dash : Bool) (il : List Blob)
  | plain (il : List Blob)
  | blank
  deriving Repr, DecidableEq

/-- A line's markdown source. -/
def lineMd : MdLine → List Char
  | .heading m il => List.replicate m '#' ++ ' ' :: blobsMd il
  | .bullet d il => (if d then '-' else '*') :: ' ' :: blobsMd il
  | .plain il => blobsMd il
  | .blank => []

/-- The markdown source of a document. -/
def renderMd (doc : List MdLine) : List Char := joinLines (doc.map lineMd)

/-- `<h3>t</h3>`. -/
def h3Wrap (t : List Char) : List Char :=
  "<h3>".toList ++ t ++ "</h3>".toList

/-- `<li>t</li>`. -/
def liWrap (t : List Char) : List Char :=
  "<li>".toList ++ t ++ "</li>".toList

/-- The three heading replaces in source order (`###`, then `##`, then `#`). -/
def headAll (line : List Char) : List Char :=
  mdHeading "# ".toList (mdHeading "## ".toList (mdHeading "### ".toList line))

/-- The blob decomposition of a line after the heading replaces. -/
def lineBlobs : MdLine → List Blob
  | .heading _ il => .txt "<h3>".toList :: (il ++ [.txt "</h3>".toList])
  | .bullet d il => if d then .txt ['-', ' '] :: il else .star :: .txt [' '] :: il
  | .plain il => il
  | .blank => []

/-- Whole-document blob decomposition after the heading replaces. -/
def docBlobs : List MdLine → List Blob
  | [] => []
  | [l] => lineBlobs l
  | l :: rest => lineBlobs l ++ .txt ['\n'] :: docBlobs rest

/-- Document structure at the block level: maximal bullet runs and single
lines. -/
inductive Block where
  | heading (il : List Blob)
  | plain (il : List Blob)
  | blank
  | run (ts : List (List Blob))
  deriving Repr, DecidableEq

/-- Group a document's lines into blocks, merging consecutive bullet lines
into one run. -/
def toBlocks : List MdLine → List Block
  | [] => []
  | .bullet _ il :: rest =>
      match toBlocks rest with
      | .run ts :: bs => .run (il :: ts) :: bs
      | bs => .run [il] :: bs
  | .heading _ il :: rest => .heading il :: toBlocks rest
  | .plain il :: rest => .plain il :: toBlocks rest
  | .blank :: rest => .blank :: toBlocks rest

/-- The `<li>` lines of a run, in order. -/
def runLines (ts : List (List Blob)) : List (List Char) :=
  ts.map fun il => liWrap (blobsHtml il)

/-- A run's region of the stage-2 text: its `<li>` lines joined by
newlines. -/
def runRegion (ts : List (List Blob)) : List Char :=
  joinLines (runLines ts)

/-- A block's stage-2 text (after headings, bold, italics and list items,
before the `<ul>` wrap). -/
def blockText : Block → List Char
  | .heading il => h3Wrap (blobsHtml il)
  | .plain il => blobsHtml il
  | .blank => []
  | .run ts => runRegion ts

/-- The whole stage-2 text of a block list. -/
def stage2Text : List Block → List Char
  | [] => []
  | [b] => blockText b
  | b :: bs => blockText b ++ '\n' :: stage2Text bs

/-- Prefix the first line with `<ul>`. -/
def openRun : List (List Char) → List (List Char)
  | [] => []
  | l :: ls => ("<ul>".toList ++ l) :: ls

/-- Append `</ul>` to the last line. -/
def closeRun : List (List Char) → List (List Char)
  | [] => []
  | [l] => [l ++ "</ul>".toList]
  | l :: ls => l :: closeRun ls

/-- Glue a string onto the first line (or make it a line of its own). -/
def glueHead (s : List Char) : List (List Char) → List (List Char)
  | [] => [s]
  | l :: ls => (s ++ l) :: ls

/-- The lines after the `<ul>` wrap: each run gains a `<ul>` prefix on its
first line, and its `</ul>` lands on the run's last line when the run ends
the text, or glued onto the next line otherwise (the regex consumed that
newline). -/
def ulLines : List Block → List (List Char)
  | [] => []
  | .heading il :: bs => h3Wrap (blobsHtml il) :: ulLines bs
  | .plain il :: bs => blobsHtml il :: ulLines bs
  | .blank :: bs => [] :: ulLines bs
  | .run ts :: bs =>
      match bs with
      | [] => closeRun (openRun (runLines ts))
      | _ :: _ => openRun (runLines ts) ++ glueHead "</ul>".toList (ulLines bs)

/-- The raw (pre-paragraph) line a single-line block contributes. -/
def rawBlockLine : Block → List Char
  | .heading il => h3Wrap (blobsHtml il)
  | .plain il => blobsHtml il
  | .blank => []
  | .run _ => []

/-- The expected final HTML lines (the corrected claim): headings become
`<h3>` lines, bold spans `<strong>`, bullet runs are wrapped in a single
`<ul>`, blank lines are dropped and plain lines are `<p>`-wrapped — except
that the line right after a bullet run is glued to the run's `</ul>` and
emitted verbatim, not `<p>`-wrapped. -/
def htmlLines : List Block → List (List Char)
  | [] => []
  | .heading il :: bs => h3Wrap (blobsHtml il) :: htmlLines bs
  | .plain il :: bs =>
      ("<p>".toList ++ blobsHtml il ++ "</p>".toList) :: htmlLines bs
  | .blank :: bs => htmlLines bs
  | .run ts :: bs =>
      match bs with
      | [] => closeRun (openRun (runLines ts))
      | b :: bs2 =>
          openRun (runLines ts) ++
            ("</ul>".toList ++ rawBlockLine b) :: htmlLines bs2

/-- A well-formed inline chunk: non-empty, no newline, no star, no `<`. -/
def cleanChunk (s : List Char) : Bool :=
  !s.isEmpty && s.all fun c => c != '\n' && c != '*' && c != '<'

/-- Well-formedness of one inline blob of a line's text. -/
def inlineOK : Blob → Bool
  | .txt s => cleanChunk s
  | .bold s => cleanChunk s
  | .star => false

/-- Well-formedness of a line's inline text. -/
def textOK (il : List Blob) : Bool := !il.isEmpty && il.all inlineOK

/-- The text does not itself start with a heading or bullet marker. -/
def mdMarkerFree (t : List Char) : Bool :=
  !("# ".toList.isPrefixOf t) && !("## ".toList.isPrefixOf t) &&
    !("### ".toList.isPrefixOf t) && !("- ".toList.isPrefixOf t)

/-- A plain line neither starts nor ends with whitespace (so the paragraph
step's trim is the identity on it). -/
def edgeOK (il : List Blob) : Bool :=
  (match il with
   | .txt (c :: _) :: _ => !c.isWhitespace
   | _ => true) &&
    (match il.getLast? with
     | some (.txt s) =>
         match s.getLast? with
         | some c => !c.isWhitespace
         | none => true
     | _ => true)

/-- Well-formedness of one line of the structured grammar. -/
def lineOK : MdLine → Bool
  | .heading m il => (decide (1 ≤ m) && decide (m ≤ 3)) && textOK il
  | .bullet _ il => textOK il
  | .plain il => textOK il && mdMarkerFree (blobsMd il) && edgeOK il
  | .blank => true

/-- Well-formedness of a whole structured document. -/
def goodDoc (doc : List MdLine) : Bool := !doc.isEmpty && doc.all lineOK

/-- Block-level well-formedness. -/
def blockOK : Block → Bool
  | .heading il => textOK il
  | .plain il => textOK il && mdMarkerFree (blobsMd il) && edgeOK il
  | .blank => true
  | .run ts => !ts.isEmpty && ts.all textOK

/-- No two adjacent runs (maximality of runs). -/
def noAdjRun : List Block → Bool
  | .run _ :: .run _ :: _ => false
  | _ :: bs => noAdjRun bs
  | [] => true

/-- Blob-list well-formedness for the bold replace: text chunks are
star-free, bold contents are non-empty, star-free and newline-free, and a
lone star is followed by a chunk that does not start with a star. -/
def blobsOK : List Blob → Bool
  | [] => true
  | .star :: .txt (c :: s) :: bs => c != '*' && blobsOK (.txt (c :: s) :: bs)
  | .star :: _ => false
  | .txt s :: bs => !(s.contains '*') && blobsOK bs
  | .bold s :: bs =>
      (!s.isEmpty && !(s.contains '\n') && !(s.contains '*')) && blobsOK bs

/-- No `<` immediately followed by `l` anywhere (so no `<li>` can match at
any position). -/
def noLiSeed : List Char → Bool
  | a :: b :: rest => !(a == '<' && b == 'l') && noLiSeed (b :: rest)
  | _ => true

/-- `noLiSeed`, and the string does not end with `<` (so appending cannot
create a `<li>` seed at the boundary). -/
def seedOK (s : List Char) : Bool := noLiSeed s && !(s.getLast? == some '<')

/-- No star before the next newline (or the end). -/
def noStarTilNl : List Char → Bool
  | [] => true
  | c :: rest => if c = '\n' then true else if c = '*' then false else noStarTilNl rest

/-- Every star is the last star of its line — the italic replace finds no
closing star and leaves the text unchanged. -/
def starsIsolated : List Char → Bool
  | [] => true
  | c :: rest => (if c = '*' then noStarTilNl rest else true) && starsIsolated rest

theorem splitLines_no_nl {l : List Char} (h : '\n' ∉ l) : splitLines l = [l] := by
  induction l with
  | nil => rfl
  | cons c rest ih =>
    have hc : ¬c = '\n' := fun hEq => h (hEq ▸ List.mem_cons_self c rest)
    simp only [splitLines]
    rw [if_neg hc, ih (fun hm => h (List.mem_cons_of_mem c hm))]

theorem splitLines_append_nl {l : List Char} (m : List Char) (h : '\n' ∉ l) :
    splitLines (l ++ '\n' :: m) = l :: splitLines m := by
  induction l with
  | nil => simp [splitLines]
  | cons c rest ih =>
    have hc : ¬c = '\n' := fun hEq => h (hEq ▸ List.mem_cons_self c rest)
    simp only [List.cons_append, splitLines, List.append_eq]
    rw [if_neg hc, ih (fun hm => h (List.mem_cons_of_mem c hm))]

theorem joinLines_cons {ls : List (List Char)} (l : List Char) (h : ls ≠ []) :
    joinLines (l :: ls) = l ++ '\n' :: joinLines ls := by
  cases ls with
  | nil => exact absurd rfl h
  | cons a as => rfl

theorem splitLines_joinLines : ∀ {ls : List (List Char)}, ls ≠ [] →
    (∀ l ∈ ls, '\n' ∉ l) → splitLines (joinLines ls) = ls := by
  intro ls
  induction ls with
  | nil => intro h; exact absurd rfl h
  | cons a as ih =>
    intro _ hnl
    cases as with
    | nil => exact splitLines_no_nl (hnl a (List.mem_cons_self a []))
    | cons b bs =>
      rw [joinLines_cons a (by simp),
        splitLines_append_nl _ (hnl a (List.mem_cons_self a _)),
        ih (by simp) (fun l hl => hnl l (List.mem_cons_of_mem a hl))]

theorem mapLinesC_join (f : List Char → List Char) {ls : List (List Char)}
    (h : ls ≠ []) (hnl : ∀ l ∈ ls, '\n' ∉ l) :
    mapLinesC f (joinLines ls) = joinLines (ls.map f) := by
  unfold mapLinesC
  rw [splitLines_joinLines h hnl]

theorem joinLines_append {ls₁ ls₂ : List (List Char)} (h₁ : ls₁ ≠ [])
    (h₂ : ls₂ ≠ []) :
    joinLines (ls₁ ++ ls₂) = joinLines ls₁ ++ '\n' :: joinLines ls₂ := by
  induction ls₁ with
  | nil => exact absurd rfl h₁
  | cons a as ih =>
    cases as with
    | nil =>
      rw [List.cons_append, List.nil_append, joinLines_cons a h₂]
      rfl
    | cons b bs =>
      rw [List.cons_append, joinLines_cons a (by simp),
        @joinLines_cons (b :: bs) a (by simp), ih (by simp),
        List.append_assoc]
      rfl

theorem joinLines_glueHead (s : List Char) (ls : List (List Char)) :
    joinLines (glueHead s ls) = s ++ joinLines ls := by
  cases ls with
  | nil => simp [glueHead, joinLines]
  | cons a as =>
    cases as with
    | nil => rfl
    | cons b bs =>
      show (s ++ a) ++ '\n' :: joinLines (b :: bs)
        = s ++ (a ++ '\n' :: joinLines (b :: bs))
      rw [List.append_assoc]

theorem blobsMd_append (a b : List Blob) :
    blobsMd (a ++ b) = blobsMd a ++ blobsMd b := by
  simp [blobsMd]

theorem blobsHtml_append (a b : List Blob) :
    blobsHtml (a ++ b) = blobsHtml a ++ blobsHtml b := by
  simp [blobsHtml]

theorem cleanChunk_ne_nil {s : List Char} (h : cleanChunk s = true) : s ≠ [] := by
  unfold cleanChunk at h
  simp only [Bool.and_eq_true, Bool.not_eq_true'] at h
  exact fun hEq => by simp [hEq, List.isEmpty] at h

theorem cleanChunk_mem {s : List Char} {c : Char} (h : cleanChunk s = true)
    (hm : c ∈ s) : c ≠ '\n' ∧ c ≠ '*' ∧ c ≠ '<' := by
  unfold cleanChunk at h
  simp only [Bool.and_eq_true, List.all_eq_true] at h
  have := h.2 c hm
  simp only [Bool.and_eq_true, bne_iff_ne, ne_eq] at this
  exact ⟨this.1.1, this.1.2, this.2⟩

theorem textOK_ne_nil {il : List Blob} (h : textOK il = true) : il ≠ [] := by
  unfold textOK at h
  simp only [Bool.and_eq_true, Bool.not_eq_true'] at h
  exact fun hEq => by simp [hEq, List.isEmpty] at h

theorem textOK_mem {il : List Blob} {b : Blob} (h : textOK il = true)
    (hm : b ∈ il) : inlineOK b = true := by
  unfold textOK at h
  simp only [Bool.and_eq_true, List.all_eq_true] at h
  exact h.2 b hm

theorem blobsHtml_ne_nil {il : List Blob} (h : textOK il = true) :
    blobsHtml il ≠ [] := by
  cases il with
  | nil => exact absurd rfl (textOK_ne_nil h)
  | cons b bs =>
    have hb := textOK_mem h (List.mem_cons_self b bs)
    cases b with
    | txt s =>
      have hs := cleanChunk_ne_nil (by simpa [inlineOK] using hb)
      cases s with
      | nil => exact absurd rfl hs
      | cons c cs => simp [blobsHtml, blobHtml]
    | bold s => simp [blobsHtml, blobHtml]
    | star => simp [blobsHtml, blobHtml]

theorem blobsMd_ne_nil {il : List Blob} (h : textOK il = true) :
    blobsMd il ≠ [] := by
  cases il with
  | nil => exact absurd rfl (textOK_ne_nil h)
  | cons b bs =>
    have hb := textOK_mem h (List.mem_cons_self b bs)
    cases b with
    | txt s =>
      have hs := cleanChunk_ne_nil (by simpa [inlineOK] using hb)
      cases s with
      | nil => exact absurd rfl hs
      | cons c cs => simp [blobsMd, blobMd]
    | bold s => simp [blobsMd, blobMd]
    | star => simp [blobsMd, blobMd]

theorem nl_not_mem_blobsHtml {il : List Blob} (h : textOK il = true) :
    '\n' ∉ blobsHtml il := by
  intro hm
  unfold blobsHtml at hm
  rcases List.mem_flatten.mp hm with ⟨piece, hp, hcp⟩
  rcases List.mem_map.mp hp with ⟨b, hb, rfl⟩
  have hok := textOK_mem h hb
  cases b with
  | txt s => exact absurd rfl (cleanChunk_mem (by simpa [inlineOK] using hok) hcp).1
  | bold s =>
    simp only [blobHtml, List.mem_append] at hcp
    rcases hcp with (hcp | hcp) | hcp
    · simp at hcp
    · exact absurd rfl (cleanChunk_mem (by simpa [inlineOK] using hok) hcp).1
    · simp at hcp
  | star => simp [inlineOK] at hok

theorem blobsMd_cons (b : Blob) (bs : List Blob) :
    blobsMd (b :: bs) = blobMd b ++ blobsMd bs := by
  simp [blobsMd]

theorem blobsHtml_cons (b : Blob) (bs : List Blob) :
    blobsHtml (b :: bs) = blobHtml b ++ blobsHtml bs := by
  simp [blobsHtml]

theorem mdHeading_pos (marker t : List Char) (ht : t ≠ []) :
    mdHeading marker (marker ++ t) = "<h3>".toList ++ t ++ "</h3>".toList := by
  unfold mdHeading
  have hpre : marker.isPrefixOf (marker ++ t) = true :=
    List.isPrefixOf_iff_prefix.mpr (List.prefix_append marker t)
  have hlen : marker.length < (marker ++ t).length := by
    rw [List.length_append]
    cases t with
    | nil => exact absurd rfl ht
    | cons a as => simp
  rw [hpre]
  simp only [Bool.true_and, decide_eq_true_eq]
  rw [if_pos hlen, List.drop_left]

theorem mdHeading_not_pre (marker line : List Char)
    (h : marker.isPrefixOf line = false) : mdHeading marker line = line := by
  unfold mdHeading
  rw [h]
  simp

theorem nl_not_mem_blobsMd {il : List Blob} (h : textOK il = true) :
    '\n' ∉ blobsMd il := by
  intro hm
  unfold blobsMd at hm
  rcases List.mem_flatten.mp hm with ⟨piece, hp, hcp⟩
  rcases List.mem_map.mp hp with ⟨b, hb, rfl⟩
  have hok := textOK_mem h hb
  cases b with
  | txt s => exact absurd rfl (cleanChunk_mem (by simpa [inlineOK] using hok) hcp).1
  | bold s =>
    simp only [blobMd, List.mem_cons, List.mem_append] at hcp
    rcases hcp with hcp | hcp | (hcp | hcp)
    · exact absurd hcp.symm (by decide)
    · exact absurd hcp.symm (by decide)
    · exact absurd rfl (cleanChunk_mem (by simpa [inlineOK] using hok) hcp).1
    · simp at hcp
  | star => simp [inlineOK] at hok

theorem isPrefixOf_false_of_head_ne (a b : Char) (as bs : List Char)
    (h : ¬a = b) : ((a :: as).isPrefixOf (b :: bs)) = false := by
  simp [List.isPrefixOf, h]

theorem headAll_line (l : MdLine) (hok : lineOK l = true) :
    headAll (lineMd l) = blobsMd (lineBlobs l) := by
  cases l with
  | heading m il =>
    simp only [lineOK, Bool.and_eq_true, decide_eq_true_eq] at hok
    obtain ⟨⟨h1, h3⟩, htext⟩ := hok
    have hten : blobsMd il ≠ [] := blobsMd_ne_nil htext
    have hrhs : blobsMd (lineBlobs (.heading m il))
        = ("<h3>".toList ++ blobsMd il) ++ "</h3>".toList := by
      simp [lineBlobs, blobsMd, blobMd, List.map_append]
    rw [hrhs]
    interval_cases m
    · show headAll ("# ".toList ++ blobsMd il)
        = ("<h3>".toList ++ blobsMd il) ++ "</h3>".toList
      unfold headAll
      have p3 : ("### ".toList.isPrefixOf ("# ".toList ++ blobsMd il)) = false := by
        show ((['#', '#', '#', ' '] : List Char).isPrefixOf
          ('#' :: ' ' :: blobsMd il)) = false
        simp [List.isPrefixOf]
      have p2 : ("## ".toList.isPrefixOf ("# ".toList ++ blobsMd il)) = false := by
        show ((['#', '#', ' '] : List Char).isPrefixOf
          ('#' :: ' ' :: blobsMd il)) = false
        simp [List.isPrefixOf]
      rw [mdHeading_not_pre _ _ p3, mdHeading_not_pre _ _ p2,
        mdHeading_pos _ _ hten]
    · show headAll ("## ".toList ++ blobsMd il)
        = ("<h3>".toList ++ blobsMd il) ++ "</h3>".toList
      unfold headAll
      have p3 : ("### ".toList.isPrefixOf ("## ".toList ++ blobsMd il)) = false := by
        show ((['#', '#', '#', ' '] : List Char).isPrefixOf
          ('#' :: '#' :: ' ' :: blobsMd il)) = false
        simp [List.isPrefixOf]
      have p1 : ("# ".toList.isPrefixOf
          (("<h3>".toList ++ blobsMd il) ++ "</h3>".toList)) = false :=
        isPrefixOf_false_of_head_ne '#' '<' _ _ (by decide)
      rw [mdHeading_not_pre _ _ p3, mdHeading_pos _ _ hten,
        mdHeading_not_pre _ _ p1]
    · show headAll ("### ".toList ++ blobsMd il)
        = ("<h3>".toList ++ blobsMd il) ++ "</h3>".toList
      unfold headAll
      have p2 : ("## ".toList.isPrefixOf
          (("<h3>".toList ++ blobsMd il) ++ "</h3>".toList)) = false :=
        isPrefixOf_false_of_head_ne '#' '<' _ _ (by decide)
      have p1 : ("# ".toList.isPrefixOf
          (("<h3>".toList ++ blobsMd il) ++ "</h3>".toList)) = false :=
        isPrefixOf_false_of_head_ne '#' '<' _ _ (by decide)
      rw [mdHeading_pos _ _ hten, mdHeading_not_pre _ _ p2,
        mdHeading_not_pre _ _ p1]
  | bullet d il =>
    cases d with
    | true =>
      show headAll ('-' :: ' ' :: blobsMd il) = blobsMd (lineBlobs (.bullet true il))
      unfold headAll
      have p3 : ("### ".toList.isPrefixOf ('-' :: ' ' :: blobsMd il)) = false := by
        show ((['#', '#', '#', ' '] : List Char).isPrefixOf
          ('-' :: ' ' :: blobsMd il)) = false
        simp [List.isPrefixOf]
      have p2 : ("## ".toList.isPrefixOf ('-' :: ' ' :: blobsMd il)) = false := by
        show ((['#', '#', ' '] : List Char).isPrefixOf
          ('-' :: ' ' :: blobsMd il)) = false
        simp [List.isPrefixOf]
      have p1 : ("# ".toList.isPrefixOf ('-' :: ' ' :: blobsMd il)) = false := by
        show ((['#', ' '] : List Char).isPrefixOf
          ('-' :: ' ' :: blobsMd il)) = false
        simp [List.isPrefixOf]
      rw [mdHeading_not_pre _ _ p3, mdHeading_not_pre _ _ p2,
        mdHeading_not_pre _ _ p1]
      simp [lineBlobs, blobsMd, blobMd]
    | false =>
      show headAll ('*' :: ' ' :: blobsMd il) = blobsMd (lineBlobs (.bullet false il))
      unfold headAll
      have p3 : ("### ".toList.isPrefixOf ('*' :: ' ' :: blobsMd il)) = false := by
        show ((['#', '#', '#', ' '] : List Char).isPrefixOf
          ('*' :: ' ' :: blobsMd il)) = false
        simp [List.isPrefixOf]
      have p2 : ("## ".toList.isPrefixOf ('*' :: ' ' :: blobsMd il)) = false := by
        show ((['#', '#', ' '] : List Char).isPrefixOf
          ('*' :: ' ' :: blobsMd il)) = false
        simp [List.isPrefixOf]
      have p1 : ("# ".toList.isPrefixOf ('*' :: ' ' :: blobsMd il)) = false := by
        show ((['#', ' '] : List Char).isPrefixOf
          ('*' :: ' ' :: blobsMd il)) = false
        simp [List.isPrefixOf]
      rw [mdHeading_not_pre _ _ p3, mdHeading_not_pre _ _ p2,
        mdHeading_not_pre _ _ p1]
      simp [lineBlobs, blobsMd, blobMd]
  | plain il =>
    unfold lineOK at hok
    rw [Bool.and_eq_true, Bool.and_eq_true] at hok
    obtain ⟨⟨htext, hmf⟩, hedge⟩ := hok
    unfold mdMarkerFree at hmf
    rw [Bool.and_eq_true, Bool.and_eq_true, Bool.and_eq_true] at hmf
    simp only [Bool.not_eq_true'] at hmf
    obtain ⟨⟨⟨p1, p2⟩, p3⟩, pd⟩ := hmf
    show headAll (blobsMd il) = blobsMd il
    unfold headAll
    rw [mdHeading_not_pre _ _ p3, mdHeading_not_pre _ _ p2,
      mdHeading_not_pre _ _ p1]
  | blank =>
    show headAll [] = blobsMd []
    unfold headAll
    have e3 : ("### ".toList.isPrefixOf ([] : List Char)) = false := by
      show ((['#', '#', '#', ' '] : List Char).isPrefixOf []) = false
      simp [List.isPrefixOf]
    have e2 : ("## ".toList.isPrefixOf ([] : List Char)) = false := by
      show ((['#', '#', ' '] : List Char).isPrefixOf []) = false
      simp [List.isPrefixOf]
    have e1 : ("# ".toList.isPrefixOf ([] : List Char)) = false := by
      show ((['#', ' '] : List Char).isPrefixOf []) = false
      simp [List.isPrefixOf]
    rw [mdHeading_not_pre _ _ e3, mdHeading_not_pre _ _ e2,
      mdHeading_not_pre _ _ e1]
    simp [blobsMd]

theorem mdHeading_no_nl (marker line : List Char) (h : '\n' ∉ line) :
    '\n' ∉ mdHeading marker line := by
  unfold mdHeading
  split
  · intro hm
    rcases List.mem_append.mp hm with hm | hm
    · rcases List.mem_append.mp hm with hm | hm
      · exact absurd hm (by decide)
      · exact h (List.mem_of_mem_drop hm)
    · exact absurd hm (by decide)
  · exact h

theorem nl_not_mem_lineMd (l : MdLine) (hok : lineOK l = true) :
    '\n' ∉ lineMd l := by
  cases l with
  | heading m il =>
    simp only [lineOK, Bool.and_eq_true, decide_eq_true_eq] at hok
    intro hm
    rcases List.mem_append.mp hm with hm | hm
    · exact absurd (List.mem_replicate.mp hm).2 (by decide)
    · rcases List.mem_cons.mp hm with hm | hm
      · exact absurd hm (by decide)
      · exact nl_not_mem_blobsMd hok.2 hm
  | bullet d il =>
    unfold lineOK at hok
    cases d with
    | true =>
      intro hm
      rcases List.mem_cons.mp hm with hm | hm
      · exact absurd hm (by decide)
      · rcases List.mem_cons.mp hm with hm | hm
        · exact absurd hm (by decide)
        · exact nl_not_mem_blobsMd hok hm
    | false =>
      intro hm
      rcases List.mem_cons.mp hm with hm | hm
      · exact absurd hm (by decide)
      · rcases List.mem_cons.mp hm with hm | hm
        · exact absurd hm (by decide)
        · exact nl_not_mem_blobsMd hok hm
  | plain il =>
    unfold lineOK at hok
    rw [Bool.and_eq_true, Bool.and_eq_true] at hok
    exact nl_not_mem_blobsMd hok.1.1
  | blank => simp [lineMd]

theorem nl_not_mem_lineBlobsHtml (l : MdLine) (hok : lineOK l = true) :
    '\n' ∉ blobsHtml (lineBlobs l) := by
  cases l with
  | heading m il =>
    simp only [lineOK, Bool.and_eq_true, decide_eq_true_eq] at hok
    intro hm
    rw [lineBlobs, blobsHtml_cons, blobsHtml_append] at hm
    rcases List.mem_append.mp hm with hm | hm
    · exact absurd hm (by decide)
    · rcases List.mem_append.mp hm with hm | hm
      · exact nl_not_mem_blobsHtml hok.2 hm
      · exact absurd hm (by decide)
  | bullet d il =>
    unfold lineOK at hok
    cases d with
    | true =>
      intro hm
      rw [lineBlobs] at hm
      simp only [if_pos rfl, blobsHtml_cons] at hm
      rcases List.mem_append.mp hm with hm | hm
      · exact absurd hm (by decide)
      · exact nl_not_mem_blobsHtml hok hm
    | false =>
      intro hm
      rw [lineBlobs] at hm
      simp only [if_neg Bool.false_ne_true, blobsHtml_cons] at hm
      rcases List.mem_append.mp hm with hm | hm
      · exact absurd hm (by decide)
      · rcases List.mem_append.mp hm with hm | hm
        · exact absurd hm (by decide)
        · exact nl_not_mem_blobsHtml hok hm
  | plain il =>
    unfold lineOK at hok
    rw [Bool.and_eq_true, Bool.and_eq_true] at hok
    exact nl_not_mem_blobsHtml hok.1.1
  | blank => simp [lineBlobs, blobsHtml]

theorem goodDoc_parts {doc : List MdLine} (h : goodDoc doc = true) :
    doc ≠ [] ∧ ∀ l ∈ doc, lineOK l = true := by
  unfold goodDoc at h
  rw [Bool.and_eq_true] at h
  constructor
  · intro he
    rw [he] at h
    simp [List.isEmpty] at h
  · exact fun l hl => List.all_eq_true.mp h.2 l hl

theorem heading_stage (doc : List MdLine) (h : goodDoc doc = true) :
    mapLinesC (mdHeading "# ".toList)
      (mapLinesC (mdHeading "## ".toList)
        (mapLinesC (mdHeading "### ".toList) (renderMd doc)))
      = joinLines (doc.map fun l => blobsMd (lineBlobs l)) := by
  obtain ⟨hne, hall⟩ := goodDoc_parts h
  have hmapne : ∀ f : MdLine → List Char, doc.map f ≠ [] := by
    intro f hEq
    cases doc with
    | nil => exact hne rfl
    | cons a as => simp at hEq
  have hnl0 : ∀ x ∈ doc.map lineMd, '\n' ∉ x := by
    intro x hx
    rcases List.mem_map.mp hx with ⟨l, hl, rfl⟩
    exact nl_not_mem_lineMd l (hall l hl)
  unfold renderMd
  rw [mapLinesC_join _ (hmapne lineMd) hnl0]
  have hnl1 : ∀ x ∈ (doc.map lineMd).map (mdHeading "### ".toList), '\n' ∉ x := by
    intro x hx
    rcases List.mem_map.mp hx with ⟨y, hy, rfl⟩
    exact mdHeading_no_nl _ _ (hnl0 y hy)
  have hne1 : (doc.map lineMd).map (mdHeading "### ".toList) ≠ [] := by
    intro hEq
    rw [List.map_eq_nil_iff] at hEq
    exact hmapne lineMd hEq
  rw [mapLinesC_join _ hne1 hnl1]
  have hnl2 : ∀ x ∈ ((doc.map lineMd).map (mdHeading "### ".toList)).map
      (mdHeading "## ".toList), '\n' ∉ x := by
    intro x hx
    rcases List.mem_map.mp hx with ⟨y, hy, rfl⟩
    exact mdHeading_no_nl _ _ (hnl1 y hy)
  have hne2 : ((doc.map lineMd).map (mdHeading "### ".toList)).map
      (mdHeading "## ".toList) ≠ [] := by
    intro hEq
    rw [List.map_eq_nil_iff] at hEq
    exact hne1 hEq
  rw [mapLinesC_join _ hne2 hnl2]
  congr 1
  simp only [List.map_map]
  refine List.map_congr_left ?_
  intro l hl
  exact headAll_line l (hall l hl)

theorem not_mem_of_contains_false {s : List Char} {c : Char}
    (h : (s.contains c) = false) : c ∉ s := by
  intro hm
  have he := List.elem_iff.mpr hm
  rw [show s.contains c = s.elem c from rfl, he] at h
  cases h

theorem splitAtStars_clean : ∀ {u : List Char} (v : List Char), '\n' ∉ u →
    '*' ∉ u → splitAtStars (u ++ '*' :: '*' :: v) = some (u, v) := by
  intro u
  induction u with
  | nil =>
    intro v _ _
    rfl
  | cons c u' ih =>
    intro v hnl hst
    have hc1 : ¬c = '\n' := fun hEq => hnl (hEq ▸ List.mem_cons_self c u')
    have hc2 : ¬c = '*' := fun hEq => hst (hEq ▸ List.mem_cons_self c u')
    show splitAtStars (c :: (u' ++ '*' :: '*' :: v)) = some (c :: u', v)
    rw [splitAtStars.eq_def]
    simp only []
    rw [if_neg hc1]
    cases hu : u' ++ '*' :: '*' :: v with
    | nil => exact absurd hu (by simp)
    | cons d rest =>
      rw [if_neg hc2, ← hu,
        ih v (fun hm => hnl (List.mem_cons_of_mem c hm))
          (fun hm => hst (List.mem_cons_of_mem c hm))]
      rfl

theorem findCloseDouble_clean {s : List Char} (v : List Char) (hne : s ≠ [])
    (hnl : '\n' ∉ s) (hst : '*' ∉ s) :
    findCloseDouble (s ++ '*' :: '*' :: v) = some (s, v) := by
  cases s with
  | nil => exact absurd rfl hne
  | cons c s' =>
    have hc1 : ¬c = '\n' := fun hEq => hnl (hEq ▸ List.mem_cons_self c s')
    show findCloseDouble (c :: (s' ++ '*' :: '*' :: v)) = some (c :: s', v)
    rw [findCloseDouble.eq_def]
    simp only []
    rw [if_neg hc1,
      splitAtStars_clean v (fun hm => hnl (List.mem_cons_of_mem c hm))
        (fun hm => hst (List.mem_cons_of_mem c hm))]
    rfl

theorem boldScanGo_nil (fuel : Nat) : boldScanGo fuel [] = [] := by
  cases fuel <;> rfl

theorem boldScanGo_not_star (f : Nat) (c : Char) (rest : List Char)
    (h : ¬c = '*') : boldScanGo (f + 1) (c :: rest) = c :: boldScanGo f rest := by
  rw [boldScanGo.eq_def]
  simp [h]

theorem boldScanGo_star_not (f : Nat) (c2 : Char) (rest2 : List Char)
    (h : ¬c2 = '*') :
    boldScanGo (f + 1) ('*' :: c2 :: rest2) = '*' :: boldScanGo f (c2 :: rest2) := by
  rw [boldScanGo.eq_def]
  simp [h]

theorem boldScanGo_star_star (f : Nat) (rest2 : List Char) :
    boldScanGo (f + 1) ('*' :: '*' :: rest2)
      = match findCloseDouble rest2 with
        | some pr => "<strong>".toList ++ pr.1 ++ "</strong>".toList ++ boldScanGo f pr.2
        | none => '*' :: boldScanGo f ('*' :: rest2) := by
  rfl

theorem blobsOK_tail {b : Blob} {bs : List Blob}
    (h : blobsOK (b :: bs) = true) : blobsOK bs = true := by
  cases b with
  | txt s =>
    unfold blobsOK at h
    rw [Bool.and_eq_true] at h
    exact h.2
  | bold s =>
    unfold blobsOK at h
    rw [Bool.and_eq_true] at h
    exact h.2
  | star =>
    cases bs with
    | nil => simp [blobsOK] at h
    | cons b2 bs' =>
      cases b2 with
      | txt s =>
        cases s with
        | nil => simp [blobsOK] at h
        | cons c s' =>
          unfold blobsOK at h
          rw [Bool.and_eq_true] at h
          exact h.2
      | bold s => simp [blobsOK] at h
      | star => simp [blobsOK] at h

theorem boldScanGo_blobs : ∀ (bs : List Blob), blobsOK bs = true →
    ∀ fuel, (blobsMd bs).length ≤ fuel →
      boldScanGo fuel (blobsMd bs) = blobsHtml bs := by
  intro bs
  induction bs with
  | nil =>
    intro _ fuel _
    show boldScanGo fuel [] = []
    exact boldScanGo_nil fuel
  | cons b bs' ih =>
    intro hok fuel hfuel
    have hok' := blobsOK_tail hok
    cases b with
    | txt s =>
      have hst : '*' ∉ s := by
        unfold blobsOK at hok
        rw [Bool.and_eq_true] at hok
        exact not_mem_of_contains_false (by simpa using hok.1)
      have hfuel' : (s ++ blobsMd bs').length ≤ fuel := hfuel
      show boldScanGo fuel (s ++ blobsMd bs') = s ++ blobsHtml bs'
      clear hok hfuel
      revert fuel
      revert hst
      induction s with
      | nil =>
        intro _ fuel hf
        exact ih hok' fuel (by simpa using hf)
      | cons c s2 ihs =>
        intro hst fuel hf
        have hc : ¬c = '*' := fun hEq => hst (hEq ▸ List.mem_cons_self c s2)
        have hst2 : '*' ∉ s2 := fun hm => hst (List.mem_cons_of_mem c hm)
        cases fuel with
        | zero => simp at hf
        | succ f =>
          show boldScanGo (f + 1) (c :: (s2 ++ blobsMd bs')) = _
          rw [boldScanGo_not_star f c _ hc,
            ihs hst2 f (by
              simp only [List.length_append, List.length_cons] at hf ⊢
              omega)]
          rfl
    | bold s =>
      have hok2 : ((!s.isEmpty && !(s.contains '\n') && !(s.contains '*'))
          && blobsOK bs') = true := hok
      rw [Bool.and_eq_true, Bool.and_eq_true, Bool.and_eq_true] at hok2
      have hne : s ≠ [] := by
        intro hEq
        rw [hEq] at hok2
        simp [List.isEmpty] at hok2
      have hnl : '\n' ∉ s :=
        not_mem_of_contains_false (by simpa using hok2.1.1.2)
      have hst : '*' ∉ s :=
        not_mem_of_contains_false (by simpa using hok2.1.2)
      have hshape : blobsMd (Blob.bold s :: bs')
          = '*' :: '*' :: (s ++ '*' :: '*' :: blobsMd bs') := by
        rw [blobsMd_cons]
        show ('*' :: '*' :: (s ++ ['*', '*'])) ++ blobsMd bs' = _
        simp [List.append_assoc]
      rw [hshape] at hfuel ⊢
      cases fuel with
      | zero => simp at hfuel
      | succ f =>
        rw [boldScanGo_star_star f _]
        rw [findCloseDouble_clean (blobsMd bs') hne hnl hst]
        have hlenf : (blobsMd bs').length ≤ f := by
          simp only [List.length_cons, List.length_append] at hfuel
          omega
        show "<strong>".toList ++ s ++ "</strong>".toList ++ boldScanGo f (blobsMd bs')
          = blobsHtml (Blob.bold s :: bs')
        rw [ih hok' f hlenf]
        rw [blobsHtml_cons]
        show "<strong>".toList ++ s ++ "</strong>".toList ++ blobsHtml bs'
          = ("<strong>".toList ++ s ++ "</strong>".toList) ++ blobsHtml bs'
        simp [List.append_assoc]
    | star =>
      cases bs' with
      | nil => simp [blobsOK] at hok
      | cons b2 bs2 =>
        cases b2 with
        | txt s =>
          cases s with
          | nil => simp [blobsOK] at hok
          | cons c s2 =>
            have hok2 : ((c != '*')
                && blobsOK (Blob.txt (c :: s2) :: bs2)) = true := hok
            rw [Bool.and_eq_true] at hok2
            have hc : ¬c = '*' := by
              have := hok2.1
              simpa [bne_iff_ne] using this
            have hshape : blobsMd (Blob.star :: Blob.txt (c :: s2) :: bs2)
                = '*' :: c :: (s2 ++ blobsMd bs2) := by
              rw [blobsMd_cons, blobsMd_cons]
              rfl
            rw [hshape] at hfuel ⊢
            cases fuel with
            | zero => simp at hfuel
            | succ f =>
              rw [boldScanGo_star_not f c _ hc]
              have hrest : c :: (s2 ++ blobsMd bs2)
                  = blobsMd (Blob.txt (c :: s2) :: bs2) := by
                rw [blobsMd_cons]
                rfl
              rw [hrest, ih hok' f (by
                rw [← hrest]
                simp only [List.length_cons] at hfuel ⊢
                omega)]
              rw [blobsHtml_cons]
              rfl
        | bold s => simp [blobsOK] at hok
        | star => simp [blobsOK] at hok

theorem boldScan_blobs (bs : List Blob) (h : blobsOK bs = true) :
    boldScan (blobsMd bs) = blobsHtml bs :=
  boldScanGo_blobs bs h (blobsMd bs).length (Nat.le_refl _)

theorem flatten_map_docBlobs (g : Blob → List Char) (hg : ∀ s, g (.txt s) = s) :
    ∀ doc : List MdLine, ((docBlobs doc).map g).flatten
      = joinLines (doc.map fun l => ((lineBlobs l).map g).flatten) := by
  intro doc
  induction doc with
  | nil => rfl
  | cons l rest ih =>
    cases rest with
    | nil => rfl
    | cons l2 rest2 =>
      show ((lineBlobs l ++ .txt ['\n'] :: docBlobs (l2 :: rest2)).map g).flatten = _
      rw [List.map_append, List.flatten_append, List.map_cons, List.flatten_cons,
        hg, List.map_cons, joinLines_cons _ (by simp), ← ih]
      rfl

theorem blobsMd_docBlobs (doc : List MdLine) :
    blobsMd (docBlobs doc) = joinLines (doc.map fun l => blobsMd (lineBlobs l)) :=
  flatten_map_docBlobs blobMd (fun s => rfl) doc

theorem blobsHtml_docBlobs (doc : List MdLine) :
    blobsHtml (docBlobs doc) = joinLines (doc.map fun l => blobsHtml (lineBlobs l)) :=
  flatten_map_docBlobs blobHtml (fun s => rfl) doc

theorem blobsOK_txt_cons (s : List Char) (bs : List Blob) :
    blobsOK (.txt s :: bs) = ((!(s.contains '*')) && blobsOK bs) := rfl

theorem blobsOK_bold_cons (s : List Char) (bs : List Blob) :
    blobsOK (.bold s :: bs)
      = ((!s.isEmpty && !(s.contains '\n') && !(s.contains '*')) && blobsOK bs) := rfl

theorem blobsOK_star_cons (c : Char) (s : List Char) (bs : List Blob) :
    blobsOK (.star :: .txt (c :: s) :: bs)
      = ((c != '*') && blobsOK (.txt (c :: s) :: bs)) := rfl

theorem cleanChunk_no_star {s : List Char} (h : cleanChunk s = true) :
    (s.contains '*') = false := by
  cases hc : s.contains '*' with
  | false => rfl
  | true =>
    have hm : '*' ∈ s := by
      rw [show s.contains '*' = s.elem '*' from rfl] at hc
      exact List.elem_iff.mp hc
    exact absurd rfl (cleanChunk_mem h hm).2.1

theorem cleanChunk_no_nl {s : List Char} (h : cleanChunk s = true) :
    (s.contains '\n') = false := by
  cases hc : s.contains '\n' with
  | false => rfl
  | true =>
    have hm : '\n' ∈ s := by
      rw [show s.contains '\n' = s.elem '\n' from rfl] at hc
      exact List.elem_iff.mp hc
    exact absurd rfl (cleanChunk_mem h hm).1

theorem cleanChunk_not_empty {s : List Char} (h : cleanChunk s = true) :
    s.isEmpty = false := by
  cases s with
  | nil => exact absurd h (by decide)
  | cons c s' => rfl

theorem blobsOK_of_inlines : ∀ {il : List Blob},
    (∀ b ∈ il, inlineOK b = true) → blobsOK il = true := by
  intro il
  induction il with
  | nil => intro _; rfl
  | cons b bs ih =>
    intro h
    have hb := h b (List.mem_cons_self b bs)
    have hbs := fun x hx => h x (List.mem_cons_of_mem b hx)
    cases b with
    | txt s =>
      have hcc : cleanChunk s = true := by simpa [inlineOK] using hb
      rw [blobsOK_txt_cons, Bool.and_eq_true]
      refine ⟨?_, ih hbs⟩
      rw [Bool.not_eq_true']
      exact cleanChunk_no_star hcc
    | bold s =>
      have hcc : cleanChunk s = true := by simpa [inlineOK] using hb
      rw [blobsOK_bold_cons, Bool.and_eq_true, Bool.and_eq_true, Bool.and_eq_true]
      refine ⟨⟨⟨?_, ?_⟩, ?_⟩, ih hbs⟩
      · rw [Bool.not_eq_true']
        exact cleanChunk_not_empty hcc
      · rw [Bool.not_eq_true']
        exact cleanChunk_no_nl hcc
      · rw [Bool.not_eq_true']
        exact cleanChunk_no_star hcc
    | star => exact absurd hb (by simp [inlineOK])

theorem blobsOK_append : ∀ {a : List Blob} (b : List Blob),
    blobsOK a = true → blobsOK b = true → blobsOK (a ++ b) = true := by
  intro a
  induction a with
  | nil => intro b _ hb; simpa using hb
  | cons x a' ih =>
    intro b ha hb
    cases x with
    | txt s =>
      rw [blobsOK_txt_cons, Bool.and_eq_true] at ha
      show blobsOK (Blob.txt s :: (a' ++ b)) = true
      rw [blobsOK_txt_cons, Bool.and_eq_true]
      exact ⟨ha.1, ih b ha.2 hb⟩
    | bold s =>
      rw [blobsOK_bold_cons, Bool.and_eq_true] at ha
      show blobsOK (Blob.bold s :: (a' ++ b)) = true
      rw [blobsOK_bold_cons, Bool.and_eq_true]
      exact ⟨ha.1, ih b ha.2 hb⟩
    | star =>
      cases a' with
      | nil => exact absurd ha (by simp [blobsOK])
      | cons y a'' =>
        cases y with
        | txt s =>
          cases s with
          | nil => exact absurd ha (by simp [blobsOK])
          | cons c s' =>
            rw [blobsOK_star_cons, Bool.and_eq_true] at ha
            show blobsOK (Blob.star :: Blob.txt (c :: s') :: (a'' ++ b)) = true
            rw [blobsOK_star_cons, Bool.and_eq_true]
            exact ⟨ha.1, ih b ha.2 hb⟩
        | bold s => exact absurd ha (by simp [blobsOK])
        | star => exact absurd ha (by simp [blobsOK])

theorem textOK_inlines {il : List Blob} (h : textOK il = true) :
    ∀ b ∈ il, inlineOK b = true :=
  fun b hb => textOK_mem h hb

theorem blobsOK_lineBlobs (l : MdLine) (hok : lineOK l = true) :
    blobsOK (lineBlobs l) = true := by
  cases l with
  | heading m il =>
    simp only [lineOK, Bool.and_eq_true, decide_eq_true_eq] at hok
    show blobsOK (Blob.txt "<h3>".toList :: (il ++ [Blob.txt "</h3>".toList])) = true
    rw [blobsOK_txt_cons, Bool.and_eq_true]
    refine ⟨by decide, blobsOK_append _ (blobsOK_of_inlines (textOK_inlines hok.2)) ?_⟩
    decide
  | bullet d il =>
    unfold lineOK at hok
    cases d with
    | true =>
      show blobsOK (Blob.txt ['-', ' '] :: il) = true
      rw [blobsOK_txt_cons, Bool.and_eq_true]
      exact ⟨by decide, blobsOK_of_inlines (textOK_inlines hok)⟩
    | false =>
      show blobsOK (Blob.star :: Blob.txt [' '] :: il) = true
      rw [blobsOK_star_cons, Bool.and_eq_true]
      refine ⟨by decide, ?_⟩
      rw [blobsOK_txt_cons, Bool.and_eq_true]
      exact ⟨by decide, blobsOK_of_inlines (textOK_inlines hok)⟩
  | plain il =>
    unfold lineOK at hok
    rw [Bool.and_eq_true, Bool.and_eq_true] at hok
    exact blobsOK_of_inlines (textOK_inlines hok.1.1)
  | blank => rfl

theorem blobsOK_docBlobs (doc : List MdLine)
    (h : ∀ l ∈ doc, lineOK l = true) : blobsOK (docBlobs doc) = true := by
  induction doc with
  | nil => rfl
  | cons l rest ih =>
    cases rest with
    | nil => exact blobsOK_lineBlobs l (h l (List.mem_cons_self l []))
    | cons l2 rest2 =>
      show blobsOK (lineBlobs l ++ Blob.txt ['\n'] :: docBlobs (l2 :: rest2)) = true
      refine blobsOK_append _
        (blobsOK_lineBlobs l (h l (List.mem_cons_self l _))) ?_
      rw [blobsOK_txt_cons, Bool.and_eq_true]
      exact ⟨by decide, ih (fun x hx => h x (List.mem_cons_of_mem l hx))⟩

theorem bold_stage (doc : List MdLine) (h : goodDoc doc = true) :
    boldScan (joinLines (doc.map fun l => blobsMd (lineBlobs l)))
      = joinLines (doc.map fun l => blobsHtml (lineBlobs l)) := by
  obtain ⟨hne, hall⟩ := goodDoc_parts h
  rw [← blobsMd_docBlobs, ← blobsHtml_docBlobs]
  exact boldScan_blobs _ (blobsOK_docBlobs doc hall)

theorem star_not_mem_blobsHtml {il : List Blob} (h : textOK il = true) :
    '*' ∉ blobsHtml il := by
  intro hm
  unfold blobsHtml at hm
  rcases List.mem_flatten.mp hm with ⟨piece, hp, hcp⟩
  rcases List.mem_map.mp hp with ⟨b, hb, rfl⟩
  have hok := textOK_mem h hb
  cases b with
  | txt s => exact absurd rfl (cleanChunk_mem (by simpa [inlineOK] using hok) hcp).2.1
  | bold s =>
    simp only [blobHtml, List.mem_append] at hcp
    rcases hcp with (hcp | hcp) | hcp
    · simp at hcp
    · exact absurd rfl (cleanChunk_mem (by simpa [inlineOK] using hok) hcp).2.1
    · simp at hcp
  | star => simp [inlineOK] at hok

theorem splitAtStar_none : ∀ {l : List Char}, noStarTilNl l = true →
    splitAtStar l = none := by
  intro l
  induction l with
  | nil => intro _; rfl
  | cons c rest ih =>
    intro h
    unfold noStarTilNl at h
    rw [splitAtStar.eq_def]
    simp only []
    by_cases hc1 : c = '\n'
    · rw [if_pos hc1]
    · rw [if_neg hc1] at h ⊢
      by_cases hc2 : c = '*'
      · rw [if_pos hc2] at h
        cases h
      · rw [if_neg hc2] at h
        rw [ih h, if_neg hc2]
        rfl

theorem findCloseSingle_none {l : List Char} (h : noStarTilNl l = true) :
    findCloseSingle l = none := by
  cases l with
  | nil => rfl
  | cons c rest =>
    unfold noStarTilNl at h
    rw [findCloseSingle.eq_def]
    simp only []
    by_cases hc1 : c = '\n'
    · rw [if_pos hc1]
    · rw [if_neg hc1] at h ⊢
      by_cases hc2 : c = '*'
      · rw [if_pos hc2] at h
        cases h
      · rw [if_neg hc2] at h
        rw [splitAtStar_none h]
        rfl

theorem italicScanGo_nil (fuel : Nat) : italicScanGo fuel [] = [] := by
  cases fuel <;> rfl

theorem italicScanGo_zero (l : List Char) : italicScanGo 0 l = l := by
  cases l <;> rfl

theorem italicScanGo_star_none (f : Nat) (rest : List Char)
    (h : findCloseSingle rest = none) :
    italicScanGo (f + 1) ('*' :: rest) = '*' :: italicScanGo f rest := by
  rw [italicScanGo.eq_def]
  simp [h]

theorem italicScanGo_not_star (f : Nat) (c : Char) (rest : List Char)
    (h : ¬c = '*') :
    italicScanGo (f + 1) (c :: rest) = c :: italicScanGo f rest := by
  rw [italicScanGo.eq_def]
  simp [h]

theorem italicScanGo_iso : ∀ (l : List Char) (fuel : Nat),
    starsIsolated l = true → italicScanGo fuel l = l := by
  intro l
  induction l with
  | nil => intro fuel _; exact italicScanGo_nil fuel
  | cons c rest ih =>
    intro fuel hiso
    unfold starsIsolated at hiso
    rw [Bool.and_eq_true] at hiso
    cases fuel with
    | zero => exact italicScanGo_zero _
    | succ f =>
      by_cases hc : c = '*'
      · subst hc
        have hns : noStarTilNl rest = true := by
          have h1 := hiso.1
          rw [if_pos rfl] at h1
          exact h1
        rw [italicScanGo_star_none f rest (findCloseSingle_none hns),
          ih f hiso.2]
      · rw [italicScanGo_not_star f c rest hc, ih f hiso.2]

theorem italicScan_iso {l : List Char} (h : starsIsolated l = true) :
    italicScan l = l :=
  italicScanGo_iso l l.length h

theorem noStarTilNl_of_no_star : ∀ {l : List Char}, '*' ∉ l →
    noStarTilNl l = true := by
  intro l
  induction l with
  | nil => intro _; rfl
  | cons c rest ih =>
    intro h
    unfold noStarTilNl
    by_cases hc1 : c = '\n'
    · rw [if_pos hc1]
    · rw [if_neg hc1]
      have hc2 : ¬c = '*' := fun hEq => h (hEq ▸ List.mem_cons_self c rest)
      rw [if_neg hc2]
      exact ih (fun hm => h (List.mem_cons_of_mem c hm))

theorem no_star_of_noStarTilNl : ∀ {l : List Char}, '\n' ∉ l →
    noStarTilNl l = true → '*' ∉ l := by
  intro l
  induction l with
  | nil => intro _ _; simp
  | cons c rest ih =>
    intro hnl h
    unfold noStarTilNl at h
    have hc1 : ¬c = '\n' := fun hEq => hnl (hEq ▸ List.mem_cons_self c rest)
    rw [if_neg hc1] at h
    by_cases hc2 : c = '*'
    · rw [if_pos hc2] at h
      cases h
    · rw [if_neg hc2] at h
      intro hm
      rcases List.mem_cons.mp hm with hm | hm
      · exact hc2 hm.symm
      · exact ih (fun hx => hnl (List.mem_cons_of_mem c hx)) h hm

theorem starsIsolated_of_no_star : ∀ {l : List Char}, '*' ∉ l →
    starsIsolated l = true := by
  intro l
  induction l with
  | nil => intro _; rfl
  | cons c rest ih =>
    intro h
    unfold starsIsolated
    rw [Bool.and_eq_true]
    have hc2 : ¬c = '*' := fun hEq => h (hEq ▸ List.mem_cons_self c rest)
    exact ⟨by rw [if_neg hc2], ih (fun hm => h (List.mem_cons_of_mem c hm))⟩

theorem noStarTilNl_append_nl : ∀ {a : List Char} (b : List Char), '*' ∉ a →
    noStarTilNl (a ++ '\n' :: b) = true := by
  intro a
  induction a with
  | nil =>
    intro b _
    show noStarTilNl ('\n' :: b) = true
    unfold noStarTilNl
    rw [if_pos rfl]
  | cons c a' ih =>
    intro b h
    show noStarTilNl (c :: (a' ++ '\n' :: b)) = true
    unfold noStarTilNl
    by_cases hc1 : c = '\n'
    · rw [if_pos hc1]
    · rw [if_neg hc1]
      have hc2 : ¬c = '*' := fun hEq => h (hEq ▸ List.mem_cons_self c a')
      rw [if_neg hc2]
      exact ih b (fun hm => h (List.mem_cons_of_mem c hm))

theorem starsIsolated_join : ∀ {a : List Char} (b : List Char), '\n' ∉ a →
    starsIsolated a = true → starsIsolated b = true →
    starsIsolated (a ++ '\n' :: b) = true := by
  intro a
  induction a with
  | nil =>
    intro b _ _ hb
    show starsIsolated ('\n' :: b) = true
    unfold starsIsolated
    rw [Bool.and_eq_true]
    exact ⟨by rw [if_neg (by decide)], hb⟩
  | cons c a' ih =>
    intro b hnl ha hb
    unfold starsIsolated at ha
    rw [Bool.and_eq_true] at ha
    show starsIsolated (c :: (a' ++ '\n' :: b)) = true
    unfold starsIsolated
    rw [Bool.and_eq_true]
    have hnl' : '\n' ∉ a' := fun hm => hnl (List.mem_cons_of_mem c hm)
    refine ⟨?_, ih b hnl' ha.2 hb⟩
    by_cases hc : c = '*'
    · rw [if_pos hc]
      have hns : noStarTilNl a' = true := by
        have h1 := ha.1
        rw [if_pos hc] at h1
        exact h1
      exact noStarTilNl_append_nl b (no_star_of_noStarTilNl hnl' hns)
    · rw [if_neg hc]

theorem starsIsolated_lineHtml (l : MdLine) (hok : lineOK l = true) :
    starsIsolated (blobsHtml (lineBlobs l)) = true := by
  cases l with
  | heading m il =>
    simp only [lineOK, Bool.and_eq_true, decide_eq_true_eq] at hok
    refine starsIsolated_of_no_star ?_
    intro hm
    rw [lineBlobs, blobsHtml_cons, blobsHtml_append] at hm
    rcases List.mem_append.mp hm with hm | hm
    · exact absurd hm (by decide)
    · rcases List.mem_append.mp hm with hm | hm
      · exact star_not_mem_blobsHtml hok.2 hm
      · exact absurd hm (by decide)
  | bullet d il =>
    unfold lineOK at hok
    cases d with
    | true =>
      refine starsIsolated_of_no_star ?_
      intro hm
      rw [lineBlobs] at hm
      simp only [if_pos rfl, blobsHtml_cons] at hm
      rcases List.mem_append.mp hm with hm | hm
      · exact absurd hm (by decide)
      · exact star_not_mem_blobsHtml hok hm
    | false =>
      rw [lineBlobs]
      simp only [if_neg Bool.false_ne_true, blobsHtml_cons]
      show starsIsolated ('*' :: (blobHtml (Blob.txt [' ']) ++ blobsHtml il)) = true
      unfold starsIsolated
      rw [Bool.and_eq_true, if_pos rfl]
      have hrest : '*' ∉ blobHtml (Blob.txt [' ']) ++ blobsHtml il := by
        intro hm
        rcases List.mem_append.mp hm with hm | hm
        · exact absurd hm (by decide)
        · exact star_not_mem_blobsHtml hok hm
      exact ⟨noStarTilNl_of_no_star hrest, starsIsolated_of_no_star hrest⟩
  | plain il =>
    unfold lineOK at hok
    rw [Bool.and_eq_true, Bool.and_eq_true] at hok
    exact starsIsolated_of_no_star (star_not_mem_blobsHtml hok.1.1)
  | blank => rfl

theorem starsIsolated_doc : ∀ (doc : List MdLine),
    (∀ l ∈ doc, lineOK l = true) →
    starsIsolated (joinLines (doc.map fun l => blobsHtml (lineBlobs l))) = true := by
  intro doc
  induction doc with
  | nil => intro _; rfl
  | cons l rest ih =>
    intro hall
    cases rest with
    | nil => exact starsIsolated_lineHtml l (hall l (List.mem_cons_self l []))
    | cons l2 rest2 =>
      rw [List.map_cons, joinLines_cons _ (by simp)]
      have hok := hall l (List.mem_cons_self l _)
      exact starsIsolated_join _ (nl_not_mem_lineBlobsHtml l hok)
        (starsIsolated_lineHtml l hok)
        (ih (fun x hx => hall x (List.mem_cons_of_mem l hx)))

theorem italic_stage (doc : List MdLine) (h : goodDoc doc = true) :
    italicScan (joinLines (doc.map fun l => blobsHtml (lineBlobs l)))
      = joinLines (doc.map fun l => blobsHtml (lineBlobs l)) := by
  obtain ⟨hne, hall⟩ := goodDoc_parts h
  exact italicScan_iso (starsIsolated_doc doc hall)

/-- A line's text after the four per-line replace stages (headings, bold,
italics, list items). -/
def lineStage2 : MdLine → List Char
  | .heading _ il => h3Wrap (blobsHtml il)
  | .bullet _ il => liWrap (blobsHtml il)
  | .plain il => blobsHtml il
  | .blank => []

theorem star_pfx_html {il : List Blob} (htext : textOK il = true) :
    ("* ".toList.isPrefixOf (blobsHtml il)) = false := by
  cases il with
  | nil => rfl
  | cons b il' =>
    cases b with
    | bold s => exact isPrefixOf_false_of_head_ne '*' '<' _ _ (by decide)
    | star =>
      exact absurd (textOK_mem htext (List.mem_cons_self _ _)) (by simp [inlineOK])
    | txt s =>
      have hcc : cleanChunk s = true := by
        simpa [inlineOK] using textOK_mem htext (List.mem_cons_self _ _)
      cases s with
      | nil => exact absurd rfl (cleanChunk_ne_nil hcc)
      | cons c s' =>
        exact isPrefixOf_false_of_head_ne '*' c _ _
          (fun hEq => (cleanChunk_mem hcc (List.mem_cons_self c s')).2.1 hEq.symm)

theorem dash_pfx_html : ∀ {il : List Blob}, textOK il = true →
    ("- ".toList.isPrefixOf (blobsMd il)) = false →
    ("- ".toList.isPrefixOf (blobsHtml il)) = false := by
  intro il htext hmd
  cases il with
  | nil => rfl
  | cons b il' =>
    cases b with
    | bold s => exact isPrefixOf_false_of_head_ne '-' '<' _ _ (by decide)
    | star =>
      exact absurd (textOK_mem htext (List.mem_cons_self _ _)) (by simp [inlineOK])
    | txt s =>
      have hcc : cleanChunk s = true := by
        simpa [inlineOK] using textOK_mem htext (List.mem_cons_self _ _)
      cases s with
      | nil => exact absurd rfl (cleanChunk_ne_nil hcc)
      | cons c s' =>
        have hhtml : blobsHtml (Blob.txt (c :: s') :: il')
            = c :: (s' ++ blobsHtml il') := by
          rw [blobsHtml_cons]
          rfl
        have hmdsh : blobsMd (Blob.txt (c :: s') :: il')
            = c :: (s' ++ blobsMd il') := by
          rw [blobsMd_cons]
          rfl
        rw [hmdsh] at hmd
        rw [hhtml]
        by_cases hc : c = '-'
        · subst hc
          have hred : ∀ X : List Char, ("- ".toList.isPrefixOf ('-' :: X))
              = ([' '].isPrefixOf X) := by
            intro X
            show ((['-', ' '] : List Char).isPrefixOf ('-' :: X)) = _
            simp [List.isPrefixOf]
          rw [hred] at hmd ⊢
          cases s' with
          | cons c2 s'' =>
            have hmd2 : ([' '].isPrefixOf (c2 :: (s'' ++ blobsMd il'))) = false := hmd
            show ([' '].isPrefixOf (c2 :: (s'' ++ blobsHtml il'))) = false
            simp only [List.isPrefixOf, Bool.and_true] at hmd2 ⊢
            exact hmd2
          | nil =>
            simp only [List.nil_append] at hmd ⊢
            cases hil : il' with
            | nil =>
              rw [hil] at hmd
              exact hmd
            | cons b2 il'' =>
              rw [hil] at hmd
              cases b2 with
              | bold s2 => exact isPrefixOf_false_of_head_ne ' ' '<' _ _ (by decide)
              | star =>
                have hm2 : Blob.star ∈ Blob.txt ['-'] :: il' := by
                  rw [hil]
                  exact List.mem_cons_of_mem _ (List.mem_cons_self _ _)
                exact absurd (textOK_mem htext hm2) (by simp [inlineOK])
              | txt s2 =>
                have hm2 : Blob.txt s2 ∈ Blob.txt ['-'] :: il' := by
                  rw [hil]
                  exact List.mem_cons_of_mem _ (List.mem_cons_self _ _)
                have hcc2 : cleanChunk s2 = true := by
                  simpa [inlineOK] using textOK_mem htext hm2
                cases s2 with
                | nil => exact absurd rfl (cleanChunk_ne_nil hcc2)
                | cons c3 s3 =>
                  have hmd3 : ([' '].isPrefixOf (c3 :: (s3 ++ blobsMd il''))) = false := by
                    have hsh : blobsMd (Blob.txt (c3 :: s3) :: il'')
                        = c3 :: (s3 ++ blobsMd il'') := by
                      rw [blobsMd_cons]
                      rfl
                    rw [hsh] at hmd
                    exact hmd
                  have hsh2 : blobsHtml (Blob.txt (c3 :: s3) :: il'')
                      = c3 :: (s3 ++ blobsHtml il'') := by
                    rw [blobsHtml_cons]
                    rfl
                  rw [hsh2]
                  simp only [List.isPrefixOf, Bool.and_true] at hmd3 ⊢
                  exact hmd3
        · exact isPrefixOf_false_of_head_ne '-' c _ _ (fun hEq => hc hEq.symm)

theorem mdListItem_line (l : MdLine) (hok : lineOK l = true) :
    mdListItem (blobsHtml (lineBlobs l)) = lineStage2 l := by
  cases l with
  | heading m il =>
    simp only [lineOK, Bool.and_eq_true, decide_eq_true_eq] at hok
    show mdListItem (blobsHtml (Blob.txt "<h3>".toList
      :: (il ++ [Blob.txt "</h3>".toList]))) = h3Wrap (blobsHtml il)
    have hp1 : ("* ".toList.isPrefixOf (blobsHtml (Blob.txt "<h3>".toList
        :: (il ++ [Blob.txt "</h3>".toList])))) = false :=
      isPrefixOf_false_of_head_ne '*' '<' _ _ (by decide)
    have hp2 : ("- ".toList.isPrefixOf (blobsHtml (Blob.txt "<h3>".toList
        :: (il ++ [Blob.txt "</h3>".toList])))) = false :=
      isPrefixOf_false_of_head_ne '-' '<' _ _ (by decide)
    unfold mdListItem
    rw [hp1, hp2]
    show blobsHtml (Blob.txt "<h3>".toList :: (il ++ [Blob.txt "</h3>".toList]))
      = h3Wrap (blobsHtml il)
    rw [blobsHtml_cons, blobsHtml_append]
    show "<h3>".toList ++ (blobsHtml il ++ ("</h3>".toList ++ []))
      = ("<h3>".toList ++ blobsHtml il) ++ "</h3>".toList
    simp [List.append_assoc]
  | bullet d il =>
    unfold lineOK at hok
    have hne : blobsHtml il ≠ [] := blobsHtml_ne_nil hok
    have hlen : 2 < 2 + (blobsHtml il).length := by
      cases hEq : blobsHtml il with
      | nil => exact absurd hEq hne
      | cons x xs => simp
    cases d with
    | true =>
      show mdListItem ("- ".toList ++ blobsHtml il) = liWrap (blobsHtml il)
      have hp1 : ("* ".toList.isPrefixOf ("- ".toList ++ blobsHtml il)) = false :=
        isPrefixOf_false_of_head_ne '*' '-' _ _ (by decide)
      have hp2 : ("- ".toList.isPrefixOf ("- ".toList ++ blobsHtml il)) = true :=
        List.isPrefixOf_iff_prefix.mpr (List.prefix_append _ _)
      have hlen2 : 2 < ("- ".toList ++ blobsHtml il).length := by
        simpa using hlen
      unfold mdListItem
      rw [hp1, hp2]
      simp only [Bool.false_or, Bool.true_and, decide_eq_true_eq]
      rw [if_pos hlen2]
      have hdrop : ("- ".toList ++ blobsHtml il).drop 2 = blobsHtml il :=
        List.drop_left "- ".toList (blobsHtml il)
      rw [hdrop]
      rfl
    | false =>
      show mdListItem ("* ".toList ++ blobsHtml il) = liWrap (blobsHtml il)
      have hp1 : ("* ".toList.isPrefixOf ("* ".toList ++ blobsHtml il)) = true :=
        List.isPrefixOf_iff_prefix.mpr (List.prefix_append _ _)
      have hlen2 : 2 < ("* ".toList ++ blobsHtml il).length := by
        simpa using hlen
      unfold mdListItem
      rw [hp1]
      simp only [Bool.true_or, Bool.true_and, decide_eq_true_eq]
      rw [if_pos hlen2]
      have hdrop : ("* ".toList ++ blobsHtml il).drop 2 = blobsHtml il :=
        List.drop_left "* ".toList (blobsHtml il)
      rw [hdrop]
      rfl
  | plain il =>
    unfold lineOK at hok
    rw [Bool.and_eq_true, Bool.and_eq_true] at hok
    have hmd : ("- ".toList.isPrefixOf (blobsMd il)) = false := by
      have hmf := hok.1.2
      unfold mdMarkerFree at hmf
      rw [Bool.and_eq_true, Bool.and_eq_true, Bool.and_eq_true] at hmf
      rw [← Bool.not_eq_true']
      exact hmf.2
    show mdListItem (blobsHtml il) = blobsHtml il
    unfold mdListItem
    rw [star_pfx_html hok.1.1, dash_pfx_html hok.1.1 hmd]
    simp
  | blank =>
    show mdListItem [] = []
    decide

theorem listItem_stage (doc : List MdLine) (h : goodDoc doc = true) :
    mapLinesC mdListItem (joinLines (doc.map fun l => blobsHtml (lineBlobs l)))
      = joinLines (doc.map lineStage2) := by
  obtain ⟨hne, hall⟩ := goodDoc_parts h
  have hmapne : doc.map (fun l => blobsHtml (lineBlobs l)) ≠ [] := by
    intro hEq
    cases doc with
    | nil => exact hne rfl
    | cons a as => simp at hEq
  have hnl : ∀ x ∈ doc.map (fun l => blobsHtml (lineBlobs l)), '\n' ∉ x := by
    intro x hx
    rcases List.mem_map.mp hx with ⟨l, hl, rfl⟩
    exact nl_not_mem_lineBlobsHtml l (hall l hl)
  rw [mapLinesC_join _ hmapne hnl]
  congr 1
  rw [List.map_map]
  refine List.map_congr_left ?_
  intro l hl
  exact mdListItem_line l (hall l hl)

theorem toBlocks_ne_nil : ∀ {doc : List MdLine}, doc ≠ [] →
    toBlocks doc ≠ [] := by
  intro doc h
  cases doc with
  | nil => exact absurd rfl h
  | cons l rest =>
    cases l with
    | heading m il => simp [toBlocks]
    | bullet d il =>
      unfold toBlocks
      cases htb : toBlocks rest with
      | nil => simp
      | cons b bs => cases b <;> simp
    | plain il => simp [toBlocks]
    | blank => simp [toBlocks]

theorem toBlocks_head_run_ne : ∀ (doc : List MdLine) (ts : List (List Blob))
    (bs : List Block), toBlocks doc = .run ts :: bs → ts ≠ [] := by
  intro doc
  induction doc with
  | nil => intro ts bs h; cases h
  | cons l rest ih =>
    intro ts bs h
    cases l with
    | heading m il => cases h
    | plain il => cases h
    | blank => cases h
    | bullet d il =>
      unfold toBlocks at h
      cases htb : toBlocks rest with
      | nil =>
        rw [htb] at h
        injection h with h1 h2
        injection h1 with h3
        rw [← h3]
        simp
      | cons b bs' =>
        rw [htb] at h
        cases b with
        | run ts' =>
          injection h with h1 h2
          injection h1 with h3
          rw [← h3]
          simp
        | heading il2 =>
          injection h with h1 h2
          injection h1 with h3
          rw [← h3]
          simp
        | plain il2 =>
          injection h with h1 h2
          injection h1 with h3
          rw [← h3]
          simp
        | blank =>
          injection h with h1 h2
          injection h1 with h3
          rw [← h3]
          simp

theorem blockOK_run (ts : List (List Blob)) :
    blockOK (.run ts) = (!ts.isEmpty && ts.all textOK) := rfl

theorem blockOK_toBlocks : ∀ (doc : List MdLine),
    (∀ l ∈ doc, lineOK l = true) → ∀ b ∈ toBlocks doc, blockOK b = true := by
  intro doc
  induction doc with
  | nil => intro _ b hb; simp [toBlocks] at hb
  | cons l rest ih =>
    intro hall b hb
    have hok := hall l (List.mem_cons_self l rest)
    have hrest := fun x hx => hall x (List.mem_cons_of_mem l hx)
    cases l with
    | heading m il =>
      rw [show toBlocks (MdLine.heading m il :: rest)
        = .heading il :: toBlocks rest from rfl] at hb
      rcases List.mem_cons.mp hb with rfl | hb
      · simp only [lineOK, Bool.and_eq_true, decide_eq_true_eq] at hok
        exact hok.2
      · exact ih hrest b hb
    | plain il =>
      rw [show toBlocks (MdLine.plain il :: rest)
        = .plain il :: toBlocks rest from rfl] at hb
      rcases List.mem_cons.mp hb with rfl | hb
      · exact hok
      · exact ih hrest b hb
    | blank =>
      rw [show toBlocks (MdLine.blank :: rest)
        = .blank :: toBlocks rest from rfl] at hb
      rcases List.mem_cons.mp hb with rfl | hb
      · rfl
      · exact ih hrest b hb
    | bullet d il =>
      have htil : textOK il = true := hok
      unfold toBlocks at hb
      cases htb : toBlocks rest with
      | nil =>
        rw [htb] at hb
        simp only [] at hb
        rcases List.mem_cons.mp hb with rfl | hb
        · rw [blockOK_run]
          simp [htil]
        · simp at hb
      | cons b2 bs =>
        rw [htb] at hb
        cases b2 with
        | run ts =>
          have hrun : blockOK (.run ts) = true :=
            ih hrest _ (htb ▸ List.mem_cons_self _ _)
          rw [blockOK_run, Bool.and_eq_true] at hrun
          rcases List.mem_cons.mp hb with rfl | hb
          · rw [blockOK_run]
            simp only [Bool.and_eq_true]
            refine ⟨by simp, ?_⟩
            rw [List.all_cons, Bool.and_eq_true]
            exact ⟨htil, hrun.2⟩
          · exact ih hrest b (htb ▸ List.mem_cons_of_mem _ hb)
        | heading il2 =>
          rcases List.mem_cons.mp hb with rfl | hb
          · rw [blockOK_run]
            simp [htil]
          · exact ih hrest b (htb ▸ hb)
        | plain il2 =>
          rcases List.mem_cons.mp hb with rfl | hb
          · rw [blockOK_run]
            simp [htil]
          · exact ih hrest b (htb ▸ hb)
        | blank =>
          rcases List.mem_cons.mp hb with rfl | hb
          · rw [blockOK_run]
            simp [htil]
          · exact ih hrest b (htb ▸ hb)

theorem noAdjRun_toBlocks : ∀ (doc : List MdLine),
    noAdjRun (toBlocks doc) = true := by
  intro doc
  induction doc with
  | nil => rfl
  | cons l rest ih =>
    cases l with
    | heading m il =>
      show noAdjRun (.heading il :: toBlocks rest) = true
      cases htb : toBlocks rest with
      | nil => rfl
      | cons b bs =>
        rw [htb] at ih
        cases b <;> simpa [noAdjRun] using ih
    | plain il =>
      show noAdjRun (.plain il :: toBlocks rest) = true
      cases htb : toBlocks rest with
      | nil => rfl
      | cons b bs =>
        rw [htb] at ih
        cases b <;> simpa [noAdjRun] using ih
    | blank =>
      show noAdjRun (.blank :: toBlocks rest) = true
      cases htb : toBlocks rest with
      | nil => rfl
      | cons b bs =>
        rw [htb] at ih
        cases b <;> simpa [noAdjRun] using ih
    | bullet d il =>
      unfold toBlocks
      cases htb : toBlocks rest with
      | nil => rfl
      | cons b bs =>
        rw [htb] at ih
        cases b with
        | run ts =>
          cases bs with
          | nil => rfl
          | cons b2 bs2 =>
            cases b2 with
            | run ts2 => exact absurd ih (by simp [noAdjRun])
            | heading il2 => simpa [noAdjRun] using ih
            | plain il2 => simpa [noAdjRun] using ih
            | blank => simpa [noAdjRun] using ih
        | heading il2 => simpa [noAdjRun] using ih
        | plain il2 => simpa [noAdjRun] using ih
        | blank => simpa [noAdjRun] using ih

theorem stage2Text_cons (b : Block) {bs : List Block} (h : bs ≠ []) :
    stage2Text (b :: bs) = blockText b ++ '\n' :: stage2Text bs := by
  cases bs with
  | nil => exact absurd rfl h
  | cons b2 bs2 => rfl

theorem runRegion_cons (il : List Blob) {ts : List (List Blob)} (h : ts ≠ []) :
    runRegion (il :: ts) = liWrap (blobsHtml il) ++ '\n' :: runRegion ts := by
  unfold runRegion runLines
  rw [List.map_cons, joinLines_cons]
  intro hEq
  cases ts with
  | nil => exact h rfl
  | cons t ts2 => simp at hEq

theorem stage2Text_run_cons (il : List Blob) {ts : List (List Blob)}
    (bs : List Block) (hts : ts ≠ []) :
    stage2Text (.run (il :: ts) :: bs)
      = liWrap (blobsHtml il) ++ '\n' :: stage2Text (.run ts :: bs) := by
  cases bs with
  | nil =>
    show blockText (.run (il :: ts))
      = liWrap (blobsHtml il) ++ '\n' :: blockText (.run ts)
    show runRegion (il :: ts) = liWrap (blobsHtml il) ++ '\n' :: runRegion ts
    exact runRegion_cons il hts
  | cons b2 bs2 =>
    rw [stage2Text_cons (Block.run (il :: ts)) (by simp),
      stage2Text_cons (Block.run ts) (by simp)]
    show runRegion (il :: ts) ++ '\n' :: stage2Text (b2 :: bs2)
      = liWrap (blobsHtml il) ++ '\n' :: (runRegion ts ++ '\n' :: stage2Text (b2 :: bs2))
    rw [runRegion_cons il hts, List.append_assoc]
    rfl

theorem stage2_bridge : ∀ (doc : List MdLine),
    joinLines (doc.map lineStage2) = stage2Text (toBlocks doc) := by
  intro doc
  induction doc with
  | nil => rfl
  | cons l rest ih =>
    cases rest with
    | nil =>
      cases l with
      | heading m il => rfl
      | bullet d il => rfl
      | plain il => rfl
      | blank => rfl
    | cons l2 rest2 =>
      have hrestne : toBlocks (l2 :: rest2) ≠ [] := toBlocks_ne_nil (by simp)
      rw [List.map_cons, joinLines_cons _ (by simp), ih]
      cases l with
      | heading m il =>
        rw [show toBlocks (MdLine.heading m il :: l2 :: rest2)
          = .heading il :: toBlocks (l2 :: rest2) from rfl,
          stage2Text_cons _ hrestne]
        rfl
      | plain il =>
        rw [show toBlocks (MdLine.plain il :: l2 :: rest2)
          = .plain il :: toBlocks (l2 :: rest2) from rfl,
          stage2Text_cons _ hrestne]
        rfl
      | blank =>
        rw [show toBlocks (MdLine.blank :: l2 :: rest2)
          = .blank :: toBlocks (l2 :: rest2) from rfl,
          stage2Text_cons _ hrestne]
        rfl
      | bullet d il =>
        have heq : toBlocks (MdLine.bullet d il :: l2 :: rest2)
            = (match toBlocks (l2 :: rest2) with
               | Block.run ts :: bs => Block.run (il :: ts) :: bs
               | bs => Block.run [il] :: bs) := rfl
        rw [heq]
        cases htb : toBlocks (l2 :: rest2) with
        | nil => exact absurd htb hrestne
        | cons b bs =>
          cases b with
          | run ts =>
            have hts : ts ≠ [] := toBlocks_head_run_ne _ ts bs htb
            show lineStage2 (MdLine.bullet d il) ++ '\n' :: stage2Text (.run ts :: bs)
              = stage2Text (.run (il :: ts) :: bs)
            exact (stage2Text_run_cons il bs hts).symm
          | heading il2 =>
            show lineStage2 (MdLine.bullet d il) ++ '\n' :: stage2Text (.heading il2 :: bs)
              = stage2Text (.run [il] :: .heading il2 :: bs)
            rw [stage2Text_cons (Block.run [il]) (by simp)]
            rfl
          | plain il2 =>
            show lineStage2 (MdLine.bullet d il) ++ '\n' :: stage2Text (.plain il2 :: bs)
              = stage2Text (.run [il] :: .plain il2 :: bs)
            rw [stage2Text_cons (Block.run [il]) (by simp)]
            rfl
          | blank =>
            show lineStage2 (MdLine.bullet d il) ++ '\n' :: stage2Text (.blank :: bs)
              = stage2Text (.run [il] :: .blank :: bs)
            rw [stage2Text_cons (Block.run [il]) (by simp)]
            rfl

theorem noLiSeed_cons2 (a b : Char) (rest : List Char) :
    noLiSeed (a :: b :: rest) = (!(a == '<' && b == 'l') && noLiSeed (b :: rest)) :=
  rfl

theorem pfx_li_false_head (c : Char) (X : List Char) (h : ¬c = '<') :
    ("<li>".toList.isPrefixOf (c :: X)) = false :=
  isPrefixOf_false_of_head_ne '<' c _ _ (fun hEq => h hEq.symm)

theorem pfx_li_false_2 (b : Char) (X : List Char) (h : ¬b = 'l') :
    ("<li>".toList.isPrefixOf ('<' :: b :: X)) = false := by
  have hb : (('l' : Char) == b) = false :=
    beq_eq_false_iff_ne.mpr (fun hEq => h hEq.symm)
  show ((['<', 'l', 'i', '>'] : List Char).isPrefixOf ('<' :: b :: X)) = false
  simp [List.isPrefixOf, hb]

theorem noLi_all : ∀ (l tail : List Char), noLiSeed l = true →
    (l.getLast? == some '<') = false →
    ("<li>".toList.isPrefixOf tail) = false →
    ∀ i, ("<li>".toList.isPrefixOf (l.drop i ++ tail)) = false := by
  intro l
  induction l with
  | nil =>
    intro tail _ _ htail i
    simp only [List.drop_nil, List.nil_append]
    exact htail
  | cons a l' ih =>
    intro tail hseed hlast htail i
    cases i with
    | succ i' =>
      show ("<li>".toList.isPrefixOf (l'.drop i' ++ tail)) = false
      cases l' with
      | nil =>
        simp only [List.drop_nil, List.nil_append]
        exact htail
      | cons b l'' =>
        rw [noLiSeed_cons2, Bool.and_eq_true] at hseed
        exact ih tail hseed.2 (by simpa using hlast) htail i'
    | zero =>
      show ("<li>".toList.isPrefixOf ((a :: l') ++ tail)) = false
      by_cases ha : a = '<'
      · subst ha
        cases l' with
        | nil => simp at hlast
        | cons b l'' =>
          rw [noLiSeed_cons2, Bool.and_eq_true] at hseed
          have hb : ¬b = 'l' := by
            have h1 := hseed.1
            intro hEq
            rw [hEq] at h1
            simp at h1
          show ("<li>".toList.isPrefixOf ('<' :: b :: (l'' ++ tail))) = false
          exact pfx_li_false_2 b _ hb
      · exact pfx_li_false_head a _ ha

theorem liIter_none_of_pfx {l : List Char}
    (h : ("<li>".toList.isPrefixOf l) = false) : liIter l = none := by
  unfold liIter
  rw [h]
  simp

theorem liRunGo_of_none {l : List Char} (fuel : Nat) (h : liIter l = none) :
    liRunGo fuel l = none := by
  cases fuel with
  | zero => rfl
  | succ f =>
    unfold liRunGo
    rw [h]

theorem liRun_of_pfx_false {l : List Char}
    (h : ("<li>".toList.isPrefixOf l) = false) : liRun l = none :=
  liRunGo_of_none _ (liIter_none_of_pfx h)

theorem ulWrapScanGo_nil (fuel : Nat) : ulWrapScanGo fuel [] = [] := by
  cases fuel <;> rfl

theorem ulWrapScanGo_succ (f : Nat) (c : Char) (rest : List Char) :
    ulWrapScanGo (f + 1) (c :: rest)
      = match liRun (c :: rest) with
        | some sr => "<ul>".toList ++ sr.1 ++ "</ul>".toList ++ ulWrapScanGo f sr.2
        | none => c :: ulWrapScanGo f rest := by
  rfl

theorem ulWrapScanGo_cons_none (f : Nat) (c : Char) (rest : List Char)
    (h : liRun (c :: rest) = none) :
    ulWrapScanGo (f + 1) (c :: rest) = c :: ulWrapScanGo f rest := by
  rw [ulWrapScanGo_succ, h]

theorem ulWrapScanGo_cons_some (f : Nat) (c : Char) (rest : List Char)
    (sr : List Char × List Char) (h : liRun (c :: rest) = some sr) :
    ulWrapScanGo (f + 1) (c :: rest)
      = "<ul>".toList ++ sr.1 ++ "</ul>".toList ++ ulWrapScanGo f sr.2 := by
  rw [ulWrapScanGo_succ, h]

theorem ulWrapScanGo_pass : ∀ (l : List Char) (tail : List Char) (fuel : Nat),
    (l ++ tail).length ≤ fuel →
    (∀ i, ("<li>".toList.isPrefixOf (l.drop i ++ tail)) = false) →
    ulWrapScanGo fuel (l ++ tail) = l ++ ulWrapScanGo (fuel - l.length) tail := by
  intro l
  induction l with
  | nil =>
    intro tail fuel _ _
    simp
  | cons c l' ih =>
    intro tail fuel hfuel hpfx
    cases fuel with
    | zero => simp at hfuel
    | succ f =>
      have h0 : ("<li>".toList.isPrefixOf ((c :: l') ++ tail)) = false := by
        have := hpfx 0
        simpa using this
      rw [List.cons_append,
        ulWrapScanGo_cons_none f c (l' ++ tail)
          (liRun_of_pfx_false (by simpa using h0)),
        ih tail f (by simpa [Nat.succ_le_succ_iff] using hfuel)
          (fun i => by simpa using hpfx (i + 1))]
      show c :: (l' ++ ulWrapScanGo (f - l'.length) tail)
        = (c :: l') ++ ulWrapScanGo (f + 1 - (l'.length + 1)) tail
      rw [Nat.succ_sub_succ]
      rfl

theorem takeWhile_no_nl : ∀ {a : List Char}, '\n' ∉ a →
    a.takeWhile (· ≠ '\n') = a := by
  intro a
  induction a with
  | nil => intro _; rfl
  | cons c a' ih =>
    intro h
    have hc : ¬c = '\n' := fun hEq => h (hEq ▸ List.mem_cons_self c a')
    rw [List.takeWhile_cons,
      if_pos (show decide (c ≠ '\n') = true by simp [hc]),
      ih (fun hm => h (List.mem_cons_of_mem c hm))]

theorem takeWhile_line_nl : ∀ {a : List Char} (b : List Char), '\n' ∉ a →
    (a ++ '\n' :: b).takeWhile (· ≠ '\n') = a := by
  intro a
  induction a with
  | nil =>
    intro b _
    show (('\n' :: b).takeWhile (· ≠ '\n')) = []
    rw [List.takeWhile_cons]
    simp
  | cons c a' ih =>
    intro b h
    have hc : ¬c = '\n' := fun hEq => h (hEq ▸ List.mem_cons_self c a')
    show ((c :: (a' ++ '\n' :: b)).takeWhile (· ≠ '\n')) = c :: a'
    rw [List.takeWhile_cons,
      if_pos (show decide (c ≠ '\n') = true by simp [hc]),
      ih b (fun hm => h (List.mem_cons_of_mem c hm))]

theorem liWrap_length (t : List Char) : (liWrap t).length = 9 + t.length := by
  show (("<li>".toList ++ t) ++ "</li>".toList).length = 9 + t.length
  rw [List.length_append, List.length_append,
    show ("<li>".toList).length = 4 from rfl,
    show ("</li>".toList).length = 5 from rfl]
  omega

theorem nl_not_mem_liWrap {t : List Char} (h : '\n' ∉ t) : '\n' ∉ liWrap t := by
  intro hm
  rcases List.mem_append.mp hm with hm | hm
  · rcases List.mem_append.mp hm with hm | hm
    · exact absurd hm (by decide)
    · exact h hm
  · exact absurd hm (by decide)

theorem liSegLength_liWrap (t : List Char) :
    liSegLength (liWrap t) = some (9 + t.length) := by
  have h4 : ("<li>".toList ++ t).length = 4 + t.length := by
    rw [List.length_append, show ("<li>".toList).length = 4 from rfl]
  have hlen : (liWrap t).length = 9 + t.length := liWrap_length t
  unfold liSegLength
  have hmax : ((List.range ((liWrap t).length + 1)).filter fun j =>
      decide (4 ≤ j) && "</li>".toList.isPrefixOf ((liWrap t).drop j)).max?
      = some (4 + t.length) := by
    rw [List.max?_eq_some_iff (fun a => Nat.le_refl a) (fun a b => max_choice a b)
      (fun a b c => Nat.max_le)]
    constructor
    · apply List.mem_filter.mpr
      refine ⟨List.mem_range.mpr (by rw [hlen]; omega), ?_⟩
      have hdrop : (liWrap t).drop (4 + t.length) = "</li>".toList := by
        show (("<li>".toList ++ t) ++ "</li>".toList).drop (4 + t.length) = _
        rw [← h4, List.drop_left]
      rw [hdrop, Bool.and_eq_true]
      exact ⟨by simp, List.isPrefixOf_iff_prefix.mpr List.prefix_rfl⟩
    · intro b hb
      rcases List.mem_filter.mp hb with ⟨hbr, hbp⟩
      rw [Bool.and_eq_true] at hbp
      have hpre := List.isPrefixOf_iff_prefix.mp hbp.2
      have hlen5 := List.IsPrefix.length_le hpre
      rw [List.length_drop, hlen, show ("</li>".toList).length = 5 from rfl] at hlen5
      omega
  rw [hmax]
  show some (4 + t.length + 5) = some (9 + t.length)
  congr 1
  omega

theorem liIter_liWrap_nil (t : List Char) (hnl : '\n' ∉ t) :
    liIter (liWrap t) = some (liWrap t, []) := by
  have hpre : ("<li>".toList.isPrefixOf (liWrap t)) = true := by
    show ("<li>".toList.isPrefixOf ("<li>".toList ++ (t ++ "</li>".toList))) = true
    exact List.isPrefixOf_iff_prefix.mpr (List.prefix_append _ _)
  unfold liIter
  rw [if_pos hpre, takeWhile_no_nl (nl_not_mem_liWrap hnl), liSegLength_liWrap]
  have hdrop : (liWrap t).drop (9 + t.length) = [] := by
    rw [show 9 + t.length = (liWrap t).length from (liWrap_length t).symm,
      List.drop_length]
  have htake : (liWrap t).take (9 + t.length) = liWrap t := by
    rw [show 9 + t.length = (liWrap t).length from (liWrap_length t).symm,
      List.take_length]
  show (if (((liWrap t).drop (9 + t.length)).head? == some '\n') then
      some ((liWrap t).take (9 + t.length) ++ ['\n'],
        ((liWrap t).drop (9 + t.length)).drop 1)
    else some ((liWrap t).take (9 + t.length), (liWrap t).drop (9 + t.length)))
    = some (liWrap t, [])
  rw [hdrop, htake]
  rfl

theorem liIter_liWrap_cons (t next : List Char) (hnl : '\n' ∉ t) :
    liIter (liWrap t ++ '\n' :: next) = some (liWrap t ++ ['\n'], next) := by
  have hpre : ("<li>".toList.isPrefixOf (liWrap t ++ '\n' :: next)) = true := by
    show ("<li>".toList.isPrefixOf
      ("<li>".toList ++ ((t ++ "</li>".toList) ++ '\n' :: next))) = true
    exact List.isPrefixOf_iff_prefix.mpr (List.prefix_append _ _)
  unfold liIter
  rw [if_pos hpre, takeWhile_line_nl next (nl_not_mem_liWrap hnl),
    liSegLength_liWrap]
  have hdrop : (liWrap t ++ '\n' :: next).drop (9 + t.length) = '\n' :: next := by
    rw [show 9 + t.length = (liWrap t).length from (liWrap_length t).symm,
      List.drop_left]
  have htake : (liWrap t ++ '\n' :: next).take (9 + t.length) = liWrap t := by
    rw [show 9 + t.length = (liWrap t).length from (liWrap_length t).symm,
      List.take_left]
  show (if (((liWrap t ++ '\n' :: next).drop (9 + t.length)).head? == some '\n') then
      some ((liWrap t ++ '\n' :: next).take (9 + t.length) ++ ['\n'],
        ((liWrap t ++ '\n' :: next).drop (9 + t.length)).drop 1)
    else some ((liWrap t ++ '\n' :: next).take (9 + t.length),
      (liWrap t ++ '\n' :: next).drop (9 + t.length)))
    = some (liWrap t ++ ['\n'], next)
  rw [hdrop, htake]
  rfl

theorem liRunGo_succ (f : Nat) (l : List Char) :
    liRunGo (f + 1) l
      = match liIter l with
        | none => none
        | some sr =>
            match liRunGo f sr.2 with
            | some sr2 => some (sr.1 ++ sr2.1, sr2.2)
            | none => some (sr.1, sr.2) := rfl

theorem liRunGo_region_end : ∀ (ts : List (List Blob)), ts ≠ [] →
    (∀ il ∈ ts, textOK il = true) →
    ∀ fuel, (runRegion ts).length ≤ fuel →
    liRunGo fuel (runRegion ts) = some (runRegion ts, []) := by
  intro ts
  induction ts with
  | nil => intro h; exact absurd rfl h
  | cons il ts' ih =>
    intro _ hok fuel hfuel
    have hnl : '\n' ∉ blobsHtml il :=
      nl_not_mem_blobsHtml (hok il (List.mem_cons_self il ts'))
    cases ts' with
    | nil =>
      have hreg : runRegion [il] = liWrap (blobsHtml il) := rfl
      rw [hreg] at hfuel ⊢
      cases fuel with
      | zero => rw [liWrap_length] at hfuel; omega
      | succ f =>
        rw [liRunGo_succ, liIter_liWrap_nil _ hnl]
        show (match liRunGo f [] with
          | some sr2 => some (liWrap (blobsHtml il) ++ sr2.1, sr2.2)
          | none => some (liWrap (blobsHtml il), []))
          = some (liWrap (blobsHtml il), [])
        rw [liRunGo_of_none f (liIter_none_of_pfx
          (show ("<li>".toList.isPrefixOf ([] : List Char)) = false from rfl))]
    | cons il2 ts'' =>
      have hreg : runRegion (il :: il2 :: ts'')
          = liWrap (blobsHtml il) ++ '\n' :: runRegion (il2 :: ts'') :=
        runRegion_cons il (by simp)
      rw [hreg] at hfuel ⊢
      cases fuel with
      | zero =>
        simp only [List.length_append, List.length_cons] at hfuel
        omega
      | succ f =>
        rw [liRunGo_succ, liIter_liWrap_cons _ _ hnl]
        show (match liRunGo f (runRegion (il2 :: ts'')) with
          | some sr2 => some ((liWrap (blobsHtml il) ++ ['\n']) ++ sr2.1, sr2.2)
          | none => some (liWrap (blobsHtml il) ++ ['\n'], runRegion (il2 :: ts'')))
          = some (liWrap (blobsHtml il) ++ '\n' :: runRegion (il2 :: ts''), [])
        rw [ih (by simp) (fun x hx => hok x (List.mem_cons_of_mem _ hx)) f (by
          simp only [List.length_append, List.length_cons] at hfuel ⊢
          omega)]
        show some ((liWrap (blobsHtml il) ++ ['\n']) ++ runRegion (il2 :: ts''), [])
          = some (liWrap (blobsHtml il) ++ '\n' :: runRegion (il2 :: ts''), [])
        rw [List.append_assoc]
        rfl

theorem liRunGo_region_next : ∀ (ts : List (List Blob)), ts ≠ [] →
    (∀ il ∈ ts, textOK il = true) → ∀ (next : List Char),
    ("<li>".toList.isPrefixOf next) = false →
    ∀ fuel, (runRegion ts ++ '\n' :: next).length ≤ fuel →
    liRunGo fuel (runRegion ts ++ '\n' :: next)
      = some (runRegion ts ++ ['\n'], next) := by
  intro ts
  induction ts with
  | nil => intro h; exact absurd rfl h
  | cons il ts' ih =>
    intro _ hok next hnext fuel hfuel
    have hnl : '\n' ∉ blobsHtml il :=
      nl_not_mem_blobsHtml (hok il (List.mem_cons_self il ts'))
    cases ts' with
    | nil =>
      have hreg : runRegion [il] = liWrap (blobsHtml il) := rfl
      rw [hreg] at hfuel ⊢
      cases fuel with
      | zero =>
        simp only [List.length_append, List.length_cons] at hfuel
        omega
      | succ f =>
        rw [liRunGo_succ, liIter_liWrap_cons _ _ hnl]
        show (match liRunGo f next with
          | some sr2 => some ((liWrap (blobsHtml il) ++ ['\n']) ++ sr2.1, sr2.2)
          | none => some (liWrap (blobsHtml il) ++ ['\n'], next))
          = some (liWrap (blobsHtml il) ++ ['\n'], next)
        rw [liRunGo_of_none f (liIter_none_of_pfx hnext)]
    | cons il2 ts'' =>
      have hreg : runRegion (il :: il2 :: ts'')
          = liWrap (blobsHtml il) ++ '\n' :: runRegion (il2 :: ts'') :=
        runRegion_cons il (by simp)
      rw [hreg] at hfuel ⊢
      have hshape : (liWrap (blobsHtml il) ++ '\n' :: runRegion (il2 :: ts''))
          ++ '\n' :: next
          = liWrap (blobsHtml il) ++ '\n' :: (runRegion (il2 :: ts'') ++ '\n' :: next) := by
        rw [List.append_assoc]
        rfl
      rw [hshape] at hfuel ⊢
      cases fuel with
      | zero =>
        simp only [List.length_append, List.length_cons] at hfuel
        omega
      | succ f =>
        rw [liRunGo_succ, liIter_liWrap_cons _ _ hnl]
        show (match liRunGo f (runRegion (il2 :: ts'') ++ '\n' :: next) with
          | some sr2 => some ((liWrap (blobsHtml il) ++ ['\n']) ++ sr2.1, sr2.2)
          | none => some (liWrap (blobsHtml il) ++ ['\n'],
              runRegion (il2 :: ts'') ++ '\n' :: next))
          = some ((liWrap (blobsHtml il) ++ '\n' :: runRegion (il2 :: ts'')) ++ ['\n'],
              next)
        rw [ih (by simp) (fun x hx => hok x (List.mem_cons_of_mem _ hx)) next hnext f
          (by
            simp only [List.length_append, List.length_cons] at hfuel ⊢
            omega)]
        show some ((liWrap (blobsHtml il) ++ ['\n'])
            ++ (runRegion (il2 :: ts'') ++ ['\n']), next)
          = some ((liWrap (blobsHtml il) ++ '\n' :: runRegion (il2 :: ts'')) ++ ['\n'],
              next)
        simp [List.append_assoc]

theorem liRun_region_end (ts : List (List Blob)) (hts : ts ≠ [])
    (hok : ∀ il ∈ ts, textOK il = true) :
    liRun (runRegion ts) = some (runRegion ts, []) :=
  liRunGo_region_end ts hts hok _ (Nat.le_refl _)

theorem liRun_region_next (ts : List (List Blob)) (hts : ts ≠ [])
    (hok : ∀ il ∈ ts, textOK il = true) (next : List Char)
    (hnext : ("<li>".toList.isPrefixOf next) = false) :
    liRun (runRegion ts ++ '\n' :: next) = some (runRegion ts ++ ['\n'], next) :=
  liRunGo_region_next ts hts hok next hnext _ (Nat.le_refl _)

theorem noLiSeed_nil : noLiSeed [] = true := rfl

theorem noLiSeed_single (a : Char) : noLiSeed [a] = true := rfl

theorem noLiSeed_of_no_lt : ∀ {s : List Char}, '<' ∉ s → noLiSeed s = true := by
  intro s
  induction s with
  | nil => intro _; rfl
  | cons a s' ih =>
    intro h
    cases s' with
    | nil => rfl
    | cons b s'' =>
      rw [noLiSeed_cons2, Bool.and_eq_true]
      have ha : (a == '<') = false :=
        beq_eq_false_iff_ne.mpr (fun hEq => h (hEq ▸ List.mem_cons_self a _))
      refine ⟨by rw [ha]; rfl, ih (fun hm => h (List.mem_cons_of_mem a hm))⟩

theorem seedOK_parts {s : List Char} (h : seedOK s = true) :
    noLiSeed s = true ∧ (s.getLast? == some '<') = false := by
  unfold seedOK at h
  rw [Bool.and_eq_true] at h
  exact ⟨h.1, by simpa using h.2⟩

theorem seedOK_of_no_lt {s : List Char} (h : '<' ∉ s) : seedOK s = true := by
  unfold seedOK
  rw [Bool.and_eq_true]
  refine ⟨noLiSeed_of_no_lt h, ?_⟩
  cases hg : s.getLast? with
  | none => rfl
  | some c =>
    have hm : c ∈ s := List.mem_of_getLast?_eq_some hg
    have : ¬c = '<' := fun hEq => h (hEq ▸ hm)
    simp [this]

theorem seedOK_append : ∀ {x : List Char} (y : List Char), seedOK x = true →
    seedOK y = true → seedOK (x ++ y) = true := by
  intro x
  induction x with
  | nil => intro y _ hy; simpa using hy
  | cons a x' ih =>
    intro y hx hy
    obtain ⟨hxs, hxl⟩ := seedOK_parts hx
    obtain ⟨hys, hyl⟩ := seedOK_parts hy
    unfold seedOK
    rw [Bool.and_eq_true]
    constructor
    · -- noLiSeed ((a :: x') ++ y)
      cases x' with
      | nil =>
        cases y with
        | nil => rfl
        | cons b y' =>
          show noLiSeed (a :: b :: y') = true
          rw [noLiSeed_cons2, Bool.and_eq_true]
          have ha : (a == '<') = false := by
            have : [a].getLast? = some a := rfl
            rw [this] at hxl
            simpa using hxl
          exact ⟨by rw [ha]; rfl, hys⟩
      | cons b x'' =>
        rw [noLiSeed_cons2] at hxs
        rw [Bool.and_eq_true] at hxs
        have hx' : seedOK (b :: x'') = true := by
          unfold seedOK
          rw [Bool.and_eq_true]
          refine ⟨hxs.2, ?_⟩
          rw [Bool.not_eq_true']
          rw [show (a :: b :: x'').getLast? = (b :: x'').getLast? from
            List.getLast?_cons_cons] at hxl
          exact hxl
        have hrec := ih y hx' hy
        obtain ⟨hrs, _⟩ := seedOK_parts hrec
        show noLiSeed (a :: b :: (x'' ++ y)) = true
        rw [noLiSeed_cons2, Bool.and_eq_true]
        exact ⟨hxs.1, hrs⟩
    · -- getLast? check
      cases y with
      | nil => simpa using hxl
      | cons b y' =>
        rw [List.getLast?_append_of_ne_nil _ (by simp)]
        simpa using hyl

theorem seedOK_blobsHtml {il : List Blob} (h : textOK il = true) :
    seedOK (blobsHtml il) = true := by
  induction il with
  | nil => rfl
  | cons b bs ih =>
    have hb := textOK_mem h (List.mem_cons_self b bs)
    have hbs : seedOK (blobsHtml bs) = true := by
      cases bs with
      | nil => rfl
      | cons b2 bs2 =>
        exact ih (by
          unfold textOK at h ⊢
          rw [Bool.and_eq_true] at h ⊢
          refine ⟨by simp, ?_⟩
          rw [List.all_cons, Bool.and_eq_true] at h
          exact h.2.2)
    rw [blobsHtml_cons]
    refine seedOK_append _ ?_ hbs
    cases b with
    | txt s =>
      have hcc : cleanChunk s = true := by simpa [inlineOK] using hb
      refine seedOK_of_no_lt ?_
      intro hm
      exact absurd rfl (cleanChunk_mem hcc hm).2.2
    | bold s =>
      have hcc : cleanChunk s = true := by simpa [inlineOK] using hb
      show seedOK ("<strong>".toList ++ s ++ "</strong>".toList) = true
      refine seedOK_append _ (seedOK_append _ (by decide) ?_) (by decide)
      refine seedOK_of_no_lt ?_
      intro hm
      exact absurd rfl (cleanChunk_mem hcc hm).2.2
    | star => exact absurd hb (by simp [inlineOK])

theorem seedOK_blockText {b : Block} (hok : blockOK b = true)
    (hnr : ∀ ts, b ≠ .run ts) : seedOK (blockText b) = true := by
  cases b with
  | heading il =>
    show seedOK (("<h3>".toList ++ blobsHtml il) ++ "</h3>".toList) = true
    exact seedOK_append _ (seedOK_append _ (by decide) (seedOK_blobsHtml hok))
      (by decide)
  | plain il =>
    unfold blockOK at hok
    rw [Bool.and_eq_true, Bool.and_eq_true] at hok
    exact seedOK_blobsHtml hok.1.1
  | blank => rfl
  | run ts => exact absurd rfl (hnr ts)

theorem li_pfx_false_html_apx (il : List Blob) (htext : textOK il = true)
    (suffix : List Char) :
    ("<li>".toList.isPrefixOf (blobsHtml il ++ suffix)) = false := by
  cases il with
  | nil => exact absurd rfl (textOK_ne_nil htext)
  | cons b il' =>
    have hb := textOK_mem htext (List.mem_cons_self b il')
    cases b with
    | bold s => exact pfx_li_false_2 's' _ (by decide)
    | star => exact absurd hb (by simp [inlineOK])
    | txt s =>
      have hcc : cleanChunk s = true := by simpa [inlineOK] using hb
      cases s with
      | nil => exact absurd rfl (cleanChunk_ne_nil hcc)
      | cons c s' =>
        exact pfx_li_false_head c _
          (cleanChunk_mem hcc (List.mem_cons_self c s')).2.2

theorem blockOK_plain_text {il : List Blob} (h : blockOK (.plain il) = true) :
    textOK il = true := by
  unfold blockOK at h
  rw [Bool.and_eq_true, Bool.and_eq_true] at h
  exact h.1.1

theorem stage2_noLi : ∀ (bs : List Block), (∀ b ∈ bs, blockOK b = true) →
    (∀ ts bs', bs ≠ .run ts :: bs') →
    ("<li>".toList.isPrefixOf (stage2Text bs)) = false := by
  intro bs hall hnr
  cases bs with
  | nil => rfl
  | cons b bs' =>
    have hb := hall b (List.mem_cons_self b bs')
    cases b with
    | run ts => exact absurd rfl (hnr ts bs')
    | heading il =>
      cases bs' with
      | nil => exact pfx_li_false_2 'h' _ (by decide)
      | cons b2 bs2 =>
        rw [stage2Text_cons _ (by simp)]
        exact pfx_li_false_2 'h' _ (by decide)
    | plain il =>
      have htext := blockOK_plain_text hb
      cases bs' with
      | nil =>
        have h1 := li_pfx_false_html_apx il htext []
        rwa [List.append_nil] at h1
      | cons b2 bs2 =>
        rw [stage2Text_cons _ (by simp)]
        exact li_pfx_false_html_apx il htext _
    | blank =>
      cases bs' with
      | nil => rfl
      | cons b2 bs2 =>
        rw [stage2Text_cons _ (by simp)]
        exact pfx_li_false_head '\n' _ (by decide)

theorem noAdjRun_tail : ∀ {b : Block} {bs : List Block},
    noAdjRun (b :: bs) = true → noAdjRun bs = true := by
  intro b bs h
  cases bs with
  | nil => rfl
  | cons b2 bs2 =>
    cases b with
    | run ts =>
      cases b2 with
      | run ts2 => simp [noAdjRun] at h
      | heading il2 => exact h
      | plain il2 => exact h
      | blank => exact h
    | heading il => exact h
    | plain il => exact h
    | blank => exact h

theorem closeRun_ne_nil : ∀ {ls : List (List Char)}, ls ≠ [] →
    closeRun ls ≠ [] := by
  intro ls h
  cases ls with
  | nil => exact absurd rfl h
  | cons l ls' =>
    cases ls' with
    | nil => simp [closeRun]
    | cons l2 ls'' => simp [closeRun]

theorem openRun_ne_nil : ∀ {ls : List (List Char)}, ls ≠ [] →
    openRun ls ≠ [] := by
  intro ls h
  cases ls with
  | nil => exact absurd rfl h
  | cons l ls' => simp [openRun]

theorem glueHead_ne_nil (s : List Char) (ls : List (List Char)) :
    glueHead s ls ≠ [] := by
  cases ls with
  | nil => simp [glueHead]
  | cons l ls' => simp [glueHead]

theorem joinLines_openRun : ∀ {ls : List (List Char)}, ls ≠ [] →
    joinLines (openRun ls) = "<ul>".toList ++ joinLines ls := by
  intro ls h
  cases ls with
  | nil => exact absurd rfl h
  | cons l ls' =>
    cases ls' with
    | nil => rfl
    | cons l2 ls'' =>
      show ("<ul>".toList ++ l) ++ '\n' :: joinLines (l2 :: ls'')
        = "<ul>".toList ++ (l ++ '\n' :: joinLines (l2 :: ls''))
      rw [List.append_assoc]

theorem joinLines_closeRun : ∀ {ls : List (List Char)}, ls ≠ [] →
    joinLines (closeRun ls) = joinLines ls ++ "</ul>".toList := by
  intro ls
  induction ls with
  | nil => intro h; exact absurd rfl h
  | cons l ls' ih =>
    intro _
    cases ls' with
    | nil => rfl
    | cons l2 ls'' =>
      show joinLines (l :: closeRun (l2 :: ls''))
        = joinLines (l :: l2 :: ls'') ++ "</ul>".toList
      rw [joinLines_cons _ (closeRun_ne_nil (by simp)), ih (by simp),
        joinLines_cons l (show (l2 :: ls'' : List (List Char)) ≠ [] by simp),
        List.append_assoc]
      rfl

theorem runLines_ne_nil {ts : List (List Blob)} (h : ts ≠ []) :
    runLines ts ≠ [] := by
  cases ts with
  | nil => exact absurd rfl h
  | cons t ts' => simp [runLines]

theorem blockOK_run_parts {ts : List (List Blob)}
    (h : blockOK (.run ts) = true) :
    ts ≠ [] ∧ ∀ il ∈ ts, textOK il = true := by
  rw [blockOK_run, Bool.and_eq_true] at h
  constructor
  · intro hEq
    rw [hEq] at h
    simp [List.isEmpty] at h
  · exact fun il hil => List.all_eq_true.mp h.2 il hil

theorem ulLines_ne_nil : ∀ {bs : List Block}, bs ≠ [] →
    (∀ b ∈ bs, blockOK b = true) → ulLines bs ≠ [] := by
  intro bs h hall
  cases bs with
  | nil => exact absurd rfl h
  | cons b bs' =>
    cases b with
    | heading il => simp [ulLines]
    | plain il => simp [ulLines]
    | blank => simp [ulLines]
    | run ts =>
      have hts := blockOK_run_parts (hall _ (List.mem_cons_self _ _))
      cases bs' with
      | nil =>
        show closeRun (openRun (runLines ts)) ≠ []
        exact closeRun_ne_nil (openRun_ne_nil (runLines_ne_nil hts.1))
      | cons b2 bs2 =>
        show openRun (runLines ts) ++ glueHead "</ul>".toList (ulLines (b2 :: bs2)) ≠ []
        cases hor : openRun (runLines ts) with
        | nil => exact absurd hor (openRun_ne_nil (runLines_ne_nil hts.1))
        | cons x xs => simp

theorem runRegion_ne_nil {ts : List (List Blob)} (h : ts ≠ []) :
    runRegion ts ≠ [] := by
  cases ts with
  | nil => exact absurd rfl h
  | cons il ts' =>
    cases ts' with
    | nil =>
      show liWrap (blobsHtml il) ≠ []
      intro hEq
      have := congrArg List.length hEq
      rw [liWrap_length] at this
      simp at this
    | cons il2 ts'' =>
      rw [runRegion_cons il (by simp)]
      intro hEq
      have := congrArg List.length hEq
      rw [List.length_append] at this
      simp at this

theorem ulLines_run_cons (ts : List (List Blob)) (b2 : Block) (bs2 : List Block) :
    ulLines (.run ts :: b2 :: bs2)
      = openRun (runLines ts) ++ glueHead "</ul>".toList (ulLines (b2 :: bs2)) := rfl

theorem ulStage_blocks : ∀ (n : Nat) (bs : List Block), bs.length ≤ n →
    (∀ b ∈ bs, blockOK b = true) → noAdjRun bs = true →
    ∀ fuel, (stage2Text bs).length ≤ fuel →
    ulWrapScanGo fuel (stage2Text bs) = joinLines (ulLines bs) := by
  intro n
  induction n with
  | zero =>
    intro bs hlen _ _ fuel _
    cases bs with
    | nil => exact ulWrapScanGo_nil fuel
    | cons b bs' => simp at hlen
  | succ n ih =>
    intro bs hlen hall hadj fuel hfuel
    cases bs with
    | nil => exact ulWrapScanGo_nil fuel
    | cons b bs' =>
      have hbOK := hall b (List.mem_cons_self b bs')
      have htailOK := fun x hx => hall x (List.mem_cons_of_mem b hx)
      have htailAdj := noAdjRun_tail hadj
      have hlentail : bs'.length ≤ n := by simpa using hlen
      cases b with
      | run ts =>
        obtain ⟨htsne, htsok⟩ := blockOK_run_parts hbOK
        cases bs' with
        | nil =>
          have hrr : stage2Text [Block.run ts] = runRegion ts := rfl
          rw [hrr] at hfuel ⊢
          cases hcr : runRegion ts with
          | nil => exact absurd hcr (runRegion_ne_nil htsne)
          | cons c rest =>
            rw [hcr] at hfuel
            cases fuel with
            | zero => simp at hfuel
            | succ f =>
              rw [ulWrapScanGo_cons_some f c rest (runRegion ts, []) (by
                rw [← hcr]
                exact liRun_region_end ts htsne htsok)]
              rw [ulWrapScanGo_nil]
              show ("<ul>".toList ++ runRegion ts) ++ "</ul>".toList ++ []
                = joinLines (closeRun (openRun (runLines ts)))
              rw [joinLines_closeRun (openRun_ne_nil (runLines_ne_nil htsne)),
                joinLines_openRun (runLines_ne_nil htsne), List.append_nil]
              rfl
        | cons b2 bs2 =>
          have hb2nr : ∀ ts' bs'', b2 :: bs2 ≠ Block.run ts' :: bs'' := by
            intro ts' bs'' hEq
            cases b2 with
            | run ts3 =>
              simp [noAdjRun] at hadj
            | heading il2 => simp at hEq
            | plain il2 => simp at hEq
            | blank => simp at hEq
          have hnext : ("<li>".toList.isPrefixOf (stage2Text (b2 :: bs2))) = false :=
            stage2_noLi _ htailOK hb2nr
          have hS : stage2Text (Block.run ts :: b2 :: bs2)
              = runRegion ts ++ '\n' :: stage2Text (b2 :: bs2) :=
            stage2Text_cons _ (by simp)
          rw [hS] at hfuel ⊢
          cases hcr : runRegion ts ++ '\n' :: stage2Text (b2 :: bs2) with
          | nil =>
            have := congrArg List.length hcr
            rw [List.length_append] at this
            simp at this
          | cons c rest =>
            rw [hcr] at hfuel
            cases fuel with
            | zero => simp at hfuel
            | succ f =>
              rw [ulWrapScanGo_cons_some f c rest
                (runRegion ts ++ ['\n'], stage2Text (b2 :: bs2)) (by
                  rw [← hcr]
                  exact liRun_region_next ts htsne htsok _ hnext)]
              have hflen : (stage2Text (b2 :: bs2)).length ≤ f := by
                have := congrArg List.length hcr
                simp only [List.length_append, List.length_cons] at this hfuel
                omega
              rw [ih (b2 :: bs2) hlentail htailOK htailAdj f hflen]
              rw [ulLines_run_cons,
                joinLines_append (openRun_ne_nil (runLines_ne_nil htsne))
                  (glueHead_ne_nil _ _),
                joinLines_openRun (runLines_ne_nil htsne), joinLines_glueHead]
              show ("<ul>".toList ++ (runRegion ts ++ ['\n'])) ++ "</ul>".toList
                  ++ joinLines (ulLines (b2 :: bs2))
                = ("<ul>".toList ++ runRegion ts)
                  ++ '\n' :: ("</ul>".toList ++ joinLines (ulLines (b2 :: bs2)))
              simp [List.append_assoc]
      | heading il =>
        have hul : ulLines (Block.heading il :: bs') = blockText (Block.heading il)
            :: ulLines bs' := rfl
        obtain ⟨hs, hl⟩ := seedOK_parts (seedOK_blockText hbOK (by intro ts hEq; cases hEq))
        cases bs' with
        | nil =>
          have h1 : stage2Text [Block.heading il]
              = blockText (Block.heading il) ++ [] := (List.append_nil _).symm
          rw [h1] at hfuel ⊢
          rw [ulWrapScanGo_pass _ [] fuel hfuel (noLi_all _ [] hs hl rfl),
            ulWrapScanGo_nil, List.append_nil, hul]
          rfl
        | cons b2 bs2 =>
          have hS : stage2Text (Block.heading il :: b2 :: bs2)
              = blockText (Block.heading il) ++ '\n' :: stage2Text (b2 :: bs2) :=
            stage2Text_cons _ (by simp)
          rw [hS] at hfuel ⊢
          have htail : ("<li>".toList.isPrefixOf ('\n' :: stage2Text (b2 :: bs2)))
              = false := pfx_li_false_head '\n' _ (by decide)
          rw [ulWrapScanGo_pass _ _ fuel hfuel (noLi_all _ _ hs hl htail)]
          have hrem : 1 + (stage2Text (b2 :: bs2)).length
              ≤ fuel - (blockText (Block.heading il)).length := by
            simp only [List.length_append, List.length_cons] at hfuel
            omega
          obtain ⟨g, hg⟩ : ∃ g, fuel - (blockText (Block.heading il)).length = g + 1 :=
            ⟨fuel - (blockText (Block.heading il)).length - 1, by omega⟩
          rw [hg, ulWrapScanGo_cons_none g '\n' _
            (liRun_of_pfx_false (pfx_li_false_head '\n' _ (by decide))),
            ih (b2 :: bs2) hlentail htailOK htailAdj g (by omega),
            hul, joinLines_cons _ (ulLines_ne_nil (by simp) htailOK)]
      | plain il =>
        have hul : ulLines (Block.plain il :: bs') = blockText (Block.plain il)
            :: ulLines bs' := rfl
        obtain ⟨hs, hl⟩ := seedOK_parts (seedOK_blockText hbOK (by intro ts hEq; cases hEq))
        cases bs' with
        | nil =>
          have h1 : stage2Text [Block.plain il]
              = blockText (Block.plain il) ++ [] := (List.append_nil _).symm
          rw [h1] at hfuel ⊢
          rw [ulWrapScanGo_pass _ [] fuel hfuel (noLi_all _ [] hs hl rfl),
            ulWrapScanGo_nil, List.append_nil, hul]
          rfl
        | cons b2 bs2 =>
          have hS : stage2Text (Block.plain il :: b2 :: bs2)
              = blockText (Block.plain il) ++ '\n' :: stage2Text (b2 :: bs2) :=
            stage2Text_cons _ (by simp)
          rw [hS] at hfuel ⊢
          have htail : ("<li>".toList.isPrefixOf ('\n' :: stage2Text (b2 :: bs2)))
              = false := pfx_li_false_head '\n' _ (by decide)
          rw [ulWrapScanGo_pass _ _ fuel hfuel (noLi_all _ _ hs hl htail)]
          have hrem : 1 + (stage2Text (b2 :: bs2)).length
              ≤ fuel - (blockText (Block.plain il)).length := by
            simp only [List.length_append, List.length_cons] at hfuel
            omega
          obtain ⟨g, hg⟩ : ∃ g, fuel - (blockText (Block.plain il)).length = g + 1 :=
            ⟨fuel - (blockText (Block.plain il)).length - 1, by omega⟩
          rw [hg, ulWrapScanGo_cons_none g '\n' _
            (liRun_of_pfx_false (pfx_li_false_head '\n' _ (by decide))),
            ih (b2 :: bs2) hlentail htailOK htailAdj g (by omega),
            hul, joinLines_cons _ (ulLines_ne_nil (by simp) htailOK)]
      | blank =>
        have hul : ulLines (Block.blank :: bs') = blockText Block.blank
            :: ulLines bs' := rfl
        obtain ⟨hs, hl⟩ := seedOK_parts (seedOK_blockText hbOK (by intro ts hEq; cases hEq))
        cases bs' with
        | nil =>
          have h1 : stage2Text [Block.blank]
              = blockText Block.blank ++ [] := (List.append_nil _).symm
          rw [h1] at hfuel ⊢
          rw [ulWrapScanGo_pass _ [] fuel hfuel (noLi_all _ [] hs hl rfl),
            ulWrapScanGo_nil, List.append_nil, hul]
          rfl
        | cons b2 bs2 =>
          have hS : stage2Text (Block.blank :: b2 :: bs2)
              = blockText Block.blank ++ '\n' :: stage2Text (b2 :: bs2) :=
            stage2Text_cons _ (by simp)
          rw [hS] at hfuel ⊢
          have htail : ("<li>".toList.isPrefixOf ('\n' :: stage2Text (b2 :: bs2)))
              = false := pfx_li_false_head '\n' _ (by decide)
          rw [ulWrapScanGo_pass _ _ fuel hfuel (noLi_all _ _ hs hl htail)]
          have hrem : 1 + (stage2Text (b2 :: bs2)).length
              ≤ fuel - (blockText Block.blank).length := by
            simp only [List.length_append, List.length_cons] at hfuel
            omega
          obtain ⟨g, hg⟩ : ∃ g, fuel - (blockText Block.blank).length = g + 1 :=
            ⟨fuel - (blockText Block.blank).length - 1, by omega⟩
          rw [hg, ulWrapScanGo_cons_none g '\n' _
            (liRun_of_pfx_false (pfx_li_false_head '\n' _ (by decide))),
            ih (b2 :: bs2) hlentail htailOK htailAdj g (by omega),
            hul, joinLines_cons _ (ulLines_ne_nil (by simp) htailOK)]

theorem ulStage_stage2 (bs : List Block) (hall : ∀ b ∈ bs, blockOK b = true)
    (hadj : noAdjRun bs = true) :
    ulWrapScan (stage2Text bs) = joinLines (ulLines bs) :=
  ulStage_blocks bs.length bs (Nat.le_refl _) hall hadj _ (Nat.le_refl _)

theorem trimChars_eq_self {l : List Char}
    (h1 : ∀ c, l.head? = some c → ¬c.isWhitespace)
    (h2 : ∀ c, l.getLast? = some c → ¬c.isWhitespace) : trimChars l = l := by
  unfold trimChars
  cases l with
  | nil => rfl
  | cons a l' =>
    have ha : ¬a.isWhitespace := h1 a rfl
    rw [List.dropWhile_cons, if_neg (by simpa using ha)]
    cases hg : (a :: l').getLast? with
    | none => simp at hg
    | some b =>
      have hb : ¬b.isWhitespace := h2 b hg
      have hrev : (a :: l').reverse.head? = some b := by
        rw [List.head?_reverse]
        exact hg
      cases hrev2 : (a :: l').reverse with
      | nil => simp at hrev2
      | cons r rs =>
        rw [hrev2] at hrev
        have hrb : r = b := by simpa using hrev
        rw [List.dropWhile_cons]
        rw [if_neg (by simp [hrb, hb])]
        rw [← hrev2]
        rw [List.reverse_reverse]

theorem wrapLine_nil : wrapLine [] = [] := rfl

theorem wrapLine_keep {line : List Char} (hne : line ≠ [])
    (h1 : ∀ c, line.head? = some c → ¬c.isWhitespace)
    (h2 : ∀ c, line.getLast? = some c → ¬c.isWhitespace)
    (hpfx : ("<h3>".toList.isPrefixOf line || "<ul>".toList.isPrefixOf line ||
      "<li>".toList.isPrefixOf line || "</".toList.isPrefixOf line) = true) :
    wrapLine line = line := by
  show (if trimChars line = [] then []
    else if ("<h3>".toList.isPrefixOf (trimChars line)
        || "<ul>".toList.isPrefixOf (trimChars line)
        || "<li>".toList.isPrefixOf (trimChars line)
        || "</".toList.isPrefixOf (trimChars line)) then trimChars line
    else "<p>".toList ++ trimChars line ++ "</p>".toList) = line
  rw [trimChars_eq_self h1 h2, if_neg hne, if_pos hpfx]

theorem wrapLine_para {line : List Char} (hne : line ≠ [])
    (h1 : ∀ c, line.head? = some c → ¬c.isWhitespace)
    (h2 : ∀ c, line.getLast? = some c → ¬c.isWhitespace)
    (hpfx : ("<h3>".toList.isPrefixOf line || "<ul>".toList.isPrefixOf line ||
      "<li>".toList.isPrefixOf line || "</".toList.isPrefixOf line) = false) :
    wrapLine line = "<p>".toList ++ line ++ "</p>".toList := by
  show (if trimChars line = [] then []
    else if ("<h3>".toList.isPrefixOf (trimChars line)
        || "<ul>".toList.isPrefixOf (trimChars line)
        || "<li>".toList.isPrefixOf (trimChars line)
        || "</".toList.isPrefixOf (trimChars line)) then trimChars line
    else "<p>".toList ++ trimChars line ++ "</p>".toList)
    = "<p>".toList ++ line ++ "</p>".toList
  rw [trimChars_eq_self h1 h2, if_neg hne, hpfx]
  rfl

theorem isPrefixOf_false_of_head2 (a b c : Char) (as bs : List Char)
    (h : ¬b = c) : ((a :: b :: as).isPrefixOf (a :: c :: bs)) = false := by
  have hbc : (b == c) = false := beq_eq_false_iff_ne.mpr h
  simp [List.isPrefixOf, hbc]

theorem head_cond_of {l : List Char} {c : Char} (h : l.head? = some c)
    (hc : ¬c.isWhitespace) : ∀ c', l.head? = some c' → ¬c'.isWhitespace := by
  intro c' h'
  rw [h] at h'
  injection h' with he
  rw [← he]
  exact hc

theorem last_cond_of {l : List Char} {c : Char} (h : l.getLast? = some c)
    (hc : ¬c.isWhitespace) : ∀ c', l.getLast? = some c' → ¬c'.isWhitespace := by
  intro c' h'
  rw [h] at h'
  injection h' with he
  rw [← he]
  exact hc

theorem h3Wrap_head (x : List Char) : (h3Wrap x).head? = some '<' := rfl

theorem h3Wrap_last (x : List Char) : (h3Wrap x).getLast? = some '>' := by
  show (("<h3>".toList ++ x) ++ "</h3>".toList).getLast? = some '>'
  rw [List.getLast?_append_of_ne_nil _ (by decide)]
  decide

theorem liWrap_head (x : List Char) : (liWrap x).head? = some '<' := rfl

theorem liWrap_last (x : List Char) : (liWrap x).getLast? = some '>' := by
  show (("<li>".toList ++ x) ++ "</li>".toList).getLast? = some '>'
  rw [List.getLast?_append_of_ne_nil _ (by decide)]
  decide

theorem h3Wrap_ne_nil (x : List Char) : h3Wrap x ≠ [] := by
  show ("<h3>".toList ++ x) ++ "</h3>".toList ≠ []
  simp

theorem liWrap_ne_nil (x : List Char) : liWrap x ≠ [] := by
  show ("<li>".toList ++ x) ++ "</li>".toList ≠ []
  simp

/-- The paragraph-trim condition on a line's last inline blob. -/
def lastBlobOK (il : List Blob) : Bool :=
  match il.getLast? with
  | some (.txt s) =>
      match s.getLast? with
      | some c => !c.isWhitespace
      | none => true
  | _ => true

theorem edgeOK_last {il : List Blob} (h : edgeOK il = true) :
    lastBlobOK il = true := by
  unfold edgeOK at h
  rw [Bool.and_eq_true] at h
  unfold lastBlobOK
  exact h.2

theorem lastBlobOK_tail (b b2 : Blob) (il'' : List Blob) :
    lastBlobOK (b :: b2 :: il'') = lastBlobOK (b2 :: il'') := by
  unfold lastBlobOK
  rw [List.getLast?_cons_cons]

theorem textOK_tail {b : Blob} {bs : List Blob} (h : textOK (b :: bs) = true)
    (hne : bs ≠ []) : textOK bs = true := by
  unfold textOK at h ⊢
  rw [Bool.and_eq_true] at h ⊢
  refine ⟨?_, ?_⟩
  · cases bs with
    | nil => exact absurd rfl hne
    | cons x xs => rfl
  · rw [List.all_cons, Bool.and_eq_true] at h
    exact h.2.2

theorem blobsHtml_last_cond : ∀ (il : List Blob), textOK il = true →
    lastBlobOK il = true →
    ∀ c, (blobsHtml il).getLast? = some c → ¬c.isWhitespace := by
  intro il
  induction il with
  | nil => intro htext _; exact absurd rfl (textOK_ne_nil htext)
  | cons b il' ih =>
    intro htext hlast
    cases il' with
    | nil =>
      have hb := textOK_mem htext (List.mem_cons_self b [])
      have hone : blobsHtml [b] = blobHtml b := by simp [blobsHtml]
      rw [hone]
      cases b with
      | txt s =>
        intro c hc
        have hl' : lastBlobOK [Blob.txt s]
            = (match s.getLast? with
               | some c => !c.isWhitespace
               | none => true) := rfl
        rw [hl'] at hlast
        show ¬c.isWhitespace
        rw [show (blobHtml (Blob.txt s)) = s from rfl] at hc
        rw [hc] at hlast
        simpa using hlast
      | bold s =>
        have hl : (blobHtml (Blob.bold s)).getLast? = some '>' := by
          show (("<strong>".toList ++ s) ++ "</strong>".toList).getLast? = some '>'
          rw [List.getLast?_append_of_ne_nil _ (by decide)]
          decide
        exact last_cond_of hl (by decide)
      | star => exact absurd hb (by simp [inlineOK])
    | cons b2 il'' =>
      have htail : textOK (b2 :: il'') = true := textOK_tail htext (by simp)
      rw [blobsHtml_cons]
      intro c hc
      rw [List.getLast?_append_of_ne_nil _ (blobsHtml_ne_nil htail)] at hc
      exact ih htail (by rw [← lastBlobOK_tail b b2 il'']; exact hlast) c hc

theorem blobsHtml_head_cond {il : List Blob} (htext : textOK il = true)
    (hedge : edgeOK il = true) :
    ∀ c, (blobsHtml il).head? = some c → ¬c.isWhitespace := by
  cases il with
  | nil => exact absurd rfl (textOK_ne_nil htext)
  | cons b il' =>
    have hb := textOK_mem htext (List.mem_cons_self b il')
    cases b with
    | bold s =>
      exact head_cond_of
        (show (blobsHtml (Blob.bold s :: il')).head? = some '<' from rfl) (by decide)
    | star => exact absurd hb (by simp [inlineOK])
    | txt s =>
      have hcc : cleanChunk s = true := by simpa [inlineOK] using hb
      cases s with
      | nil => exact absurd rfl (cleanChunk_ne_nil hcc)
      | cons c0 s' =>
        have hh : (!c0.isWhitespace && lastBlobOK (Blob.txt (c0 :: s') :: il'))
            = true := hedge
        rw [Bool.and_eq_true] at hh
        refine head_cond_of
          (show (blobsHtml (Blob.txt (c0 :: s') :: il')).head? = some c0 from rfl) ?_
        have := hh.1
        rw [Bool.not_eq_true'] at this
        simp [this]

theorem wrapLine_plain {il : List Blob} (htext : textOK il = true)
    (hedge : edgeOK il = true) :
    wrapLine (blobsHtml il) = "<p>".toList ++ blobsHtml il ++ "</p>".toList := by
  refine wrapLine_para (blobsHtml_ne_nil htext) (blobsHtml_head_cond htext hedge)
    (blobsHtml_last_cond il htext (edgeOK_last hedge)) ?_
  cases il with
  | nil => exact absurd rfl (textOK_ne_nil htext)
  | cons b il' =>
    have hb := textOK_mem htext (List.mem_cons_self b il')
    cases b with
    | star => exact absurd hb (by simp [inlineOK])
    | bold s =>
      have p1 : ("<h3>".toList.isPrefixOf (blobsHtml (Blob.bold s :: il'))) = false :=
        isPrefixOf_false_of_head2 '<' 'h' 's' _ _ (by decide)
      have p2 : ("<ul>".toList.isPrefixOf (blobsHtml (Blob.bold s :: il'))) = false :=
        isPrefixOf_false_of_head2 '<' 'u' 's' _ _ (by decide)
      have p3 : ("<li>".toList.isPrefixOf (blobsHtml (Blob.bold s :: il'))) = false :=
        isPrefixOf_false_of_head2 '<' 'l' 's' _ _ (by decide)
      have p4 : ("</".toList.isPrefixOf (blobsHtml (Blob.bold s :: il'))) = false :=
        isPrefixOf_false_of_head2 '<' '/' 's' _ _ (by decide)
      rw [p1, p2, p3, p4]
      rfl
    | txt s =>
      have hcc : cleanChunk s = true := by simpa [inlineOK] using hb
      cases s with
      | nil => exact absurd rfl (cleanChunk_ne_nil hcc)
      | cons c0 s' =>
        have hclt : ¬c0 = '<' :=
          (cleanChunk_mem hcc (List.mem_cons_self c0 s')).2.2
        have p1 : ("<h3>".toList.isPrefixOf
            (blobsHtml (Blob.txt (c0 :: s') :: il'))) = false :=
          isPrefixOf_false_of_head_ne '<' c0 _ _ (fun hEq => hclt hEq.symm)
        have p2 : ("<ul>".toList.isPrefixOf
            (blobsHtml (Blob.txt (c0 :: s') :: il'))) = false :=
          isPrefixOf_false_of_head_ne '<' c0 _ _ (fun hEq => hclt hEq.symm)
        have p3 : ("<li>".toList.isPrefixOf
            (blobsHtml (Blob.txt (c0 :: s') :: il'))) = false :=
          isPrefixOf_false_of_head_ne '<' c0 _ _ (fun hEq => hclt hEq.symm)
        have p4 : ("</".toList.isPrefixOf
            (blobsHtml (Blob.txt (c0 :: s') :: il'))) = false :=
          isPrefixOf_false_of_head_ne '<' c0 _ _ (fun hEq => hclt hEq.symm)
        rw [p1, p2, p3, p4]
        rfl

theorem wrapLine_h3 (x : List Char) :
    wrapLine (h3Wrap x) = h3Wrap x := by
  refine wrapLine_keep (h3Wrap_ne_nil x) (head_cond_of (h3Wrap_head x) (by decide))
    (last_cond_of (h3Wrap_last x) (by decide)) ?_
  have p1 : ("<h3>".toList.isPrefixOf (h3Wrap x)) = true := by
    show ("<h3>".toList.isPrefixOf ("<h3>".toList ++ (x ++ "</h3>".toList))) = true
    exact List.isPrefixOf_iff_prefix.mpr (List.prefix_append _ _)
  rw [p1]
  rfl

theorem isPrefixOf_append_left (p l : List Char) : (p.isPrefixOf (p ++ l)) = true :=
  List.isPrefixOf_iff_prefix.mpr (List.prefix_append _ _)

theorem isPrefixOf_append_of (p l m : List Char) (h : (p.isPrefixOf l) = true) :
    (p.isPrefixOf (l ++ m)) = true := by
  rw [List.isPrefixOf_iff_prefix] at h ⊢
  exact h.trans (List.prefix_append _ _)

theorem li_pfx_liWrap (t : List Char) :
    ("<li>".toList.isPrefixOf (liWrap t)) = true := by
  show ("<li>".toList.isPrefixOf ("<li>".toList ++ (t ++ "</li>".toList))) = true
  exact isPrefixOf_append_left _ _

theorem wrapLine_liWrap (t : List Char) : wrapLine (liWrap t) = liWrap t := by
  refine wrapLine_keep (liWrap_ne_nil t) (head_cond_of (liWrap_head t) (by decide))
    (last_cond_of (liWrap_last t) (by decide)) ?_
  rw [li_pfx_liWrap]
  simp

theorem mem_runLines {ts : List (List Blob)} {x : List Char}
    (h : x ∈ runLines ts) : ∃ il, il ∈ ts ∧ x = liWrap (blobsHtml il) := by
  unfold runLines at h
  rw [List.mem_map] at h
  obtain ⟨il, hil, hx⟩ := h
  exact ⟨il, hil, hx.symm⟩

theorem mem_openRun : ∀ {ls : List (List Char)} {x : List Char},
    x ∈ openRun ls → x ∈ ls ∨ ∃ y, y ∈ ls ∧ x = "<ul>".toList ++ y := by
  intro ls x h
  cases ls with
  | nil => simp [openRun] at h
  | cons l ls' =>
    rw [show openRun (l :: ls') = ("<ul>".toList ++ l) :: ls' from rfl,
      List.mem_cons] at h
    rcases h with h | h
    · exact Or.inr ⟨l, List.mem_cons_self l ls', h⟩
    · exact Or.inl (List.mem_cons_of_mem l h)

theorem mem_closeRun : ∀ {ls : List (List Char)} {x : List Char},
    x ∈ closeRun ls → x ∈ ls ∨ ∃ y, y ∈ ls ∧ x = y ++ "</ul>".toList := by
  intro ls
  induction ls with
  | nil => intro x h; simp [closeRun] at h
  | cons l ls' ih =>
    intro x h
    cases ls' with
    | nil =>
      rw [show closeRun [l] = [l ++ "</ul>".toList] from rfl,
        List.mem_singleton] at h
      exact Or.inr ⟨l, List.mem_cons_self l [], h⟩
    | cons l2 ls'' =>
      rw [show closeRun (l :: l2 :: ls'') = l :: closeRun (l2 :: ls'') from rfl,
        List.mem_cons] at h
      rcases h with h | h
      · exact Or.inl (h ▸ List.mem_cons_self l _)
      · rcases ih h with h' | ⟨y, hy, hx⟩
        · exact Or.inl (List.mem_cons_of_mem l h')
        · exact Or.inr ⟨y, List.mem_cons_of_mem l hy, hx⟩

theorem keep_mem_open {ts : List (List Blob)} {x : List Char}
    (hx : x ∈ openRun (runLines ts)) : wrapLine x = x ∧ x ≠ [] := by
  rcases mem_openRun hx with hmem | ⟨y, hy, hxy⟩
  · obtain ⟨il, _, hxe⟩ := mem_runLines hmem
    rw [hxe]
    exact ⟨wrapLine_liWrap _, liWrap_ne_nil _⟩
  · obtain ⟨il, _, hye⟩ := mem_runLines hy
    rw [hxy, hye]
    refine ⟨?_, by simp⟩
    have hlast : ("<ul>".toList ++ liWrap (blobsHtml il)).getLast? = some '>' := by
      rw [List.getLast?_append_of_ne_nil _ (liWrap_ne_nil _)]
      exact liWrap_last _
    refine wrapLine_keep (by simp)
      (head_cond_of
        (show ("<ul>".toList ++ liWrap (blobsHtml il)).head? = some '<' from rfl)
        (by decide))
      (last_cond_of hlast (by decide)) ?_
    have hp : ("<ul>".toList.isPrefixOf
        ("<ul>".toList ++ liWrap (blobsHtml il))) = true :=
      isPrefixOf_append_left _ _
    rw [hp]
    simp

theorem keep_mem_close {ts : List (List Blob)} {x : List Char}
    (hx : x ∈ closeRun (openRun (runLines ts))) : wrapLine x = x ∧ x ≠ [] := by
  rcases mem_closeRun hx with hmem | ⟨y, hy, hxy⟩
  · exact keep_mem_open hmem
  · rcases mem_openRun hy with hmem2 | ⟨z, hz, hyz⟩
    · obtain ⟨il, _, hye⟩ := mem_runLines hmem2
      rw [hxy, hye]
      refine ⟨?_, by simp [liWrap]⟩
      have hlast : (liWrap (blobsHtml il) ++ "</ul>".toList).getLast?
          = some '>' := by
        rw [List.getLast?_append_of_ne_nil _ (by decide)]
        decide
      refine wrapLine_keep (by simp [liWrap])
        (head_cond_of
          (show (liWrap (blobsHtml il) ++ "</ul>".toList).head? = some '<'
            from rfl) (by decide))
        (last_cond_of hlast (by decide)) ?_
      have hp : ("<li>".toList.isPrefixOf
          (liWrap (blobsHtml il) ++ "</ul>".toList)) = true :=
        isPrefixOf_append_of _ _ _ (li_pfx_liWrap _)
      rw [hp]
      simp
    · obtain ⟨il, _, hze⟩ := mem_runLines hz
      rw [hxy, hyz, hze]
      refine ⟨?_, by simp⟩
      have hlast : (("<ul>".toList ++ liWrap (blobsHtml il)) ++ "</ul>".toList).getLast?
          = some '>' := by
        rw [List.getLast?_append_of_ne_nil _ (by decide)]
        decide
      refine wrapLine_keep (by simp)
        (head_cond_of
          (show (("<ul>".toList ++ liWrap (blobsHtml il)) ++ "</ul>".toList).head?
            = some '<' from rfl) (by decide))
        (last_cond_of hlast (by decide)) ?_
      have hp : ("<ul>".toList.isPrefixOf
          (("<ul>".toList ++ liWrap (blobsHtml il)) ++ "</ul>".toList)) = true :=
        isPrefixOf_append_of _ _ _ (isPrefixOf_append_left _ _)
      rw [hp]
      simp

theorem blockOK_plain_edge {il : List Blob} (h : blockOK (.plain il) = true) :
    edgeOK il = true := by
  unfold blockOK at h
  rw [Bool.and_eq_true] at h
  exact h.2

theorem wrapLine_glue {b : Block} (hb : blockOK b = true)
    (hnr : ∀ ts, b ≠ .run ts) :
    wrapLine ("</ul>".toList ++ rawBlockLine b)
      = "</ul>".toList ++ rawBlockLine b := by
  refine wrapLine_keep (by simp)
    (head_cond_of
      (show ("</ul>".toList ++ rawBlockLine b).head? = some '<' from rfl)
      (by decide)) ?_ ?_
  · cases b with
    | run ts => exact absurd rfl (hnr ts)
    | blank =>
      have hlast : ("</ul>".toList ++ rawBlockLine Block.blank).getLast?
          = some '>' := by
        rw [show rawBlockLine Block.blank = [] from rfl, List.append_nil]
        decide
      exact last_cond_of hlast (by decide)
    | heading il =>
      have hlast : ("</ul>".toList ++ rawBlockLine (Block.heading il)).getLast?
          = some '>' := by
        show ("</ul>".toList ++ h3Wrap (blobsHtml il)).getLast? = some '>'
        rw [List.getLast?_append_of_ne_nil _ (h3Wrap_ne_nil _)]
        exact h3Wrap_last _
      exact last_cond_of hlast (by decide)
    | plain il =>
      intro c hc
      have htext := blockOK_plain_text hb
      have hc2 : (blobsHtml il).getLast? = some c := by
        have hc' : ("</ul>".toList ++ blobsHtml il).getLast? = some c := hc
        rwa [List.getLast?_append_of_ne_nil _ (blobsHtml_ne_nil htext)] at hc'
      exact blobsHtml_last_cond il htext (edgeOK_last (blockOK_plain_edge hb)) c hc2
  · have hp : ("</".toList.isPrefixOf ("</ul>".toList ++ rawBlockLine b)) = true :=
      isPrefixOf_append_of _ _ _ (by decide)
    rw [hp]
    simp

theorem filter_cons_keep {l : List Char} {ls : List (List Char)} (h : l ≠ []) :
    (l :: ls).filter (· ≠ []) = l :: ls.filter (· ≠ []) := by
  rw [List.filter_cons, if_pos (by simpa using h)]

theorem filter_cons_drop {ls : List (List Char)} :
    (([] : List Char) :: ls).filter (· ≠ []) = ls.filter (· ≠ []) := by
  rw [List.filter_cons, if_neg (by simp)]

theorem filterWrap_id : ∀ {ls : List (List Char)},
    (∀ x ∈ ls, wrapLine x = x ∧ x ≠ []) →
    ((ls.map wrapLine).filter (· ≠ [])) = ls := by
  intro ls
  induction ls with
  | nil => intro _; rfl
  | cons l ls' ih =>
    intro h
    have hl := h l (List.mem_cons_self l ls')
    rw [List.map_cons, hl.1, filter_cons_keep hl.2,
      ih (fun x hx => h x (List.mem_cons_of_mem l hx))]

theorem paraLines : ∀ (n : Nat) (bs : List Block), bs.length ≤ n →
    (∀ b ∈ bs, blockOK b = true) → noAdjRun bs = true →
    ((ulLines bs).map wrapLine).filter (· ≠ []) = htmlLines bs := by
  intro n
  induction n with
  | zero =>
    intro bs hlen _ _
    cases bs with
    | nil => rfl
    | cons b bs' => simp at hlen
  | succ n ih =>
    intro bs hlen hall hadj
    cases bs with
    | nil => rfl
    | cons b bs' =>
      have hlen' : bs'.length ≤ n := by
        rw [List.length_cons] at hlen
        omega
      have hall' : ∀ x ∈ bs', blockOK x = true :=
        fun x hx => hall x (List.mem_cons_of_mem b hx)
      have hadj' := noAdjRun_tail hadj
      cases b with
      | heading il =>
        rw [show ulLines (Block.heading il :: bs')
            = h3Wrap (blobsHtml il) :: ulLines bs' from rfl,
          List.map_cons, wrapLine_h3, filter_cons_keep (h3Wrap_ne_nil _),
          ih bs' hlen' hall' hadj']
        rfl
      | plain il =>
        have hb := hall _ (List.mem_cons_self _ _)
        rw [show ulLines (Block.plain il :: bs')
            = blobsHtml il :: ulLines bs' from rfl,
          List.map_cons,
          wrapLine_plain (blockOK_plain_text hb) (blockOK_plain_edge hb),
          filter_cons_keep (by simp),
          ih bs' hlen' hall' hadj']
        rfl
      | blank =>
        rw [show ulLines (Block.blank :: bs') = [] :: ulLines bs' from rfl,
          List.map_cons, wrapLine_nil, filter_cons_drop,
          ih bs' hlen' hall' hadj']
        rfl
      | run ts =>
        cases bs' with
        | nil =>
          rw [show ulLines [Block.run ts]
              = closeRun (openRun (runLines ts)) from rfl,
            filterWrap_id (fun x hx => keep_mem_close hx)]
          rfl
        | cons b2 bs2 =>
          have hb2nr : ∀ us, b2 ≠ Block.run us := by
            intro us hEq
            rw [hEq] at hadj
            have hf : noAdjRun (Block.run ts :: Block.run us :: bs2) = false := rfl
            rw [hf] at hadj
            exact Bool.false_ne_true hadj
          have hulEq : ulLines (b2 :: bs2) = rawBlockLine b2 :: ulLines bs2 := by
            cases b2 with
            | heading il => rfl
            | plain il => rfl
            | blank => rfl
            | run us => exact absurd rfl (hb2nr us)
          rw [show ulLines (Block.run ts :: b2 :: bs2)
              = openRun (runLines ts)
                ++ glueHead "</ul>".toList (ulLines (b2 :: bs2)) from rfl,
            hulEq,
            show glueHead "</ul>".toList (rawBlockLine b2 :: ulLines bs2)
              = ("</ul>".toList ++ rawBlockLine b2) :: ulLines bs2 from rfl,
            List.map_append, List.filter_append, List.map_cons,
            wrapLine_glue (hall b2 (by simp)) hb2nr,
            filter_cons_keep (by simp),
            filterWrap_id (fun x hx => keep_mem_open hx)]
          have hlen2 : bs2.length ≤ n := by
            rw [List.length_cons, List.length_cons] at hlen
            omega
          rw [ih bs2 hlen2 (fun x hx => hall x (by simp [hx]))
            (noAdjRun_tail hadj')]
          rfl

theorem nl_not_mem_h3Wrap {t : List Char} (h : '\n' ∉ t) : '\n' ∉ h3Wrap t := by
  intro hm
  rcases List.mem_append.mp hm with hm | hm
  · rcases List.mem_append.mp hm with hm | hm
    · exact absurd hm (by decide)
    · exact h hm
  · exact absurd hm (by decide)

theorem nl_not_mem_rawBlockLine {b : Block} (hb : blockOK b = true) :
    '\n' ∉ rawBlockLine b := by
  cases b with
  | heading il =>
    have ht : textOK il = true := hb
    exact nl_not_mem_h3Wrap (nl_not_mem_blobsHtml ht)
  | plain il => exact nl_not_mem_blobsHtml (blockOK_plain_text hb)
  | blank => simp [rawBlockLine]
  | run ts => simp [rawBlockLine]

theorem nl_not_mem_openRun {ts : List (List Blob)}
    (hts : ∀ il ∈ ts, textOK il = true) {x : List Char}
    (hx : x ∈ openRun (runLines ts)) : '\n' ∉ x := by
  have hbase : ∀ y ∈ runLines ts, '\n' ∉ y := by
    intro y hy
    obtain ⟨il, hil, hye⟩ := mem_runLines hy
    rw [hye]
    exact nl_not_mem_liWrap (nl_not_mem_blobsHtml (hts il hil))
  rcases mem_openRun hx with hm | ⟨z, hz, hxe⟩
  · exact hbase x hm
  · rw [hxe]
    intro hmem
    rcases List.mem_append.mp hmem with hm | hm
    · exact absurd hm (by decide)
    · exact hbase z hz hm

theorem nl_not_mem_closeRun {ts : List (List Blob)}
    (hts : ∀ il ∈ ts, textOK il = true) {x : List Char}
    (hx : x ∈ closeRun (openRun (runLines ts))) : '\n' ∉ x := by
  rcases mem_closeRun hx with hm | ⟨z, hz, hxe⟩
  · exact nl_not_mem_openRun hts hm
  · rw [hxe]
    intro hmem
    rcases List.mem_append.mp hmem with hm | hm
    · exact nl_not_mem_openRun hts hz hm
    · exact absurd hm (by decide)

theorem ulLines_no_nl : ∀ (n : Nat) (bs : List Block), bs.length ≤ n →
    (∀ b ∈ bs, blockOK b = true) → noAdjRun bs = true →
    ∀ l ∈ ulLines bs, '\n' ∉ l := by
  intro n
  induction n with
  | zero =>
    intro bs hlen _ _ l hl
    cases bs with
    | nil => simp [ulLines] at hl
    | cons b bs' => simp at hlen
  | succ n ih =>
    intro bs hlen hall hadj l hl
    cases bs with
    | nil => simp [ulLines] at hl
    | cons b bs' =>
      have hlen' : bs'.length ≤ n := by
        rw [List.length_cons] at hlen
        omega
      have hall' : ∀ x ∈ bs', blockOK x = true :=
        fun x hx => hall x (List.mem_cons_of_mem b hx)
      have hadj' := noAdjRun_tail hadj
      cases b with
      | heading il =>
        rw [show ulLines (Block.heading il :: bs')
            = h3Wrap (blobsHtml il) :: ulLines bs' from rfl,
          List.mem_cons] at hl
        rcases hl with hl | hl
        · rw [hl]
          have ht : textOK il = true := hall _ (List.mem_cons_self _ _)
          exact nl_not_mem_h3Wrap (nl_not_mem_blobsHtml ht)
        · exact ih bs' hlen' hall' hadj' l hl
      | plain il =>
        rw [show ulLines (Block.plain il :: bs')
            = blobsHtml il :: ulLines bs' from rfl,
          List.mem_cons] at hl
        rcases hl with hl | hl
        · rw [hl]
          exact nl_not_mem_blobsHtml
            (blockOK_plain_text (hall _ (List.mem_cons_self _ _)))
        · exact ih bs' hlen' hall' hadj' l hl
      | blank =>
        rw [show ulLines (Block.blank :: bs') = [] :: ulLines bs' from rfl,
          List.mem_cons] at hl
        rcases hl with hl | hl
        · rw [hl]; simp
        · exact ih bs' hlen' hall' hadj' l hl
      | run ts =>
        have hts := (blockOK_run_parts (hall _ (List.mem_cons_self _ _))).2
        cases bs' with
        | nil =>
          rw [show ulLines [Block.run ts]
              = closeRun (openRun (runLines ts)) from rfl] at hl
          exact nl_not_mem_closeRun hts hl
        | cons b2 bs2 =>
          have hb2nr : ∀ us, b2 ≠ Block.run us := by
            intro us hEq
            rw [hEq] at hadj
            have hf : noAdjRun (Block.run ts :: Block.run us :: bs2) = false := rfl
            rw [hf] at hadj
            exact Bool.false_ne_true hadj
          have hulEq : ulLines (b2 :: bs2) = rawBlockLine b2 :: ulLines bs2 := by
            cases b2 with
            | heading il => rfl
            | plain il => rfl
            | blank => rfl
            | run us => exact absurd rfl (hb2nr us)
          rw [show ulLines (Block.run ts :: b2 :: bs2)
              = openRun (runLines ts)
                ++ glueHead "</ul>".toList (ulLines (b2 :: bs2)) from rfl,
            hulEq,
            show glueHead "</ul>".toList (rawBlockLine b2 :: ulLines bs2)
              = ("</ul>".toList ++ rawBlockLine b2) :: ulLines bs2 from rfl,
            List.mem_append, List.mem_cons] at hl
          rcases hl with hl | hl | hl
          · exact nl_not_mem_openRun hts hl
          · rw [hl]
            intro hmem
            rcases List.mem_append.mp hmem with hm | hm
            · exact absurd hm (by decide)
            · exact nl_not_mem_rawBlockLine (hall b2 (by simp)) hm
          · have hlen2 : bs2.length ≤ n := by
              rw [List.length_cons, List.length_cons] at hlen
              omega
            exact ih bs2 hlen2 (fun x hx => hall x (by simp [hx]))
              (noAdjRun_tail hadj') l hl

theorem paragraph_stage (bs : List Block) (hne : bs ≠ [])
    (hall : ∀ b ∈ bs, blockOK b = true) (hadj : noAdjRun bs = true) :
    paragraphStep (joinLines (ulLines bs)) = joinLines (htmlLines bs) := by
  unfold paragraphStep
  rw [splitLines_joinLines (ulLines_ne_nil hne hall)
      (fun l hl => ulLines_no_nl bs.length bs (Nat.le_refl _) hall hadj l hl),
    paraLines bs.length bs (Nat.le_refl _) hall hadj]

theorem markdownToHtml_pipeline (doc : List MdLine) (h : goodDoc doc = true) :
    markdownToHtml (String.mk (renderMd doc))
      = String.mk (joinLines (htmlLines (toBlocks doc))) := by
  obtain ⟨hne, hall⟩ := goodDoc_parts h
  unfold markdownToHtml
  rw [show (String.mk (renderMd doc)).toList = renderMd doc from rfl,
    heading_stage doc h, bold_stage doc h, italic_stage doc h,
    listItem_stage doc h, stage2_bridge doc,
    ulStage_stage2 (toBlocks doc) (blockOK_toBlocks doc hall)
      (noAdjRun_toBlocks doc),
    paragraph_stage (toBlocks doc) (toBlocks_ne_nil hne)
      (blockOK_toBlocks doc hall) (noAdjRun_toBlocks doc)]

theorem head_mem_open {ts : List (List Blob)} {x : List Char}
    (hx : x ∈ openRun (runLines ts)) : x.head? = some '<' := by
  rcases mem_openRun hx with hm | ⟨y, _, hxe⟩
  · obtain ⟨il, _, hxe⟩ := mem_runLines hm
    rw [hxe]
    exact liWrap_head _
  · rw [hxe]
    rfl

theorem head_mem_close {ts : List (List Blob)} {x : List Char}
    (hx : x ∈ closeRun (openRun (runLines ts))) : x.head? = some '<' := by
  rcases mem_closeRun hx with hm | ⟨y, hy, hxe⟩
  · exact head_mem_open hm
  · have hh := head_mem_open hy
    rw [hxe]
    cases y with
    | nil => simp at hh
    | cons c y' =>
      rw [show ((c :: y') ++ "</ul>".toList).head? = some c from rfl]
      exact hh

theorem htmlLines_head : ∀ (n : Nat) (bs : List Block), bs.length ≤ n →
    (∀ b ∈ bs, blockOK b = true) → noAdjRun bs = true →
    ∀ l ∈ htmlLines bs, l.head? = some '<' := by
  intro n
  induction n with
  | zero =>
    intro bs hlen _ _ l hl
    cases bs with
    | nil => simp [htmlLines] at hl
    | cons b bs' => simp at hlen
  | succ n ih =>
    intro bs hlen hall hadj l hl
    cases bs with
    | nil => simp [htmlLines] at hl
    | cons b bs' =>
      have hlen' : bs'.length ≤ n := by
        rw [List.length_cons] at hlen
        omega
      have hall' : ∀ x ∈ bs', blockOK x = true :=
        fun x hx => hall x (List.mem_cons_of_mem b hx)
      have hadj' := noAdjRun_tail hadj
      cases b with
      | heading il =>
        rw [show htmlLines (Block.heading il :: bs')
            = h3Wrap (blobsHtml il) :: htmlLines bs' from rfl,
          List.mem_cons] at hl
        rcases hl with hl | hl
        · rw [hl]
          exact h3Wrap_head _
        · exact ih bs' hlen' hall' hadj' l hl
      | plain il =>
        rw [show htmlLines (Block.plain il :: bs')
            = ("<p>".toList ++ blobsHtml il ++ "</p>".toList) :: htmlLines bs'
            from rfl, List.mem_cons] at hl
        rcases hl with hl | hl
        · rw [hl]
          rfl
        · exact ih bs' hlen' hall' hadj' l hl
      | blank =>
        rw [show htmlLines (Block.blank :: bs') = htmlLines bs' from rfl] at hl
        exact ih bs' hlen' hall' hadj' l hl
      | run ts =>
        cases bs' with
        | nil =>
          rw [show htmlLines [Block.run ts]
              = closeRun (openRun (runLines ts)) from rfl] at hl
          exact head_mem_close hl
        | cons b2 bs2 =>
          rw [show htmlLines (Block.run ts :: b2 :: bs2)
              = openRun (runLines ts)
                ++ ("</ul>".toList ++ rawBlockLine b2) :: htmlLines bs2 from rfl,
            List.mem_append, List.mem_cons] at hl
          rcases hl with hl | hl | hl
          · exact head_mem_open hl
          · rw [hl]
            rfl
          · have hlen2 : bs2.length ≤ n := by
              rw [List.length_cons, List.length_cons] at hlen
              omega
            exact ih bs2 hlen2 (fun x hx => hall x (by simp [hx]))
              (noAdjRun_tail hadj') l hl

/-- **C10** (counterexample to the claim as written): the spec's implicit
claim is that every remaining non-empty line is wrapped in `<p>…</p>`, but
the `<ul>`-wrapping regex consumes the bullet run's trailing newline, so
the line right after a bullet run is glued to the run's `</ul>` and emitted
verbatim: `"- a\nc"` becomes `"<ul><li>a</li>\n</ul>c"`, and the inserted
fragment contains no `<p>c</p>` anywhere. -/
theorem markdown_line_after_run_not_p_wrapped :
    markdownToHtml "- a\nc" = "<ul><li>a</li>\n</ul>c" ∧
    jsIncludes (markdownToHtml "- a\nc") "<p>c</p>" = false := by
  constructor
  · decide
  · decide

/-- The structured document used to witness the corrected C10 claim. -/
def c10doc : List MdLine :=
  [MdLine.heading 1 [Blob.txt "Title".toList], MdLine.blank,
   MdLine.bullet true [Blob.txt "a".toList],
   MdLine.bullet false [Blob.bold "b".toList],
   MdLine.plain [Blob.txt "See ".toList, Blob.bold "this".toList]]

/-- The editor state used to witness the corrected C10 claim. -/
def c10st : EditorState :=
  { sections := [{ id := 7, title := "Problem Statement",
                   content := "orig", section_order := 0 }],
    activeSection := none }

/-- The target section row of the C10 witness state. -/
def c10target : DocSection :=
  { id := 7, title := "Problem Statement", content := "orig",
    section_order := 0 }

/-- **C10** (corrected): for every well-formed structured markdown document,
`markdownToHtml` of its rendering equals the joined `htmlLines` of its block
structure — headings become `<h3>` lines, `**bold**` spans become
`<strong>`, each bullet run becomes a single `<ul>` of `<li>` lines, blank
lines are dropped and plain lines are `<p>`-wrapped, except that the line
right after a bullet run is glued to the run's `</ul>` and emitted
verbatim — every resulting line starts with `<` (so no `# `, `- ` or `* `
markdown marker survives), and `handleInsert` appends exactly
`"\n\n"` plus that converted fragment to the target section's content. -/
theorem insertAI_converts_markdown (doc : List MdLine) (st : EditorState)
    (response : String) (sid : Nat) (target : DocSection)
    (hdoc : goodDoc doc = true)
    (hresp : response = String.mk (renderMd doc))
    (hfind : st.sections.find? (fun s => s.id == sid) = some target) :
    markdownToHtml response = String.mk (joinLines (htmlLines (toBlocks doc))) ∧
    (∀ l ∈ htmlLines (toBlocks doc), l.head? = some '<') ∧
    (handleInsert st response sid).sections
      = st.sections.map fun s =>
          if s.id == sid then
            { s with content :=
                target.content ++ "\n\n"
                  ++ String.mk (joinLines (htmlLines (toBlocks doc))) }
          else s := by
  have hall := (goodDoc_parts hdoc).2
  subst hresp
  have hpipe := markdownToHtml_pipeline doc hdoc
  refine ⟨hpipe, ?_, ?_⟩
  · exact fun l hl => htmlLines_head (toBlocks doc).length _ (Nat.le_refl _)
      (blockOK_toBlocks doc hall) (noAdjRun_toBlocks doc) l hl
  · unfold handleInsert
    simp only [applyOp, hfind]
    rw [hpipe]

/-- Closed witness for the corrected C10 theorem at a concrete document
(`# Title`, a blank line, a `-` bullet, a `*` bullet with bold content, and
a trailing plain line with a bold span) and a concrete editor state. -/
theorem insertAI_converts_markdown_witness :
    goodDoc c10doc = true ∧
    c10st.sections.find? (fun s => s.id == 7) = some c10target ∧
    (markdownToHtml (String.mk (renderMd c10doc))
        = String.mk (joinLines (htmlLines (toBlocks c10doc))) ∧
      (∀ l ∈ htmlLines (toBlocks c10doc), l.head? = some '<') ∧
      (handleInsert c10st (String.mk (renderMd c10doc)) 7).sections
        = c10st.sections.map fun s =>
            if s.id == 7 then
              { s with content :=
                  c10target.content ++ "\n\n"
                    ++ String.mk (joinLines (htmlLines (toBlocks c10doc))) }
            else s) :=
  ⟨by decide, by decide,
    insertAI_converts_markdown c10doc c10st (String.mk (renderMd c10doc)) 7
      c10target (by decide) rfl (by decide)⟩

end Resona
